import Mathlib

/-!
Shallow embedding of `src/game.rs`: the minesweeper game engine.

Modelling conventions:
* `u32` values are `Nat`; every dimension and counter in the source stays far
  below `2 ^ 32`, and the source never relies on wrap-around.
* `Vec<Cell>` is a `List Cell`; `self.cells[idx]` reads are `List.getD idx
  Cell.new` and writes are `List.set`.  Each public operation returns
  `Option`, with `none` modelling the panic Rust raises when the flat index
  of the *argument* coordinates is out of range (all internal accesses are
  in range whenever `cells.length = rows * cols`, which every theorem below
  assumes or establishes).
* the result of `indices.shuffle(&mut rng)` in `place_mines` is an oracle
  parameter `shuffled`; `ValidShuffle` states that it is a permutation of
  the list the source shuffles, which is true of every possible rng outcome.
* `start_time` and `elapsed_seconds` are time bookkeeping that the engine
  never reads back; they are omitted from the state.
-/

inductive Difficulty where
  | Beginner
  | Intermediate
  | Expert
deriving DecidableEq, Repr

def Difficulty.config : Difficulty → Nat × Nat × Nat
  | .Beginner => (9, 9, 10)
  | .Intermediate => (16, 16, 40)
  | .Expert => (16, 30, 99)

inductive CellContent where
  | Empty
  | Mine
  | Number (n : Nat)
deriving DecidableEq, Repr

inductive CellState where
  | Hidden
  | Revealed
  | Flagged
  | QuestionMark
deriving DecidableEq, Repr

structure Cell where
  content : CellContent
  state : CellState
  exploded : Bool
  wrong_flag : Bool
deriving DecidableEq, Repr

/-- `Cell::new`: the default cell. -/
def Cell.new : Cell :=
  { content := .Empty, state := .Hidden, exploded := false, wrong_flag := false }

inductive GameStatus where
  | NotStarted
  | Playing
  | Won
  | Lost
deriving DecidableEq, Repr

structure Minesweeper where
  rows : Nat
  cols : Nat
  mines : Nat
  cells : List Cell
  status : GameStatus
  flags_placed : Nat
deriving DecidableEq, Repr

/-- `Minesweeper::new`. -/
def Minesweeper.new (d : Difficulty) : Minesweeper :=
  { rows := d.config.1
    cols := d.config.2.1
    mines := d.config.2.2
    cells := List.replicate (d.config.1 * d.config.2.1) Cell.new
    status := .NotStarted
    flags_placed := 0 }

/-- `Minesweeper::index`. -/
def Minesweeper.index (g : Minesweeper) (row col : Nat) : Nat :=
  row * g.cols + col

/-- `Minesweeper::neighbors`.  The offset list enumerates `dr` then `dc`
in `-1..=1` order with `(0, 0)` skipped, exactly as the nested `for` loops
do. -/
def Minesweeper.neighbors (g : Minesweeper) (row col : Nat) : List (Nat × Nat) :=
  [((-1 : Int), (-1 : Int)), (-1, 0), (-1, 1), (0, -1), (0, 1), (1, -1), (1, 0), (1, 1)].filterMap
    (fun d =>
      let nr : Int := (row : Int) + d.1
      let nc : Int := (col : Int) + d.2
      if 0 ≤ nr ∧ nr < (g.rows : Int) ∧ 0 ≤ nc ∧ nc < (g.cols : Int) then
        some (nr.toNat, nc.toNat)
      else none)

/-- `Vec::swap_remove`: overwrite position `i` with the last element, then
drop the last element. -/
def swapRemove (l : List Nat) (i : Nat) : List Nat :=
  (l.set i (l.getLast?.getD 0)).dropLast

/-- The list `place_mines` hands to `shuffle`: `(0..total).collect()` with
the safe index removed by `swap_remove` when `position` finds it. -/
def preShuffleIndices (g : Minesweeper) (safeRow safeCol : Nat) : List Nat :=
  let safeIndex := g.index safeRow safeCol
  let indices := List.range (g.rows * g.cols)
  match indices.findIdx? (fun x => x == safeIndex) with
  | some pos => swapRemove indices pos
  | none => indices

/-- The oracle `shuffled` is a possible outcome of `indices.shuffle(&mut rng)`
iff it is a permutation of the pre-shuffle list. -/
def ValidShuffle (g : Minesweeper) (safeRow safeCol : Nat) (shuffled : List Nat) : Prop :=
  shuffled.Perm (preShuffleIndices g safeRow safeCol)

/-- The loop `for &idx in mine_indices { self.cells[idx].content = Mine }`. -/
def setMines (cells : List Cell) (mineIndices : List Nat) : List Cell :=
  mineIndices.foldl (fun cs i => cs.set i { cs.getD i Cell.new with content := .Mine }) cells

/-- The mine-neighbor count computed in `place_mines`. -/
def Minesweeper.countMineNeighbors (g : Minesweeper) (row col : Nat) : Nat :=
  ((g.neighbors row col).filter
    (fun p => (g.cells.getD (g.index p.1 p.2) Cell.new).content == CellContent.Mine)).length

/-- Row-major enumeration of the grid, as the nested `for r { for c }` loops
visit it. -/
def gridPairs (rows cols : Nat) : List (Nat × Nat) :=
  (List.range rows).flatMap (fun r => (List.range cols).map (fun c => (r, c)))

/-- One iteration of the number-calculation loop in `place_mines`. -/
def calcNumbersStep (g : Minesweeper) (p : Nat × Nat) : Minesweeper :=
  let idx := g.index p.1 p.2
  if (g.cells.getD idx Cell.new).content = .Mine then g
  else
    let count := g.countMineNeighbors p.1 p.2
    if 0 < count then
      let c := g.cells.getD idx Cell.new
      { g with cells := g.cells.set idx { c with content := .Number count } }
    else g

/-- The `// Calculate numbers` loop of `place_mines`. -/
def calcNumbers (g : Minesweeper) : Minesweeper :=
  (gridPairs g.rows g.cols).foldl calcNumbersStep g

/-- `Minesweeper::place_mines`, with the shuffle outcome as parameter.  The
source takes the slice `&indices[0..mines]`, which requires
`mines ≤ indices.len()`; that holds in every constructed game
(`mines < rows * cols`), and is assumed by every theorem that uses this. -/
def Minesweeper.place_mines (g : Minesweeper) (shuffled : List Nat) : Minesweeper :=
  calcNumbers { g with cells := setMines g.cells (shuffled.take g.mines) }

/-- Number of cells whose state is `Hidden` (used only for the flood-fill
fuel bound). -/
def hiddenCount (g : Minesweeper) : Nat :=
  (g.cells.filter (fun c => c.state == CellState.Hidden)).length

/-- The body of `for (nr, nc) in self.neighbors(r, c)` inside the flood
fill: reveal a hidden neighbor and push it when its content is `Empty`. -/
def floodVisit (acc : Minesweeper × List (Nat × Nat)) (q : Nat × Nat) :
    Minesweeper × List (Nat × Nat) :=
  let g := acc.1
  let nIdx := g.index q.1 q.2
  let ncell := g.cells.getD nIdx Cell.new
  if ncell.state = .Hidden then
    let g' := { g with cells := g.cells.set nIdx { ncell with state := .Revealed } }
    if ncell.content = .Empty then (g', q :: acc.2) else (g', acc.2)
  else acc

/-- The `while let Some((r, c)) = stack.pop()` loop of the flood fill.  The
head of the list is the top of the `Vec` stack.  Fuel-indexed: the loop
strictly decreases `2 * hiddenCount + stack length` at every iteration (see
the lemmas below), so the fuel used by `flood_fill` is never exhausted. -/
def floodLoop : Nat → Minesweeper → List (Nat × Nat) → Minesweeper
  | 0, g, _ => g
  | _ + 1, g, [] => g
  | fuel + 1, g, p :: rest =>
      let s := (g.neighbors p.1 p.2).foldl floodVisit (g, rest)
      floodLoop fuel s.1 s.2

/-- The flood fill of `reveal`'s `Empty` branch, starting from the stack
`vec![(row, col)]`. -/
def flood_fill (g : Minesweeper) (row col : Nat) : Minesweeper :=
  floodLoop (2 * g.cells.length + 1) g [(row, col)]

/-- Number of cells whose state is `Revealed`. -/
def revealedCount (g : Minesweeper) : Nat :=
  (g.cells.filter (fun c => c.state == CellState.Revealed)).length

/-- `Minesweeper::flag_all_mines`.  The source loop sets `flags_placed` to
the number of mine cells as it flags them and then overwrites the counter
with `self.mines`; only the final assignment is observable. -/
def flag_all_mines (g : Minesweeper) : Minesweeper :=
  { g with
    cells := g.cells.map (fun c => if c.content = .Mine then { c with state := .Flagged } else c)
    flags_placed := g.mines }

/-- `Minesweeper::check_win`. -/
def check_win (g : Minesweeper) : Minesweeper :=
  if revealedCount g = g.rows * g.cols - g.mines then
    flag_all_mines { g with status := .Won }
  else g

/-- `Minesweeper::reveal_all_mines`.  The source runs two independent `if`s
per cell; their conditions are mutually exclusive, so a chained `if` is
equivalent. -/
def reveal_all_mines (g : Minesweeper) : Minesweeper :=
  { g with cells := g.cells.map (fun c =>
      if c.content = .Mine ∧ c.state ≠ .Flagged then { c with state := .Revealed }
      else if c.content ≠ .Mine ∧ c.state = .Flagged then
        { c with state := .Revealed, wrong_flag := true }
      else c) }

/-- `Minesweeper::reveal`.  `shuffled` is consumed only on the `NotStarted`
path (the one call that runs `place_mines`). -/
def Minesweeper.reveal (g : Minesweeper) (row col : Nat) (shuffled : List Nat) :
    Option Minesweeper :=
  if g.status = .Won ∨ g.status = .Lost then some g
  else
    let g1 := if g.status = .NotStarted then
        Minesweeper.place_mines { g with status := .Playing } shuffled
      else g
    let idx := g1.index row col
    if idx < g1.cells.length then
      let cell := g1.cells.getD idx Cell.new
      if cell.state = .Flagged ∨ cell.state = .Revealed then some g1
      else
        match cell.content with
        | .Mine =>
            some (reveal_all_mines
              { g1 with
                status := .Lost
                cells := g1.cells.set idx { cell with state := .Revealed, exploded := true } })
        | .Empty =>
            some (check_win (flood_fill
              { g1 with cells := g1.cells.set idx { cell with state := .Revealed } } row col))
        | .Number _ =>
            some (check_win
              { g1 with cells := g1.cells.set idx { cell with state := .Revealed } })
    else none

/-- `Minesweeper::toggle_flag`. -/
def Minesweeper.toggle_flag (g : Minesweeper) (row col : Nat) : Option Minesweeper :=
  if g.status ≠ .Playing ∧ g.status ≠ .NotStarted then some g
  else
    let idx := g.index row col
    if idx < g.cells.length then
      let cell := g.cells.getD idx Cell.new
      match cell.state with
      | .Hidden =>
          some { g with
            cells := g.cells.set idx { cell with state := .Flagged }
            flags_placed := g.flags_placed + 1 }
      | .Flagged =>
          some { g with
            cells := g.cells.set idx { cell with state := .QuestionMark }
            flags_placed := g.flags_placed - 1 }
      | .QuestionMark =>
          some { g with cells := g.cells.set idx { cell with state := .Hidden } }
      | .Revealed => some g
    else none

/-- `Minesweeper::chord`.  The inner `self.reveal(nr, nc)` calls run with the
status already `Playing`, so the shuffle oracle they receive is irrelevant;
`[]` is passed. -/
def Minesweeper.chord (g : Minesweeper) (row col : Nat) : Option (Minesweeper × Bool) :=
  if g.status ≠ .Playing then some (g, false)
  else
    let idx := g.index row col
    if idx < g.cells.length then
      if (g.cells.getD idx Cell.new).state ≠ .Revealed then some (g, false)
      else
        match (g.cells.getD idx Cell.new).content with
        | .Number n =>
            let ns := g.neighbors row col
            let flagCount := (ns.filter
              (fun p =>
                (g.cells.getD (g.index p.1 p.2) Cell.new).state == CellState.Flagged)).length
            if flagCount = n then
              (ns.foldlM (fun (h : Minesweeper) p =>
                if (h.cells.getD (h.index p.1 p.2) Cell.new).state = .Hidden ∨
                    (h.cells.getD (h.index p.1 p.2) Cell.new).state = .QuestionMark then
                  h.reveal p.1 p.2 []
                else some h) g).map (fun h => (h, true))
            else some (g, false)
        | _ => some (g, false)
    else none

/-- The cell at coordinates `p` (reads through the same flat index the
source uses). -/
def cellAt (g : Minesweeper) (p : Nat × Nat) : Cell :=
  g.cells.getD (g.index p.1 p.2) Cell.new

def stateAt (g : Minesweeper) (p : Nat × Nat) : CellState :=
  (cellAt g p).state

def contentAt (g : Minesweeper) (p : Nat × Nat) : CellContent :=
  (cellAt g p).content

/-- Number of cells whose state is `Flagged`. -/
def flaggedCount (g : Minesweeper) : Nat :=
  (g.cells.filter (fun c => c.state == CellState.Flagged)).length

/-- Number of cells whose content is `Mine`. -/
def mineCellCount (g : Minesweeper) : Nat :=
  (g.cells.filter (fun c => c.content == CellContent.Mine)).length

/-- The cell at flat index `i`. -/
def getCell (g : Minesweeper) (i : Nat) : Cell :=
  g.cells.getD i Cell.new

theorem cellAt_def (g : Minesweeper) (p : Nat × Nat) :
    cellAt g p = getCell g (g.index p.1 p.2) := rfl

theorem getD_set_self {α : Type} {l : List α} {i : Nat} (h : i < l.length) (a d : α) :
    (l.set i a).getD i d = a := by
  rw [List.getD_eq_getElem?_getD, List.getElem?_set_self h, Option.getD_some]

theorem getD_set_ne {α : Type} {l : List α} {i j : Nat} (h : i ≠ j) (a d : α) :
    (l.set i a).getD j d = l.getD j d := by
  rw [List.getD_eq_getElem?_getD, List.getElem?_set_ne h, ← List.getD_eq_getElem?_getD]

theorem getD_map_of_lt {α : Type} (f : α → α) {l : List α} {i : Nat} (h : i < l.length) (d : α) :
    (l.map f).getD i d = f (l.getD i d) := by
  simp [List.getD_eq_getElem?_getD, List.getElem?_map, List.getElem?_eq_getElem h]

theorem getD_mem {α : Type} {l : List α} {i : Nat} (h : i < l.length) (d : α) :
    l.getD i d ∈ l := by
  rw [List.getD_eq_getElem?_getD, List.getElem?_eq_getElem h, Option.getD_some]
  exact List.getElem_mem h

/-- Injectivity of the flat index on in-bounds coordinates. -/
theorem index_inj {g : Minesweeper} {a b a' b' : Nat} (hb : b < g.cols) (hb' : b' < g.cols)
    (h : g.index a b = g.index a' b') : a = a' ∧ b = b' := by
  unfold Minesweeper.index at h
  have key : ∀ x y x' y' : Nat, y' < g.cols → x * g.cols + y = x' * g.cols + y' → x ≤ x' := by
    intro x y x' y' hy heq
    by_contra hlt
    push_neg at hlt
    have h2 : (x' + 1) * g.cols ≤ x * g.cols := Nat.mul_le_mul_right _ hlt
    have h4 : x' * g.cols + g.cols = (x' + 1) * g.cols := by ring
    omega
  have ha : a = a' := Nat.le_antisymm (key a b a' b' hb' h) (key a' b' a b hb h.symm)
  subst ha
  exact ⟨rfl, by omega⟩

/-- In-bounds coordinates give an in-bounds flat index. -/
theorem index_lt {g : Minesweeper} {a b : Nat} (ha : a < g.rows) (hb : b < g.cols) :
    g.index a b < g.rows * g.cols := by
  unfold Minesweeper.index
  calc a * g.cols + b < a * g.cols + g.cols := by omega
    _ = (a + 1) * g.cols := by ring
    _ ≤ g.rows * g.cols := Nat.mul_le_mul_right _ ha

/-- C9: once the status is `Won` or `Lost` it is terminal: `reveal`,
`toggle_flag` and `chord` all return the state unchanged (and `chord`
returns `false`). -/
theorem won_lost_terminal (g : Minesweeper) (row col : Nat) (sh : List Nat)
    (h : g.status = .Won ∨ g.status = .Lost) :
    g.reveal row col sh = some g ∧ g.toggle_flag row col = some g ∧
      g.chord row col = some (g, false) := by
  have hW : g.status ≠ .Playing ∧ g.status ≠ .NotStarted := by
    rcases h with h | h <;> simp [h]
  refine ⟨?_, ?_, ?_⟩
  · unfold Minesweeper.reveal
    rw [if_pos h]
  · unfold Minesweeper.toggle_flag
    rw [if_pos hW]
  · unfold Minesweeper.chord
    rw [if_pos hW.1]

/-- A one-cell already-won game, used to witness the terminal-status theorem. -/
def wonBoard : Minesweeper :=
  { rows := 1, cols := 1, mines := 0, cells := [Cell.new], status := .Won, flags_placed := 0 }

theorem won_lost_terminal_witness :
    (wonBoard.status = .Won ∨ wonBoard.status = .Lost) ∧
      (wonBoard.reveal 0 0 [] = some wonBoard ∧ wonBoard.toggle_flag 0 0 = some wonBoard ∧
        wonBoard.chord 0 0 = some (wonBoard, false)) :=
  ⟨Or.inl rfl, won_lost_terminal wonBoard 0 0 [] (Or.inl rfl)⟩

/-- A 2 x 3 mid-game board: a mine at `(0, 0)`, correct numbers, every cell
hidden.  Used to exhibit the out-of-range indexing behavior. -/
def c2Board : Minesweeper :=
  { rows := 2, cols := 3, mines := 1
    cells :=
      [{ Cell.new with content := .Mine }, { Cell.new with content := .Number 1 },
        Cell.new, { Cell.new with content := .Number 1 },
        { Cell.new with content := .Number 1 }, Cell.new]
    status := .Playing
    flags_placed := 0 }

/-- C2: `reveal` with an out-of-range column does NOT raise a bounds
violation: on the 2 x 3 board, `reveal(0, 3)` computes flat index
`0 * 3 + 3 = 3`, which is still inside the cell vector, and silently
reveals the unrelated valid cell `(1, 0)`.  This contradicts the claim
(and the spec's stated intent) that out-of-range coordinates fail loudly
and never mutate another cell's state. -/
theorem out_of_range_col_silently_mutates :
    c2Board.cols ≤ 3 ∧ (c2Board.reveal 0 3 []).isSome = true ∧
      stateAt ((c2Board.reveal 0 3 []).getD c2Board) (1, 0) = .Revealed ∧
      stateAt c2Board (1, 0) = .Hidden := by decide

/-- The per-cell function `reveal_all_mines` maps over the board. -/
def lossMap (c : Cell) : Cell :=
  if c.content = .Mine ∧ c.state ≠ .Flagged then { c with state := .Revealed }
  else if c.content ≠ .Mine ∧ c.state = .Flagged then
    { c with state := .Revealed, wrong_flag := true }
  else c

theorem reveal_all_mines_eq_map (g : Minesweeper) :
    reveal_all_mines g = { g with cells := g.cells.map lossMap } := rfl

theorem getCell_reveal_all_mines {g : Minesweeper} {i : Nat} (h : i < g.cells.length) :
    getCell (reveal_all_mines g) i = lossMap (getCell g i) :=
  getD_map_of_lt _ h _

/-- `reveal` on a `Playing` state at a revealable mine cell: the exact
resulting state. -/
theorem reveal_eq_of_mine (g : Minesweeper) (row col : Nat) (sh : List Nat)
    (hp : g.status = .Playing)
    (hidx : g.index row col < g.cells.length)
    (hstF : (g.cells.getD (g.index row col) Cell.new).state ≠ .Flagged)
    (hstR : (g.cells.getD (g.index row col) Cell.new).state ≠ .Revealed)
    (hmine : (g.cells.getD (g.index row col) Cell.new).content = .Mine) :
    g.reveal row col sh = some (reveal_all_mines
      { g with
        status := .Lost
        cells := g.cells.set (g.index row col)
          { g.cells.getD (g.index row col) Cell.new with
            state := .Revealed, exploded := true } }) := by
  have hg : g.cells.getD (g.index row col) Cell.new = g.cells[g.index row col] := by
    simp [List.getD_eq_getElem?_getD, List.getElem?_eq_getElem hidx]
  rw [hg] at hstF hstR hmine
  unfold Minesweeper.reveal
  simp [hp, hidx, hstF, hstR, hmine]

/-- C5: in a `Playing` state, revealing a hidden or question-marked mine cell
sets status to `Lost`, marks exactly that one cell exploded, reveals every
unflagged mine, leaves flagged mines flagged, and marks `wrong_flag` (and
reveals) every flagged non-mine cell. -/
theorem reveal_mine_loses (g : Minesweeper) (row col : Nat) (sh : List Nat)
    (hlen : g.cells.length = g.rows * g.cols)
    (hp : g.status = .Playing)
    (hr : row < g.rows) (hc : col < g.cols)
    (hstate : stateAt g (row, col) = .Hidden ∨ stateAt g (row, col) = .QuestionMark)
    (hmine : contentAt g (row, col) = .Mine)
    (hexp : ∀ c ∈ g.cells, c.exploded = false) :
    ∃ g', g.reveal row col sh = some g' ∧
      g'.status = .Lost ∧
      (cellAt g' (row, col)).exploded = true ∧
      (∀ a b : Nat, a < g.rows → b < g.cols → ¬(a = row ∧ b = col) →
        (cellAt g' (a, b)).exploded = false) ∧
      (∀ a b : Nat, a < g.rows → b < g.cols → contentAt g (a, b) = .Mine →
        stateAt g (a, b) ≠ .Flagged → stateAt g' (a, b) = .Revealed) ∧
      (∀ a b : Nat, a < g.rows → b < g.cols → contentAt g (a, b) = .Mine →
        stateAt g (a, b) = .Flagged → stateAt g' (a, b) = .Flagged) ∧
      (∀ a b : Nat, a < g.rows → b < g.cols → contentAt g (a, b) ≠ .Mine →
        stateAt g (a, b) = .Flagged →
        (cellAt g' (a, b)).wrong_flag = true ∧ stateAt g' (a, b) = .Revealed) := by
  have hidx : g.index row col < g.cells.length := by rw [hlen]; exact index_lt hr hc
  have hstF : stateAt g (row, col) ≠ .Flagged := by
    rcases hstate with h | h <;> rw [h] <;> simp
  have hstR : stateAt g (row, col) ≠ .Revealed := by
    rcases hstate with h | h <;> rw [h] <;> simp
  simp only [stateAt, contentAt, cellAt, getCell] at hstF hstR hmine
  set mid : Minesweeper :=
    { g with
      status := .Lost
      cells := g.cells.set (g.index row col)
        { g.cells.getD (g.index row col) Cell.new with
          state := .Revealed, exploded := true } } with hmid
  have hmidlen : mid.cells.length = g.cells.length := by
    rw [hmid]; exact List.length_set _ _ _
  -- pointwise description of the final board
  have hpt : ∀ j, j < g.cells.length →
      getCell (reveal_all_mines mid) j =
        (if j = g.index row col then
          lossMap { g.cells.getD (g.index row col) Cell.new with
            state := .Revealed, exploded := true }
        else lossMap (getCell g j)) := by
    intro j hj
    rw [getCell_reveal_all_mines (by rw [hmidlen]; exact hj)]
    by_cases hcase : j = g.index row col
    · rw [if_pos hcase, hcase]
      congr 1
      show (g.cells.set (g.index row col) _).getD (g.index row col) Cell.new = _
      exact getD_set_self hidx _ _
    · rw [if_neg hcase]
      congr 1
      show (g.cells.set (g.index row col) _).getD j Cell.new = _
      exact getD_set_ne (fun he => hcase he.symm) _ _
  have hcols : (reveal_all_mines mid).cols = g.cols := rfl
  have hAt : ∀ a b : Nat, cellAt (reveal_all_mines mid) (a, b) =
      getCell (reveal_all_mines mid) (g.index a b) := fun a b => rfl
  refine ⟨reveal_all_mines mid,
    reveal_eq_of_mine g row col sh hp hidx hstF hstR hmine, rfl, ?_, ?_, ?_, ?_, ?_⟩
  · -- the clicked cell is exploded
    rw [hAt row col, hpt _ hidx, if_pos rfl]
    unfold lossMap
    rw [if_pos ⟨hmine, by simp⟩]
  · -- no other cell is exploded
    intro a b ha hb hne
    have hj : g.index a b < g.cells.length := by rw [hlen]; exact index_lt ha hb
    have hjne : g.index a b ≠ g.index row col := by
      intro he
      exact hne (index_inj hb hc he)
    rw [hAt, hpt _ hj, if_neg hjne]
    have hbase : (getCell g (g.index a b)).exploded = false :=
      hexp _ (getD_mem hj _)
    unfold lossMap
    split_ifs <;> simpa using hbase
  · -- unflagged mines are revealed
    intro a b ha hb hcm hcf
    simp only [stateAt, contentAt, cellAt, getCell] at hcm hcf
    have hj : g.index a b < g.cells.length := by rw [hlen]; exact index_lt ha hb
    show (cellAt (reveal_all_mines mid) (a, b)).state = _
    rw [hAt, hpt _ hj]
    by_cases hcase : g.index a b = g.index row col
    · rw [if_pos hcase]
      unfold lossMap
      rw [if_pos ⟨hmine, by simp⟩]
    · rw [if_neg hcase]
      unfold lossMap
      rw [if_pos ⟨hcm, hcf⟩]
  · -- flagged mines stay flagged
    intro a b ha hb hcm hcf
    simp only [stateAt, contentAt, cellAt, getCell] at hcm hcf
    have hj : g.index a b < g.cells.length := by rw [hlen]; exact index_lt ha hb
    have hcase : g.index a b ≠ g.index row col := by
      intro he
      obtain ⟨h1, h2⟩ := index_inj hb hc he
      subst h1; subst h2
      exact hstF hcf
    show (cellAt (reveal_all_mines mid) (a, b)).state = _
    rw [hAt, hpt _ hj, if_neg hcase]
    unfold lossMap
    rw [if_neg (by rintro ⟨-, hcon⟩; exact hcon hcf),
      if_neg (by rintro ⟨hcon, -⟩; exact hcon hcm)]
    exact hcf
  · -- flagged non-mines: wrong_flag and revealed
    intro a b ha hb hcm hcf
    simp only [stateAt, contentAt, cellAt, getCell] at hcm hcf
    have hj : g.index a b < g.cells.length := by rw [hlen]; exact index_lt ha hb
    have hcase : g.index a b ≠ g.index row col := by
      intro he
      obtain ⟨h1, h2⟩ := index_inj hb hc he
      subst h1; subst h2
      exact hcm hmine
    constructor
    · rw [hAt a b, hpt _ hj, if_neg hcase]
      unfold lossMap
      rw [if_neg (by rintro ⟨hcon, -⟩; exact hcm hcon), if_pos ⟨hcm, hcf⟩]
    · show (cellAt (reveal_all_mines mid) (a, b)).state = _
      rw [hAt a b, hpt _ hj, if_neg hcase]
      unfold lossMap
      rw [if_neg (by rintro ⟨hcon, -⟩; exact hcm hcon), if_pos ⟨hcm, hcf⟩]

theorem foldl_inv {α β : Type} (P : β → Prop) (f : β → α → β)
    (step : ∀ b a, P b → P (f b a)) : ∀ (l : List α) (b : β), P b → P (l.foldl f b) := by
  intro l
  induction l with
  | nil => exact fun b h => h
  | cons a t ih => exact fun b h => ih _ (step b a h)

theorem foldl_inv_mem {α β : Type} (P : β → Prop) :
    ∀ (l : List α) (f : β → α → β), (∀ b a, a ∈ l → P b → P (f b a)) →
      ∀ b, P b → P (l.foldl f b) := by
  intro l
  induction l with
  | nil => exact fun _ _ b h => h
  | cons a t ih =>
    intro f hstep b h
    exact ih f (fun b x hx hb => hstep b x (List.mem_cons_of_mem _ hx) hb) _
      (hstep b a (List.mem_cons_self _ _) h)

theorem getD_set {α : Type} (l : List α) (i j : Nat) (a d : α) :
    (l.set i a).getD j d = if i = j ∧ j < l.length then a else l.getD j d := by
  by_cases h1 : i = j
  · subst h1
    by_cases h2 : i < l.length
    · rw [if_pos ⟨rfl, h2⟩]
      exact getD_set_self h2 _ _
    · rw [if_neg (fun hcon => h2 hcon.2), List.set_eq_of_length_le (by omega)]
  · rw [if_neg (fun hcon => h1 hcon.1)]
    exact getD_set_ne h1 _ _

/-- How a single cell can change across the flood fill: only the state, and
only from `Hidden` to `Revealed`. -/
def CellEvol (c c' : Cell) : Prop :=
  c'.content = c.content ∧ c'.exploded = c.exploded ∧ c'.wrong_flag = c.wrong_flag ∧
    (c'.state = c.state ∨ (c.state = .Hidden ∧ c'.state = .Revealed))

theorem cellEvol_refl (c : Cell) : CellEvol c c :=
  ⟨rfl, rfl, rfl, Or.inl rfl⟩

theorem cellEvol_trans {a b c : Cell} (h1 : CellEvol a b) (h2 : CellEvol b c) :
    CellEvol a c := by
  obtain ⟨c1, e1, w1, s1⟩ := h1
  obtain ⟨c2, e2, w2, s2⟩ := h2
  refine ⟨c2.trans c1, e2.trans e1, w2.trans w1, ?_⟩
  rcases s1 with s1 | ⟨sh1, sr1⟩
  · rcases s2 with s2 | ⟨sh2, sr2⟩
    · exact Or.inl (s2.trans s1)
    · exact Or.inr ⟨s1 ▸ sh2, sr2⟩
  · rcases s2 with s2 | ⟨sh2, sr2⟩
    · exact Or.inr ⟨sh1, s2.trans sr1⟩
    · exact Or.inr ⟨sh1, sr2⟩

theorem floodVisit_fields (acc : Minesweeper × List (Nat × Nat)) (q : Nat × Nat) :
    (floodVisit acc q).1.rows = acc.1.rows ∧ (floodVisit acc q).1.cols = acc.1.cols ∧
      (floodVisit acc q).1.mines = acc.1.mines ∧ (floodVisit acc q).1.status = acc.1.status ∧
      (floodVisit acc q).1.flags_placed = acc.1.flags_placed ∧
      (floodVisit acc q).1.cells.length = acc.1.cells.length := by
  unfold floodVisit
  dsimp only
  split_ifs <;> simp

theorem floodVisit_evol (acc : Minesweeper × List (Nat × Nat)) (q : Nat × Nat) (j : Nat) :
    CellEvol (getCell acc.1 j) (getCell (floodVisit acc q).1 j) := by
  unfold floodVisit getCell
  dsimp only
  split_ifs with h1 h2
  · rw [getD_set]
    split_ifs with h3
    · obtain ⟨hji, hlt⟩ := h3
      subst hji
      exact ⟨rfl, rfl, rfl, Or.inr ⟨h1, rfl⟩⟩
    · exact cellEvol_refl _
  · rw [getD_set]
    split_ifs with h3
    · obtain ⟨hji, hlt⟩ := h3
      subst hji
      exact ⟨rfl, rfl, rfl, Or.inr ⟨h1, rfl⟩⟩
    · exact cellEvol_refl _
  · exact cellEvol_refl _

/-- Items already on the stack are never removed during the neighbor fold. -/
theorem floodVisit_stack_mono (acc : Minesweeper × List (Nat × Nat)) (q : Nat × Nat)
    {x : Nat × Nat} (h : x ∈ acc.2) : x ∈ (floodVisit acc q).2 := by
  unfold floodVisit
  dsimp only
  split_ifs <;> simp [h]

theorem index_congr {g g' : Minesweeper} (hc : g'.cols = g.cols) (a b : Nat) :
    g'.index a b = g.index a b := by
  unfold Minesweeper.index
  rw [hc]

theorem neighbors_congr {g g' : Minesweeper} (hr : g'.rows = g.rows) (hc : g'.cols = g.cols)
    (r c : Nat) : g'.neighbors r c = g.neighbors r c := by
  unfold Minesweeper.neighbors
  rw [hr, hc]

/-- Every member of a `neighbors` list is in bounds. -/
theorem mem_neighbors_bounds {g : Minesweeper} {r c : Nat} {q : Nat × Nat}
    (h : q ∈ g.neighbors r c) : q.1 < g.rows ∧ q.2 < g.cols := by
  unfold Minesweeper.neighbors at h
  rw [List.mem_filterMap] at h
  obtain ⟨d, _, heq⟩ := h
  revert heq
  dsimp only
  split_ifs with hcond
  · intro heq
    obtain ⟨h1, h2, h3, h4⟩ := hcond
    cases heq
    constructor
    · show ((r : Int) + d.1).toNat < g.rows
      omega
    · show ((c : Int) + d.2).toNat < g.cols
      omega
  · intro heq
    cases heq

/-- Contents at every in-bounds cell transfer the `EmptyNbrOK` property. -/
def EmptyNbrOK (g : Minesweeper) : Prop :=
  ∀ a b : Nat, a < g.rows → b < g.cols →
    (getCell g (g.index a b)).content = .Empty →
    ∀ q ∈ g.neighbors a b, (getCell g (g.index q.1 q.2)).content ≠ .Mine

theorem emptyNbrOK_congr {g g' : Minesweeper} (hr : g'.rows = g.rows) (hc : g'.cols = g.cols)
    (hcont : ∀ j, (getCell g' j).content = (getCell g j).content) (h : EmptyNbrOK g) :
    EmptyNbrOK g' := by
  intro a b ha hb he q hq
  rw [index_congr hc] at he ⊢
  rw [neighbors_congr hr hc] at hq
  rw [hcont] at he ⊢
  exact h a b (hr ▸ ha) (hc ▸ hb) he q hq

theorem flaggedCount_eq_countP (g : Minesweeper) :
    flaggedCount g = g.cells.countP (fun c => c.state == CellState.Flagged) :=
  (List.countP_eq_length_filter _ _).symm

/-- One flood-fill iteration's neighbor fold: fields, contents, mine cells
and the flagged-cell count are preserved; every cell evolves per `CellEvol`;
new stack entries are hidden empty neighbors of the popped cell. -/
theorem floodFold_main (g : Minesweeper) (st : List (Nat × Nat)) (p : Nat × Nat)
    (hp1 : p.1 < g.rows) (hp2 : p.2 < g.cols)
    (hpe : (getCell g (g.index p.1 p.2)).content = .Empty)
    (hok : EmptyNbrOK g) (res : Minesweeper × List (Nat × Nat))
    (hres : res = (g.neighbors p.1 p.2).foldl floodVisit (g, st)) :
    (res.1.rows = g.rows ∧ res.1.cols = g.cols ∧ res.1.mines = g.mines ∧
      res.1.status = g.status ∧ res.1.flags_placed = g.flags_placed ∧
      res.1.cells.length = g.cells.length) ∧
    (∀ j, CellEvol (getCell g j) (getCell res.1 j)) ∧
    (∀ j, (getCell g j).content = .Mine → getCell res.1 j = getCell g j) ∧
    flaggedCount res.1 = flaggedCount g ∧
    (∀ x ∈ res.2, x ∈ st ∨ (x ∈ g.neighbors p.1 p.2 ∧
      (getCell g (g.index x.1 x.2)).content = .Empty ∧
      (getCell g (g.index x.1 x.2)).state = .Hidden)) := by
  subst hres
  refine foldl_inv_mem (fun acc =>
      (acc.1.rows = g.rows ∧ acc.1.cols = g.cols ∧ acc.1.mines = g.mines ∧
        acc.1.status = g.status ∧ acc.1.flags_placed = g.flags_placed ∧
        acc.1.cells.length = g.cells.length) ∧
      (∀ j, CellEvol (getCell g j) (getCell acc.1 j)) ∧
      (∀ j, (getCell g j).content = .Mine → getCell acc.1 j = getCell g j) ∧
      flaggedCount acc.1 = flaggedCount g ∧
      (∀ x ∈ acc.2, x ∈ st ∨ (x ∈ g.neighbors p.1 p.2 ∧
        (getCell g (g.index x.1 x.2)).content = .Empty ∧
        (getCell g (g.index x.1 x.2)).state = .Hidden)))
    (g.neighbors p.1 p.2) floodVisit ?_ (g, st)
    ⟨⟨rfl, rfl, rfl, rfl, rfl, rfl⟩, fun j => cellEvol_refl _, fun j _ => rfl, rfl,
      fun x hx => Or.inl hx⟩
  rintro b q hq ⟨⟨b1, b2, b3, b4, b5, b6⟩, bevol, bmine, bflag, bstack⟩
  obtain ⟨f1, f2, f3, f4, f5, f6⟩ := floodVisit_fields b q
  have hidxq : b.1.index q.1 q.2 = g.index q.1 q.2 := index_congr b2 _ _
  have hqmine : (getCell g (g.index q.1 q.2)).content ≠ .Mine :=
    hok p.1 p.2 hp1 hp2 hpe q hq
  refine ⟨⟨f1.trans b1, f2.trans b2, f3.trans b3, f4.trans b4, f5.trans b5, f6.trans b6⟩,
    fun j => cellEvol_trans (bevol j) (floodVisit_evol b q j), ?_, ?_, ?_⟩
  · -- mine cells untouched
    intro j hj
    rw [← bmine j hj]
    unfold floodVisit
    dsimp only
    split_ifs with h1 h2
    · show getCell _ j = getCell b.1 j
      unfold getCell
      dsimp only
      rw [getD_set]
      split_ifs with h3
      · exfalso
        apply hqmine
        rw [← hidxq, h3.1]
        rw [← ((bevol j).1), bmine j hj]
        exact hj
      · rfl
    · show getCell _ j = getCell b.1 j
      unfold getCell
      dsimp only
      rw [getD_set]
      split_ifs with h3
      · exfalso
        apply hqmine
        rw [← hidxq, h3.1]
        rw [← ((bevol j).1), bmine j hj]
        exact hj
      · rfl
    · rfl
  · -- flagged count preserved
    rw [← bflag]
    unfold floodVisit
    dsimp only
    split_ifs with h1 h2
    all_goals (first
      | rfl
      | · show flaggedCount { b.1 with cells := _ } = flaggedCount b.1
          rw [flaggedCount_eq_countP, flaggedCount_eq_countP]
          dsimp only
          by_cases hlt : b.1.index q.1 q.2 < b.1.cells.length
          · rw [List.countP_set _ _ _ _ hlt]
            have hstate : b.1.cells[b.1.index q.1 q.2].state = .Hidden := by
              have : b.1.cells.getD (b.1.index q.1 q.2) Cell.new =
                  b.1.cells[b.1.index q.1 q.2] := by
                rw [List.getD_eq_getElem?_getD, List.getElem?_eq_getElem hlt]
                rfl
              rw [← this]
              exact h1
            simp [hstate]
          · rw [List.set_eq_of_length_le (by omega)])
  · -- stack entries
    intro x hx
    unfold floodVisit at hx
    dsimp only at hx
    split_ifs at hx with h1 h2
    · rcases List.mem_cons.mp hx with hxq | hxb
      · subst hxq
        rw [hidxq] at h1 h2
        have hco : (getCell b.1 (g.index x.1 x.2)).content =
            (getCell g (g.index x.1 x.2)).content := (bevol _).1
        have hst := (bevol (g.index x.1 x.2)).2.2.2
        refine Or.inr ⟨hq, ?_, ?_⟩
        · rw [← hco]
          exact h2
        · rcases hst with hs | ⟨hsh, _⟩
          · rw [← hs]
            exact h1
          · exact hsh
      · exact bstack x hxb
    · exact bstack x hx
    · exact bstack x hx

/-- The flood-fill loop preserves fields, contents, mine cells and the
flagged count, and every cell changes only from `Hidden` to `Revealed`,
provided every stack entry is an in-bounds empty cell. -/
theorem floodLoop_main : ∀ (fuel : Nat) (g : Minesweeper) (st : List (Nat × Nat)),
    EmptyNbrOK g →
    (∀ x ∈ st, x.1 < g.rows ∧ x.2 < g.cols ∧
      (getCell g (g.index x.1 x.2)).content = .Empty) →
    ((floodLoop fuel g st).rows = g.rows ∧ (floodLoop fuel g st).cols = g.cols ∧
      (floodLoop fuel g st).mines = g.mines ∧ (floodLoop fuel g st).status = g.status ∧
      (floodLoop fuel g st).flags_placed = g.flags_placed ∧
      (floodLoop fuel g st).cells.length = g.cells.length) ∧
    (∀ j, CellEvol (getCell g j) (getCell (floodLoop fuel g st) j)) ∧
    (∀ j, (getCell g j).content = .Mine → getCell (floodLoop fuel g st) j = getCell g j) ∧
    flaggedCount (floodLoop fuel g st) = flaggedCount g := by
  intro fuel
  induction fuel with
  | zero =>
    intro g st _ _
    exact ⟨⟨rfl, rfl, rfl, rfl, rfl, rfl⟩, fun j => cellEvol_refl _, fun _ _ => rfl, rfl⟩
  | succ n ih =>
    intro g st hok hst
    cases st with
    | nil =>
      exact ⟨⟨rfl, rfl, rfl, rfl, rfl, rfl⟩, fun j => cellEvol_refl _, fun _ _ => rfl, rfl⟩
    | cons p rest =>
      obtain ⟨hp1, hp2, hpe⟩ := hst p (List.mem_cons_self _ _)
      obtain ⟨⟨s1, s2, s3, s4, s5, s6⟩, sevol, smine, sflag, sstack⟩ :=
        floodFold_main g rest p hp1 hp2 hpe hok _ rfl
      set S := (g.neighbors p.1 p.2).foldl floodVisit (g, rest) with hS
      have hok' : EmptyNbrOK S.1 := emptyNbrOK_congr s1 s2 (fun j => (sevol j).1) hok
      have hst' : ∀ x ∈ S.2, x.1 < S.1.rows ∧ x.2 < S.1.cols ∧
          (getCell S.1 (S.1.index x.1 x.2)).content = .Empty := by
        intro x hx
        have hgfacts : x.1 < g.rows ∧ x.2 < g.cols ∧
            (getCell g (g.index x.1 x.2)).content = .Empty := by
          rcases sstack x hx with hmem | ⟨hn, he, _⟩
          · exact hst x (List.mem_cons_of_mem _ hmem)
          · obtain ⟨hb1, hb2⟩ := mem_neighbors_bounds hn
            exact ⟨hb1, hb2, he⟩
        refine ⟨s1 ▸ hgfacts.1, s2 ▸ hgfacts.2.1, ?_⟩
        rw [index_congr s2, (sevol _).1]
        exact hgfacts.2.2
      obtain ⟨⟨r1, r2, r3, r4, r5, r6⟩, revol, rmine, rflag⟩ := ih S.1 S.2 hok' hst'
      have hloopeq : floodLoop (n + 1) g (p :: rest) = floodLoop n S.1 S.2 := by
        rw [hS]
        rfl
      rw [hloopeq]
      refine ⟨⟨r1.trans s1, r2.trans s2, r3.trans s3, r4.trans s4, r5.trans s5, r6.trans s6⟩,
        fun j => cellEvol_trans (sevol j) (revol j), ?_, rflag.trans sflag⟩
      intro j hj
      rw [rmine j (by rw [(sevol j).1]; exact hj), smine j hj]

theorem setMines_cons (cs : List Cell) (i : Nat) (t : List Nat) :
    setMines cs (i :: t) =
      setMines (cs.set i { cs.getD i Cell.new with content := .Mine }) t := rfl

theorem setMines_length : ∀ (l : List Nat) (cs : List Cell),
    (setMines cs l).length = cs.length := by
  intro l
  induction l with
  | nil => intro cs; rfl
  | cons i t ih =>
    intro cs
    rw [setMines_cons, ih, List.length_set]

/-- Pointwise description of `setMines`: the listed indices get `Mine`
content (all other cell fields kept), everything else is untouched. -/
theorem getD_setMines : ∀ (l : List Nat) (cs : List Cell) (j : Nat), j < cs.length →
    (setMines cs l).getD j Cell.new =
      if j ∈ l then { cs.getD j Cell.new with content := .Mine } else cs.getD j Cell.new := by
  intro l
  induction l with
  | nil =>
    intro cs j hj
    simp [setMines]
  | cons i t ih =>
    intro cs j hj
    rw [setMines_cons, ih _ j (by rw [List.length_set]; exact hj)]
    by_cases hjt : j ∈ t
    · rw [if_pos hjt, if_pos (List.mem_cons_of_mem _ hjt), getD_set]
      split_ifs with hcase
      · obtain ⟨hij, _⟩ := hcase
        subst hij
        rfl
      · rfl
    · rw [if_neg hjt, getD_set]
      by_cases hij : i = j
      · subst hij
        rw [if_pos ⟨rfl, hj⟩, if_pos (List.mem_cons_self _ _)]
      · rw [if_neg (fun hcc => hij hcc.1), if_neg (by
          intro hmem
          rcases List.mem_cons.mp hmem with h1 | h2
          · exact hij h1.symm
          · exact hjt h2)]

theorem calcNumbersStep_fields (g : Minesweeper) (p : Nat × Nat) :
    (calcNumbersStep g p).rows = g.rows ∧ (calcNumbersStep g p).cols = g.cols ∧
      (calcNumbersStep g p).mines = g.mines ∧ (calcNumbersStep g p).status = g.status ∧
      (calcNumbersStep g p).flags_placed = g.flags_placed ∧
      (calcNumbersStep g p).cells.length = g.cells.length := by
  unfold calcNumbersStep
  dsimp only
  split_ifs <;> simp

theorem getCell_calcNumbersStep_ne (g : Minesweeper) (p : Nat × Nat) {j : Nat}
    (hne : g.index p.1 p.2 ≠ j) : getCell (calcNumbersStep g p) j = getCell g j := by
  unfold calcNumbersStep getCell
  dsimp only
  split_ifs with h1 h2
  · rfl
  · rw [getD_set, if_neg (fun hc => hne hc.1)]
  · rfl

theorem getCell_calcNumbersStep_self (g : Minesweeper) (p : Nat × Nat)
    (hj : g.index p.1 p.2 < g.cells.length) :
    getCell (calcNumbersStep g p) (g.index p.1 p.2) =
      (if (getCell g (g.index p.1 p.2)).content = .Mine then getCell g (g.index p.1 p.2)
       else if 0 < g.countMineNeighbors p.1 p.2 then
         { getCell g (g.index p.1 p.2) with content := .Number (g.countMineNeighbors p.1 p.2) }
       else getCell g (g.index p.1 p.2)) := by
  unfold calcNumbersStep getCell
  dsimp only
  split_ifs with h1 h2
  · rfl
  · rw [getD_set, if_pos ⟨rfl, hj⟩]
  · rfl

theorem mineAt_calcNumbersStep (g : Minesweeper) (p : Nat × Nat) (j : Nat) :
    ((getCell (calcNumbersStep g p) j).content = .Mine) ↔ ((getCell g j).content = .Mine) := by
  unfold calcNumbersStep getCell
  dsimp only
  split_ifs with h1 h2
  · exact Iff.rfl
  · rw [getD_set]
    split_ifs with h3
    · constructor
      · intro hcon
        cases hcon
      · intro hcon
        exact absurd (h3.1 ▸ hcon) h1
    · exact Iff.rfl
  · exact Iff.rfl

theorem countMineNeighbors_congr {g g' : Minesweeper} (hr : g'.rows = g.rows)
    (hc : g'.cols = g.cols)
    (hm : ∀ j, ((getCell g' j).content = .Mine) ↔ ((getCell g j).content = .Mine))
    (r c : Nat) : g'.countMineNeighbors r c = g.countMineNeighbors r c := by
  unfold Minesweeper.countMineNeighbors
  rw [neighbors_congr hr hc]
  congr 1
  apply List.filter_congr
  intro q _
  rw [index_congr hc]
  simp only [getCell] at hm
  rw [Bool.eq_iff_iff]
  simp only [beq_iff_eq]
  exact hm (g.index q.1 q.2)

theorem calcFold_fields : ∀ (ps : List (Nat × Nat)) (g : Minesweeper),
    ((ps.foldl calcNumbersStep g).rows = g.rows ∧ (ps.foldl calcNumbersStep g).cols = g.cols ∧
      (ps.foldl calcNumbersStep g).mines = g.mines ∧
      (ps.foldl calcNumbersStep g).status = g.status ∧
      (ps.foldl calcNumbersStep g).flags_placed = g.flags_placed ∧
      (ps.foldl calcNumbersStep g).cells.length = g.cells.length) := by
  intro ps
  induction ps with
  | nil => intro g; exact ⟨rfl, rfl, rfl, rfl, rfl, rfl⟩
  | cons q t ih =>
    intro g
    rw [List.foldl_cons]
    obtain ⟨r1, r2, r3, r4, r5, r6⟩ := ih (calcNumbersStep g q)
    obtain ⟨s1, s2, s3, s4, s5, s6⟩ := calcNumbersStep_fields g q
    exact ⟨r1.trans s1, r2.trans s2, r3.trans s3, r4.trans s4, r5.trans s5, r6.trans s6⟩

theorem calcFold_mineAt : ∀ (ps : List (Nat × Nat)) (g : Minesweeper) (j : Nat),
    ((getCell (ps.foldl calcNumbersStep g) j).content = .Mine) ↔
      ((getCell g j).content = .Mine) := by
  intro ps
  induction ps with
  | nil => intro g j; exact Iff.rfl
  | cons q t ih =>
    intro g j
    rw [List.foldl_cons]
    exact (ih (calcNumbersStep g q) j).trans (mineAt_calcNumbersStep g q j)

theorem calcFold_stateAt : ∀ (ps : List (Nat × Nat)) (g : Minesweeper) (j : Nat),
    (getCell (ps.foldl calcNumbersStep g) j).state = (getCell g j).state ∧
      (getCell (ps.foldl calcNumbersStep g) j).exploded = (getCell g j).exploded ∧
      (getCell (ps.foldl calcNumbersStep g) j).wrong_flag = (getCell g j).wrong_flag := by
  intro ps
  induction ps with
  | nil => intro g j; exact ⟨rfl, rfl, rfl⟩
  | cons q t ih =>
    intro g j
    rw [List.foldl_cons]
    obtain ⟨r1, r2, r3⟩ := ih (calcNumbersStep g q) j
    have hstep : (getCell (calcNumbersStep g q) j).state = (getCell g j).state ∧
        (getCell (calcNumbersStep g q) j).exploded = (getCell g j).exploded ∧
        (getCell (calcNumbersStep g q) j).wrong_flag = (getCell g j).wrong_flag := by
      unfold calcNumbersStep getCell
      dsimp only
      split_ifs with h1 h2
      · exact ⟨rfl, rfl, rfl⟩
      · rw [getD_set]
        split_ifs with h3
        · obtain ⟨hij, _⟩ := h3
          rw [← hij]
          exact ⟨rfl, rfl, rfl⟩
        · exact ⟨rfl, rfl, rfl⟩
      · exact ⟨rfl, rfl, rfl⟩
    exact ⟨r1.trans hstep.1, r2.trans hstep.2.1, r3.trans hstep.2.2⟩

theorem calcFold_untouched : ∀ (ps : List (Nat × Nat)) (g : Minesweeper) (j : Nat),
    (∀ p ∈ ps, g.index p.1 p.2 ≠ j) →
    getCell (ps.foldl calcNumbersStep g) j = getCell g j := by
  intro ps
  induction ps with
  | nil => intro g j _; rfl
  | cons q t ih =>
    intro g j hne
    rw [List.foldl_cons]
    have hcols : (calcNumbersStep g q).cols = g.cols := (calcNumbersStep_fields g q).2.1
    rw [ih (calcNumbersStep g q) j (by
      intro p hp
      rw [index_congr hcols]
      exact hne p (List.mem_cons_of_mem _ hp))]
    exact getCell_calcNumbersStep_ne g q (hne q (List.mem_cons_self _ _))

/-- Full characterization of the number-calculation fold on a list of pairs
with distinct in-bounds indices: each listed cell ends up with the formula
the loop computes from the (invariant) mine layout. -/
theorem calcFold_char : ∀ (ps : List (Nat × Nat)) (g : Minesweeper),
    (∀ p ∈ ps, g.index p.1 p.2 < g.cells.length) →
    (ps.map (fun p => g.index p.1 p.2)).Nodup →
    ∀ p ∈ ps,
      getCell (ps.foldl calcNumbersStep g) (g.index p.1 p.2) =
        (if (getCell g (g.index p.1 p.2)).content = .Mine then getCell g (g.index p.1 p.2)
         else if 0 < g.countMineNeighbors p.1 p.2 then
           { getCell g (g.index p.1 p.2) with content := .Number (g.countMineNeighbors p.1 p.2) }
         else getCell g (g.index p.1 p.2)) := by
  intro ps
  induction ps with
  | nil => intro g _ _ p hp; cases hp
  | cons q t ih =>
    intro g hb hnd p hp
    rw [List.foldl_cons]
    have hfields := calcNumbersStep_fields g q
    have hcols : (calcNumbersStep g q).cols = g.cols := hfields.2.1
    have hrows : (calcNumbersStep g q).rows = g.rows := hfields.1
    obtain ⟨hhead0, hndt⟩ := List.nodup_cons.mp hnd
    have hhead : g.index q.1 q.2 ∉ t.map (fun y => g.index y.1 y.2) := hhead0
    rcases List.mem_cons.mp hp with hpq | hpt
    · subst hpq
      rw [calcFold_untouched t (calcNumbersStep g p) (g.index p.1 p.2) (by
        intro x hx
        rw [index_congr hcols]
        intro hcon
        apply hhead
        rw [← hcon]
        exact List.mem_map_of_mem _ hx)]
      exact getCell_calcNumbersStep_self g p (hb p (List.mem_cons_self _ _))
    · have hqne : g.index q.1 q.2 ≠ g.index p.1 p.2 := by
        intro hcon
        apply hhead
        rw [hcon]
        exact List.mem_map_of_mem _ hpt
      have hbt : ∀ x ∈ t, (calcNumbersStep g q).index x.1 x.2 <
          (calcNumbersStep g q).cells.length := by
        intro x hx
        rw [index_congr hcols, hfields.2.2.2.2.2]
        exact hb x (List.mem_cons_of_mem _ hx)
      have hmap : t.map (fun y => (calcNumbersStep g q).index y.1 y.2) =
          t.map (fun y => g.index y.1 y.2) := by
        apply List.map_congr_left
        intro y _
        exact index_congr hcols y.1 y.2
      have hndt' : (t.map (fun y => (calcNumbersStep g q).index y.1 y.2)).Nodup := by
        rw [hmap]
        exact hndt
      have hrec := ih (calcNumbersStep g q) hbt hndt' p hpt
      rw [index_congr hcols] at hrec
      rw [hrec, getCell_calcNumbersStep_ne g q hqne,
        countMineNeighbors_congr hrows hcols (mineAt_calcNumbersStep g q) p.1 p.2]

theorem mem_gridPairs {R C : Nat} {p : Nat × Nat} :
    p ∈ gridPairs R C ↔ p.1 < R ∧ p.2 < C := by
  unfold gridPairs
  rw [List.mem_flatMap]
  constructor
  · rintro ⟨r, hr, hp⟩
    rw [List.mem_map] at hp
    obtain ⟨c, hc, hrc⟩ := hp
    rw [← hrc]
    exact ⟨List.mem_range.mp hr, List.mem_range.mp hc⟩
  · rintro ⟨h1, h2⟩
    refine ⟨p.1, List.mem_range.mpr h1, ?_⟩
    rw [List.mem_map]
    exact ⟨p.2, List.mem_range.mpr h2, rfl⟩

theorem gridPairs_succ (R C : Nat) :
    gridPairs (R + 1) C = gridPairs R C ++ (List.range C).map (fun c => (R, c)) := by
  unfold gridPairs
  rw [List.range_succ, List.flatMap_append]
  simp

theorem map_index_gridPairs (R C : Nat) :
    (gridPairs R C).map (fun p => p.1 * C + p.2) = List.range (R * C) := by
  induction R with
  | zero =>
    rw [Nat.zero_mul]
    simp [gridPairs]
  | succ n ih =>
    rw [gridPairs_succ, List.map_append, ih, Nat.succ_mul, List.range_add, List.map_map]
    congr 1

theorem nodup_index_gridPairs (g : Minesweeper) :
    ((gridPairs g.rows g.cols).map (fun p => g.index p.1 p.2)).Nodup := by
  have heq : (gridPairs g.rows g.cols).map (fun p => g.index p.1 p.2) =
      (gridPairs g.rows g.cols).map (fun p => p.1 * g.cols + p.2) :=
    List.map_congr_left (fun p _ => rfl)
  rw [heq, map_index_gridPairs]
  exact List.nodup_range _

theorem getLast_range_getD {n : Nat} (hn : 0 < n) :
    (List.range n).getLast?.getD 0 = n - 1 := by
  rw [List.getLast?_eq_getElem?, List.length_range,
    List.getElem?_eq_getElem (by rw [List.length_range]; omega), Option.getD_some,
    List.getElem_range]

theorem length_swapRemove_range (n i : Nat) :
    (swapRemove (List.range n) i).length = n - 1 := by
  unfold swapRemove
  rw [List.length_dropLast, List.length_set, List.length_range]

theorem mem_swapRemove_range {n i x : Nat} (hx : x ∈ swapRemove (List.range n) i) :
    x < n := by
  unfold swapRemove at hx
  rw [List.mem_iff_getElem] at hx
  obtain ⟨pos, hpos, hval⟩ := hx
  have hlen := hpos
  rw [List.length_dropLast, List.length_set, List.length_range] at hlen
  rw [List.getElem_dropLast, List.getElem_set] at hval
  split_ifs at hval with hip
  · rw [getLast_range_getD (by omega)] at hval
    omega
  · rw [List.getElem_range] at hval
    omega

theorem not_mem_swapRemove_range {n i : Nat} (hi : i < n) :
    i ∉ swapRemove (List.range n) i := by
  intro hmem
  unfold swapRemove at hmem
  rw [List.mem_iff_getElem] at hmem
  obtain ⟨pos, hpos, hval⟩ := hmem
  have hlen := hpos
  rw [List.length_dropLast, List.length_set, List.length_range] at hlen
  rw [List.getElem_dropLast, List.getElem_set] at hval
  split_ifs at hval with hip
  · rw [getLast_range_getD (by omega)] at hval
    omega
  · rw [List.getElem_range] at hval
    exact hip hval.symm

theorem nodup_swapRemove_range (n k : Nat) : (swapRemove (List.range n) k).Nodup := by
  rw [List.nodup_iff_getElem?_ne_getElem?]
  intro i j hij hj
  have hlen := hj
  rw [length_swapRemove_range] at hlen
  have hi : i < (swapRemove (List.range n) k).length := by
    rw [length_swapRemove_range]; omega
  rw [List.getElem?_eq_getElem hi, List.getElem?_eq_getElem hj]
  intro hcon
  have hval : (swapRemove (List.range n) k)[i] = (swapRemove (List.range n) k)[j] :=
    Option.some_inj.mp hcon
  unfold swapRemove at hval
  rw [List.getElem_dropLast, List.getElem_set, List.getElem_dropLast, List.getElem_set] at hval
  have hlast : (List.range n).getLast?.getD 0 = n - 1 := getLast_range_getD (by omega)
  split_ifs at hval with h1 h2 h2
  · omega
  · simp only [List.getElem_range] at hval
    omega
  · simp only [List.getElem_range] at hval
    omega
  · simp only [List.getElem_range] at hval
    omega

theorem countP_eq_length_filter_range {α : Type} (p : α → Bool) (d : α) :
    ∀ l : List α, l.countP p =
      ((List.range l.length).filter (fun j => p (l.getD j d))).length := by
  intro l
  induction l with
  | nil => rfl
  | cons a t ih =>
    rw [List.countP_cons, List.length_cons, List.range_succ_eq_map, List.filter_cons]
    have hq0 : ((fun j => p ((a :: t).getD j d)) 0) = p a := rfl
    have hfm : List.filter (fun j => p ((a :: t).getD j d)) (List.map Nat.succ (List.range t.length)) =
        List.map Nat.succ (List.filter ((fun j => p ((a :: t).getD j d)) ∘ Nat.succ)
          (List.range t.length)) := List.filter_map _ _
    have hcongr : List.filter ((fun j => p ((a :: t).getD j d)) ∘ Nat.succ)
          (List.range t.length) =
        List.filter (fun j => p (t.getD j d)) (List.range t.length) :=
      List.filter_congr (fun j _ => rfl)
    by_cases hpa : p a = true
    · rw [if_pos (hq0.trans hpa), List.length_cons, hfm, hcongr, List.length_map, ← ih,
        if_pos hpa]
    · rw [if_neg (fun hcc => hpa (hq0.symm.trans hcc)), hfm, hcongr, List.length_map, ← ih,
        if_neg hpa]
      omega

theorem length_filter_range_mem {ml : List Nat} {n : Nat} (hnd : ml.Nodup)
    (hb : ∀ i ∈ ml, i < n) :
    ((List.range n).filter (fun j => decide (j ∈ ml))).length = ml.length := by
  have hperm : ((List.range n).filter (fun j => decide (j ∈ ml))).Perm ml := by
    apply List.perm_of_nodup_nodup_toFinset_eq
    · exact List.Nodup.filter _ (List.nodup_range n)
    · exact hnd
    · ext x
      rw [List.mem_toFinset, List.mem_toFinset, List.mem_filter, List.mem_range]
      constructor
      · rintro ⟨_, hx2⟩
        exact of_decide_eq_true hx2
      · intro hx
        exact ⟨hb x hx, decide_eq_true hx⟩
  exact hperm.length_eq

theorem preShuffleIndices_eq (g : Minesweeper) (r c : Nat)
    (hlt : g.index r c < g.rows * g.cols) :
    preShuffleIndices g r c = swapRemove (List.range (g.rows * g.cols)) (g.index r c) := by
  unfold preShuffleIndices
  dsimp only
  have hfind : (List.range (g.rows * g.cols)).findIdx? (fun x => x == g.index r c) =
      some (g.index r c) := by
    rw [List.findIdx?_eq_some_iff_findIdx_eq]
    constructor
    · rw [List.length_range]
      exact hlt
    · rw [List.findIdx_eq (by rw [List.length_range]; exact hlt)]
      constructor
      · simp only [List.getElem_range]
        exact beq_self_eq_true _
      · intro j hj
        simp only [List.getElem_range]
        exact beq_eq_false_iff_ne.mpr (by omega)
  rw [hfind]

/-- Fields of `place_mines` output. -/
theorem place_mines_fields (g : Minesweeper) (sh : List Nat) :
    (g.place_mines sh).rows = g.rows ∧ (g.place_mines sh).cols = g.cols ∧
      (g.place_mines sh).mines = g.mines ∧ (g.place_mines sh).status = g.status ∧
      (g.place_mines sh).flags_placed = g.flags_placed ∧
      (g.place_mines sh).cells.length = g.cells.length := by
  unfold Minesweeper.place_mines calcNumbers
  obtain ⟨r1, r2, r3, r4, r5, r6⟩ := calcFold_fields
    (gridPairs ({ g with cells := setMines g.cells (sh.take g.mines) }).rows
      ({ g with cells := setMines g.cells (sh.take g.mines) }).cols)
    { g with cells := setMines g.cells (sh.take g.mines) }
  exact ⟨r1, r2, r3, r4, r5, r6.trans (setMines_length _ _)⟩

/-- `place_mines` changes only contents: states and the loss markers of
every cell are untouched. -/
theorem place_mines_states (g : Minesweeper) (sh : List Nat) {j : Nat}
    (hj : j < g.cells.length) :
    (getCell (g.place_mines sh) j).state = (getCell g j).state ∧
      (getCell (g.place_mines sh) j).exploded = (getCell g j).exploded ∧
      (getCell (g.place_mines sh) j).wrong_flag = (getCell g j).wrong_flag := by
  unfold Minesweeper.place_mines calcNumbers
  obtain ⟨r1, r2, r3⟩ := calcFold_stateAt
    (gridPairs ({ g with cells := setMines g.cells (sh.take g.mines) }).rows
      ({ g with cells := setMines g.cells (sh.take g.mines) }).cols)
    { g with cells := setMines g.cells (sh.take g.mines) } j
  have hmid : getCell { g with cells := setMines g.cells (sh.take g.mines) } j =
      (setMines g.cells (sh.take g.mines)).getD j Cell.new := rfl
  rw [hmid, getD_setMines _ _ j hj] at r1 r2 r3
  constructor
  · rw [r1]
    split_ifs <;> rfl
  constructor
  · rw [r2]
    split_ifs <;> rfl
  · rw [r3]
    split_ifs <;> rfl

/-- Which cells of `place_mines` output are mines. -/
theorem place_mines_mineAt (g : Minesweeper) (sh : List Nat) {j : Nat}
    (hj : j < g.cells.length) :
    ((getCell (g.place_mines sh) j).content = .Mine ↔
      (j ∈ sh.take g.mines ∨ (getCell g j).content = .Mine)) := by
  unfold Minesweeper.place_mines calcNumbers
  rw [calcFold_mineAt]
  have hmid : getCell { g with cells := setMines g.cells (sh.take g.mines) } j =
      (setMines g.cells (sh.take g.mines)).getD j Cell.new := rfl
  rw [hmid, getD_setMines _ _ j hj]
  split_ifs with hmem
  · simp [hmem]
  · constructor
    · intro h
      exact Or.inr h
    · rintro (hcc | hcc)
      · exact absurd hcc hmem
      · exact hcc

theorem getCell_flag_all_mines (g : Minesweeper) (i : Nat) (h : i < g.cells.length) :
    getCell (flag_all_mines g) i =
      (if (getCell g i).content = .Mine then { getCell g i with state := .Flagged }
       else getCell g i) :=
  getD_map_of_lt _ h _

theorem flag_all_mines_fields (g : Minesweeper) :
    (flag_all_mines g).rows = g.rows ∧ (flag_all_mines g).cols = g.cols ∧
      (flag_all_mines g).mines = g.mines ∧ (flag_all_mines g).status = g.status ∧
      (flag_all_mines g).flags_placed = g.mines ∧
      (flag_all_mines g).cells.length = g.cells.length :=
  ⟨rfl, rfl, rfl, rfl, rfl, List.length_map _ _⟩

/-- `check_win` never changes a cell's content, exploded or wrong-flag
marker, nor the board geometry. -/
theorem check_win_cells (g : Minesweeper) {j : Nat} (hj : j < g.cells.length) :
    (getCell (check_win g) j).content = (getCell g j).content ∧
      (getCell (check_win g) j).exploded = (getCell g j).exploded ∧
      (getCell (check_win g) j).wrong_flag = (getCell g j).wrong_flag := by
  unfold check_win
  split_ifs with h
  · rw [getCell_flag_all_mines { g with status := .Won } j hj]
    split_ifs <;> exact ⟨rfl, rfl, rfl⟩
  · exact ⟨rfl, rfl, rfl⟩

theorem check_win_fields (g : Minesweeper) :
    (check_win g).rows = g.rows ∧ (check_win g).cols = g.cols ∧
      (check_win g).mines = g.mines ∧ (check_win g).cells.length = g.cells.length := by
  unfold check_win
  split_ifs with h
  · exact ⟨rfl, rfl, rfl, List.length_map _ _⟩
  · exact ⟨rfl, rfl, rfl, rfl⟩

/-- C8: after mine placement on an all-empty board, every in-bounds
non-mine cell holds `Number k` for `k` its exact count of mine neighbors
when `k > 0`, and stays `Empty` when it has no mine neighbor. -/
theorem place_mines_numbers (g : Minesweeper) (sh : List Nat)
    (hlen : g.cells.length = g.rows * g.cols)
    (hempty : ∀ c ∈ g.cells, c.content = .Empty)
    (a b : Nat) (ha : a < g.rows) (hb : b < g.cols)
    (hnm : contentAt (g.place_mines sh) (a, b) ≠ .Mine) :
    (0 < (g.place_mines sh).countMineNeighbors a b →
      contentAt (g.place_mines sh) (a, b) =
        .Number ((g.place_mines sh).countMineNeighbors a b)) ∧
    ((g.place_mines sh).countMineNeighbors a b = 0 →
      contentAt (g.place_mines sh) (a, b) = .Empty) := by
  have hidx0 : g.index a b < g.cells.length := by
    rw [hlen]
    exact index_lt ha hb
  set G0 : Minesweeper := { g with cells := setMines g.cells (sh.take g.mines) } with hG0
  have hG0len : G0.cells.length = g.cells.length := setMines_length _ _
  have hplace : g.place_mines sh = (gridPairs G0.rows G0.cols).foldl calcNumbersStep G0 := rfl
  have hbnd : ∀ p ∈ gridPairs G0.rows G0.cols, G0.index p.1 p.2 < G0.cells.length := by
    intro p hp
    obtain ⟨h1, h2⟩ := mem_gridPairs.mp hp
    have : G0.index p.1 p.2 < G0.rows * G0.cols := index_lt h1 h2
    rw [hG0len, hlen]
    exact this
  have hchar := calcFold_char (gridPairs G0.rows G0.cols) G0 hbnd (nodup_index_gridPairs G0)
    (a, b) (mem_gridPairs.mpr ⟨ha, hb⟩)
  dsimp only at hchar
  obtain ⟨f1, f2, _, _, _, _⟩ := place_mines_fields g sh
  have f1' : (g.place_mines sh).rows = G0.rows := f1
  have f2' : (g.place_mines sh).cols = G0.cols := f2
  have hcnt : (g.place_mines sh).countMineNeighbors a b = G0.countMineNeighbors a b := by
    refine countMineNeighbors_congr f1' f2' ?_ a b
    intro j
    rw [hplace]
    exact calcFold_mineAt _ G0 j
  have hidxeq : (g.place_mines sh).index a b = G0.index a b := index_congr f2' a b
  have hcontent : contentAt (g.place_mines sh) (a, b) =
      (getCell ((gridPairs G0.rows G0.cols).foldl calcNumbersStep G0) (G0.index a b)).content := by
    show (getCell (g.place_mines sh) ((g.place_mines sh).index a b)).content = _
    rw [hidxeq, hplace]
  have hnmG0 : (getCell G0 (G0.index a b)).content ≠ .Mine := by
    intro hcon
    apply hnm
    rw [hcontent, hchar, if_pos hcon]
    exact hcon
  rw [hchar, if_neg hnmG0] at hcontent
  constructor
  · intro hpos
    rw [hcnt] at hpos
    rw [hcontent, if_pos hpos, hcnt]
  · intro hzero
    rw [hcnt] at hzero
    rw [hcontent, if_neg (by omega)]
    have hmem0 : getCell G0 (G0.index a b) =
        (setMines g.cells (sh.take g.mines)).getD (g.index a b) Cell.new := rfl
    rw [hmem0, getD_setMines _ _ _ hidx0]
    split_ifs with hmem
    · exfalso
      apply hnmG0
      show ((setMines g.cells (sh.take g.mines)).getD (g.index a b) Cell.new).content = .Mine
      rw [getD_setMines _ _ _ hidx0, if_pos hmem]
    · exact hempty _ (getD_mem hidx0 _)

/-- The state after `cell.state = CellState::Revealed` runs on the clicked
cell (the state every non-trivial `reveal` branch starts from). -/
def revealCellSet (g : Minesweeper) (idx : Nat) : Minesweeper :=
  { g with cells := g.cells.set idx { g.cells.getD idx Cell.new with state := .Revealed } }

/-- Setting a cell to a new value with the same content leaves every cell's
content unchanged. -/
theorem content_set_state (g : Minesweeper) (i : Nat) (c' : Cell)
    (hc : c'.content = (getCell g i).content) (j : Nat) :
    (getCell { g with cells := g.cells.set i c' } j).content = (getCell g j).content := by
  show ((g.cells.set i c').getD j Cell.new).content = _
  rw [getD_set]
  split_ifs with h
  · rw [← h.1]
    exact hc
  · rfl

theorem reveal_eq_of_empty (g : Minesweeper) (row col : Nat) (sh : List Nat)
    (hp : g.status = .Playing)
    (hidx : g.index row col < g.cells.length)
    (hstF : (g.cells.getD (g.index row col) Cell.new).state ≠ .Flagged)
    (hstR : (g.cells.getD (g.index row col) Cell.new).state ≠ .Revealed)
    (hcc : (g.cells.getD (g.index row col) Cell.new).content = .Empty) :
    g.reveal row col sh =
      some (check_win (flood_fill (revealCellSet g (g.index row col)) row col)) := by
  have hg : g.cells.getD (g.index row col) Cell.new = g.cells[g.index row col] := by
    simp [List.getD_eq_getElem?_getD, List.getElem?_eq_getElem hidx]
  rw [hg] at hstF hstR hcc
  unfold Minesweeper.reveal revealCellSet
  simp [hp, hidx, hstF, hstR, hcc, hg]

theorem reveal_eq_of_number (g : Minesweeper) (row col : Nat) (sh : List Nat) (n : Nat)
    (hp : g.status = .Playing)
    (hidx : g.index row col < g.cells.length)
    (hstF : (g.cells.getD (g.index row col) Cell.new).state ≠ .Flagged)
    (hstR : (g.cells.getD (g.index row col) Cell.new).state ≠ .Revealed)
    (hcc : (g.cells.getD (g.index row col) Cell.new).content = .Number n) :
    g.reveal row col sh = some (check_win (revealCellSet g (g.index row col))) := by
  have hg : g.cells.getD (g.index row col) Cell.new = g.cells[g.index row col] := by
    simp [List.getD_eq_getElem?_getD, List.getElem?_eq_getElem hidx]
  rw [hg] at hstF hstR hcc
  unfold Minesweeper.reveal revealCellSet
  simp [hp, hidx, hstF, hstR, hcc, hg]

theorem reveal_eq_noop (g : Minesweeper) (row col : Nat) (sh : List Nat)
    (hp : g.status = .Playing)
    (hidx : g.index row col < g.cells.length)
    (hst : (g.cells.getD (g.index row col) Cell.new).state = .Flagged ∨
      (g.cells.getD (g.index row col) Cell.new).state = .Revealed) :
    g.reveal row col sh = some g := by
  have hg : g.cells.getD (g.index row col) Cell.new = g.cells[g.index row col] := by
    simp [List.getD_eq_getElem?_getD, List.getElem?_eq_getElem hidx]
  rw [hg] at hst
  unfold Minesweeper.reveal
  rcases hst with hst | hst <;> simp [hp, hidx, hst]

theorem getD_replicate {α : Type} (n : Nat) (a d : α) (j : Nat) :
    (List.replicate n a).getD j d = if j < n then a else d := by
  rw [List.getD_eq_getElem?_getD, List.getElem?_replicate]
  split_ifs <;> rfl

theorem new_len (d : Difficulty) :
    (Minesweeper.new d).cells.length = (Minesweeper.new d).rows * (Minesweeper.new d).cols :=
  List.length_replicate _ _

theorem new_empty (d : Difficulty) : ∀ c ∈ (Minesweeper.new d).cells, c.content = .Empty := by
  intro c hc
  rw [List.eq_of_mem_replicate hc]
  rfl

theorem getCell_new (d : Difficulty) (j : Nat)
    (hj : j < (Minesweeper.new d).cells.length) :
    getCell (Minesweeper.new d) j = Cell.new := by
  show (Minesweeper.new d).cells.getD j Cell.new = Cell.new
  have hrepl : (Minesweeper.new d).cells = List.replicate
      ((Minesweeper.new d).rows * (Minesweeper.new d).cols) Cell.new := rfl
  rw [hrepl, getD_replicate, if_pos (by rw [← new_len d]; exact hj)]

/-- On a `NotStarted` board, `reveal` behaves exactly like `reveal` on the
board obtained by switching to `Playing` and placing the mines (the shuffle
argument of the second call is irrelevant, as the game is then started). -/
theorem reveal_of_not_started (g : Minesweeper) (row col : Nat) (sh sh2 : List Nat)
    (hn : g.status = .NotStarted) :
    g.reveal row col sh =
      (Minesweeper.place_mines { g with status := .Playing } sh).reveal row col sh2 := by
  have hst : (Minesweeper.place_mines { g with status := .Playing } sh).status = .Playing :=
    (place_mines_fields _ _).2.2.2.1
  unfold Minesweeper.reveal
  simp [hn, hst]

/-- After placing mines on an all-empty board, no empty cell has a mine
neighbor (its neighbor count would otherwise have made it a `Number`). -/
theorem emptyNbrOK_place_mines (g : Minesweeper) (sh : List Nat)
    (hlen : g.cells.length = g.rows * g.cols)
    (hempty : ∀ c ∈ g.cells, c.content = .Empty) :
    EmptyNbrOK (g.place_mines sh) := by
  intro a b ha hb he q hq
  obtain ⟨f1, f2, _, _, _, _⟩ := place_mines_fields g sh
  rw [f1] at ha
  rw [f2] at hb
  have he' : contentAt (g.place_mines sh) (a, b) = .Empty := he
  have hne : contentAt (g.place_mines sh) (a, b) ≠ .Mine := by
    rw [he']
    intro hcon
    cases hcon
  have hcnt : (g.place_mines sh).countMineNeighbors a b = 0 := by
    by_contra hcc
    have h1 := (place_mines_numbers g sh hlen hempty a b ha hb hne).1
      (Nat.pos_of_ne_zero hcc)
    rw [he'] at h1
    cases h1
  unfold Minesweeper.countMineNeighbors at hcnt
  rw [List.length_eq_zero] at hcnt
  intro hcon
  have hq2 : q ∈ ((g.place_mines sh).neighbors a b).filter
      (fun p => ((g.place_mines sh).cells.getD ((g.place_mines sh).index p.1 p.2)
        Cell.new).content == CellContent.Mine) := by
    rw [List.mem_filter]
    refine ⟨hq, ?_⟩
    rw [beq_iff_eq]
    exact hcon
  rw [hcnt] at hq2
  cases hq2

/-- C1: the first `reveal` call on a fresh engine never finds a mine at the
clicked cell: for every in-bounds cell and every possible shuffle outcome,
after the call the clicked cell's content is not `Mine` (and the call
returns normally). -/
theorem first_reveal_safe (d : Difficulty) (row col : Nat) (sh : List Nat)
    (hr : row < (Minesweeper.new d).rows) (hc : col < (Minesweeper.new d).cols)
    (hsh : ValidShuffle (Minesweeper.new d) row col sh) :
    ∃ g', (Minesweeper.new d).reveal row col sh = some g' ∧
      contentAt g' (row, col) ≠ .Mine := by
  have hNlen : (Minesweeper.new d).cells.length =
      (Minesweeper.new d).rows * (Minesweeper.new d).cols := new_len d
  have hsafe_lt : (Minesweeper.new d).index row col <
      (Minesweeper.new d).rows * (Minesweeper.new d).cols := index_lt hr hc
  have hsafe_len : (Minesweeper.new d).index row col < (Minesweeper.new d).cells.length := by
    rw [hNlen]
    exact hsafe_lt
  have hnotmem : (Minesweeper.new d).index row col ∉ sh := by
    rw [hsh.mem_iff, preShuffleIndices_eq (Minesweeper.new d) row col hsafe_lt]
    exact not_mem_swapRemove_range hsafe_lt
  rw [reveal_of_not_started (Minesweeper.new d) row col sh [] rfl]
  set GP : Minesweeper := { Minesweeper.new d with status := .Playing } with hGPdef
  set G : Minesweeper := GP.place_mines sh with hGdef
  obtain ⟨gf1, gf2, gf3, gf4, gf5, gf6⟩ := place_mines_fields GP sh
  have hplay : G.status = .Playing := gf4
  have hGlen : G.cells.length = (Minesweeper.new d).cells.length := gf6
  have hGcols : G.cols = (Minesweeper.new d).cols := gf2
  have hGrows : G.rows = (Minesweeper.new d).rows := gf1
  have hidxeq : G.index row col = (Minesweeper.new d).index row col := index_congr hGcols row col
  have hGidx_len : G.index row col < G.cells.length := by
    rw [hidxeq, hGlen]
    exact hsafe_len
  have hGPcell : getCell GP ((Minesweeper.new d).index row col) = Cell.new :=
    getCell_new d _ hsafe_len
  have hGstate : (getCell G (G.index row col)).state = .Hidden := by
    rw [hidxeq]
    have := (place_mines_states GP sh (show (Minesweeper.new d).index row col <
      GP.cells.length from hsafe_len)).1
    rw [this, hGPcell]
    rfl
  have hGmine : (getCell G (G.index row col)).content ≠ .Mine := by
    rw [hidxeq]
    intro hcon
    rcases (place_mines_mineAt GP sh (show (Minesweeper.new d).index row col <
        GP.cells.length from hsafe_len)).mp hcon with hmem | hmem
    · exact hnotmem (List.take_subset _ _ hmem)
    · rw [hGPcell] at hmem
      cases hmem
  have hstF : (G.cells.getD (G.index row col) Cell.new).state ≠ .Flagged := by
    show (getCell G (G.index row col)).state ≠ .Flagged
    rw [hGstate]
    intro hcon
    cases hcon
  have hstR : (G.cells.getD (G.index row col) Cell.new).state ≠ .Revealed := by
    show (getCell G (G.index row col)).state ≠ .Revealed
    rw [hGstate]
    intro hcon
    cases hcon
  have hok : EmptyNbrOK G := emptyNbrOK_place_mines GP sh
    (show GP.cells.length = GP.rows * GP.cols from hNlen)
    (show ∀ c ∈ GP.cells, c.content = .Empty from new_empty d)
  cases hcase : (G.cells.getD (G.index row col) Cell.new).content with
  | Mine => exact absurd hcase hGmine
  | Number n =>
    rw [reveal_eq_of_number G row col [] n hplay hGidx_len hstF hstR hcase]
    refine ⟨_, rfl, ?_⟩
    set G2 : Minesweeper := revealCellSet G (G.index row col) with hG2def
    have hG2len : G2.cells.length = G.cells.length := List.length_set _ _ _
    have hG2content : ∀ j, (getCell G2 j).content = (getCell G j).content :=
      content_set_state G _ _ rfl
    have hcwcols : (check_win G2).cols = G.cols := (check_win_fields G2).2.1
    show (getCell (check_win G2) ((check_win G2).index row col)).content ≠ .Mine
    rw [index_congr hcwcols row col,
      (check_win_cells G2 (show G.index row col < G2.cells.length by
        rw [hG2len]; exact hGidx_len)).1, hG2content]
    exact hGmine
  | Empty =>
    rw [reveal_eq_of_empty G row col [] hplay hGidx_len hstF hstR hcase]
    refine ⟨_, rfl, ?_⟩
    set G2 : Minesweeper := revealCellSet G (G.index row col) with hG2def
    have hG2len : G2.cells.length = G.cells.length := List.length_set _ _ _
    have hG2content : ∀ j, (getCell G2 j).content = (getCell G j).content :=
      content_set_state G _ _ rfl
    have hG2rows : G2.rows = G.rows := rfl
    have hG2cols : G2.cols = G.cols := rfl
    have hok2 : EmptyNbrOK G2 := emptyNbrOK_congr hG2rows hG2cols hG2content hok
    have hstack2 : ∀ x ∈ [(row, col)], x.1 < G2.rows ∧ x.2 < G2.cols ∧
        (getCell G2 (G2.index x.1 x.2)).content = .Empty := by
      intro x hx
      rw [List.mem_singleton] at hx
      subst hx
      refine ⟨by rw [hG2rows, hGrows]; exact hr, by rw [hG2cols, hGcols]; exact hc, ?_⟩
      rw [index_congr hG2cols, hG2content]
      exact hcase
    obtain ⟨⟨F1, F2, F3, F4, F5, F6⟩, Fevol, Fmine, Fflag⟩ :=
      floodLoop_main (2 * G2.cells.length + 1) G2 [(row, col)] hok2 hstack2
    set FF : Minesweeper := flood_fill G2 row col with hFFdef
    have hFFeq : FF = floodLoop (2 * G2.cells.length + 1) G2 [(row, col)] := rfl
    have hFcols : FF.cols = G.cols := by
      rw [hFFeq]
      exact F2
    have hFlen : FF.cells.length = G2.cells.length := by
      rw [hFFeq]
      exact F6
    have hFcontent : (getCell FF (G.index row col)).content =
        (getCell G (G.index row col)).content := by
      rw [hFFeq, (Fevol (G.index row col)).1, hG2content]
    have hcwcols : (check_win FF).cols = G.cols := by
      rw [(check_win_fields FF).2.1, hFcols]
    show (getCell (check_win FF) ((check_win FF).index row col)).content ≠ .Mine
    rw [index_congr hcwcols row col,
      (check_win_cells FF (show G.index row col < FF.cells.length by
        rw [hFlen, hG2len]; exact hGidx_len)).1, hFcontent]
    exact hGmine

theorem first_reveal_safe_witness :
    0 < (Minesweeper.new .Beginner).rows ∧ 0 < (Minesweeper.new .Beginner).cols ∧
      ValidShuffle (Minesweeper.new .Beginner) 0 0
        (preShuffleIndices (Minesweeper.new .Beginner) 0 0) ∧
      ∃ g', (Minesweeper.new .Beginner).reveal 0 0
          (preShuffleIndices (Minesweeper.new .Beginner) 0 0) = some g' ∧
        contentAt g' (0, 0) ≠ .Mine :=
  ⟨by decide, by decide, List.Perm.refl _,
    first_reveal_safe .Beginner 0 0 _ (by decide) (by decide) (List.Perm.refl _)⟩

/-- A 2 x 2 mid-game board with a mine at `(0, 0)`, a wrong flag at `(0, 1)`,
used to witness the loss behavior. -/
def c5Board : Minesweeper :=
  { rows := 2, cols := 2, mines := 1
    cells :=
      [{ Cell.new with content := .Mine },
        { Cell.new with content := .Number 1, state := .Flagged },
        { Cell.new with content := .Number 1 }, { Cell.new with content := .Number 1 }]
    status := .Playing
    flags_placed := 1 }

theorem reveal_mine_loses_witness :
    (c5Board.status = .Playing ∧ stateAt c5Board (0, 0) = .Hidden ∧
      contentAt c5Board (0, 0) = .Mine ∧ (∀ c ∈ c5Board.cells, c.exploded = false)) ∧
    ∃ g', c5Board.reveal 0 0 [] = some g' ∧ g'.status = .Lost ∧
      (cellAt g' (0, 0)).exploded = true := by
  refine ⟨⟨rfl, rfl, rfl, by decide⟩, ?_⟩
  obtain ⟨g', h1, h2, h3, -⟩ := reveal_mine_loses c5Board 0 0 [] rfl rfl
    (by decide) (by decide) (Or.inl rfl) rfl (by decide)
  exact ⟨g', h1, h2, h3⟩

/-- A tiny all-empty 1 x 2 board used to witness the number-calculation
characterization. -/
def c8Board : Minesweeper :=
  { rows := 1, cols := 2, mines := 1, cells := [Cell.new, Cell.new]
    status := .NotStarted, flags_placed := 0 }

theorem place_mines_numbers_witness :
    (c8Board.cells.length = c8Board.rows * c8Board.cols ∧
      (∀ c ∈ c8Board.cells, c.content = .Empty) ∧
      contentAt (c8Board.place_mines [1]) (0, 0) ≠ .Mine) ∧
    ((0 < (c8Board.place_mines [1]).countMineNeighbors 0 0 →
      contentAt (c8Board.place_mines [1]) (0, 0) =
        .Number ((c8Board.place_mines [1]).countMineNeighbors 0 0)) ∧
    ((c8Board.place_mines [1]).countMineNeighbors 0 0 = 0 →
      contentAt (c8Board.place_mines [1]) (0, 0) = .Empty)) :=
  ⟨⟨by decide, by decide, by decide⟩,
    place_mines_numbers c8Board [1] (by decide) (by decide) 0 0 (by decide) (by decide)
      (by decide)⟩

/-- No mine cell is currently revealed (true in every running game; the
flood fill and `check_win` preserve it). -/
def NoRevealedMine (g : Minesweeper) : Prop :=
  ∀ c ∈ g.cells, c.content = .Mine → c.state ≠ .Revealed

theorem getCell_eq_of_mem {g : Minesweeper} {j : Nat} (hj : j < g.cells.length) :
    getCell g j = g.cells[j] := by
  show g.cells.getD j Cell.new = _
  rw [List.getD_eq_getElem?_getD, List.getElem?_eq_getElem hj, Option.getD_some]

theorem noRevealedMine_of_pointwise {g g' : Minesweeper}
    (hlen : g'.cells.length = g.cells.length)
    (hco : ∀ j, (getCell g' j).content = (getCell g j).content)
    (hpt : ∀ j, j < g'.cells.length → (getCell g j).content = .Mine →
      getCell g' j = getCell g j)
    (h : NoRevealedMine g) : NoRevealedMine g' := by
  intro c hc hm
  rw [List.mem_iff_getElem] at hc
  obtain ⟨j, hj, hval⟩ := hc
  have hgc : getCell g' j = c := by
    rw [getCell_eq_of_mem hj, hval]
  have hmg : (getCell g j).content = .Mine := by
    rw [← hco j, hgc]
    exact hm
  rw [hpt j hj hmg] at hgc
  have hmem : getCell g j ∈ g.cells := getD_mem (by omega) _
  rw [← hgc]
  exact h _ hmem hmg

theorem revealedCount_flag_all_mines (g : Minesweeper) (h : NoRevealedMine g) :
    revealedCount (flag_all_mines g) = revealedCount g := by
  unfold revealedCount flag_all_mines
  dsimp only
  rw [← List.countP_eq_length_filter, ← List.countP_eq_length_filter, List.countP_map]
  apply List.countP_congr
  intro c hc
  show ((if c.content = .Mine then { c with state := CellState.Flagged } else c).state ==
    CellState.Revealed) = true ↔ (c.state == CellState.Revealed) = true
  split_ifs with hmine
  · simp only [beq_iff_eq]
    constructor
    · intro hcon
      cases hcon
    · intro hcon
      exact absurd hcon (h c hc hmine)
  · exact Iff.rfl

/-- Characterization of `check_win` on a running board with no revealed
mine: it moves to `Won` exactly when the revealed count reaches
`rows * cols - mines`, and then flags every mine and sets the counter to
`mines`; otherwise it is the identity. -/
theorem check_win_spec (X : Minesweeper) (hp : X.status = .Playing) (hnr : NoRevealedMine X) :
    ((check_win X).status = .Won ↔
      revealedCount (check_win X) = X.rows * X.cols - X.mines) ∧
    ((check_win X).status = .Won →
      (∀ j, j < X.cells.length → (getCell X j).content = .Mine →
        (getCell (check_win X) j).state = .Flagged) ∧
      (check_win X).flags_placed = X.mines) ∧
    ((check_win X).status = .Won ∨ check_win X = X) := by
  unfold check_win
  split_ifs with h
  · have hcount : revealedCount (flag_all_mines { X with status := GameStatus.Won }) =
        revealedCount X := by
      have : NoRevealedMine { X with status := GameStatus.Won } := hnr
      exact revealedCount_flag_all_mines _ this
    refine ⟨⟨fun _ => by rw [hcount]; exact h, fun _ => rfl⟩, fun _ => ⟨?_, rfl⟩, Or.inl rfl⟩
    intro j hj hm
    have hm' : (getCell { X with status := GameStatus.Won } j).content = .Mine := hm
    rw [getCell_flag_all_mines { X with status := GameStatus.Won } j hj, if_pos hm']
  · refine ⟨⟨fun hcon => ?_, fun hcon => absurd hcon h⟩, fun hcon => ?_, Or.inr rfl⟩
    · rw [hp] at hcon
      cases hcon
    · rw [hp] at hcon
      cases hcon

/-- C4: a reveal of a hidden or question-marked non-mine cell on a running
board moves the game to `Won` exactly when the revealed-cell count reaches
`rows * cols - mines`; when it does, every mine cell's state becomes
`Flagged` and `flags_placed` equals `mines` exactly. -/
theorem reveal_nonmine_win_iff (g : Minesweeper) (row col : Nat) (sh : List Nat)
    (hlen : g.cells.length = g.rows * g.cols)
    (hp : g.status = .Playing)
    (hr : row < g.rows) (hc : col < g.cols)
    (hstate : stateAt g (row, col) = .Hidden ∨ stateAt g (row, col) = .QuestionMark)
    (hnm : contentAt g (row, col) ≠ .Mine)
    (hok : EmptyNbrOK g)
    (hnr : NoRevealedMine g) :
    ∃ g', g.reveal row col sh = some g' ∧
      (g'.status = .Won ↔ revealedCount g' = g.rows * g.cols - g.mines) ∧
      (g'.status = .Won →
        (∀ a b : Nat, a < g.rows → b < g.cols → contentAt g (a, b) = .Mine →
          stateAt g' (a, b) = .Flagged) ∧
        g'.flags_placed = g.mines) := by
  have hidx : g.index row col < g.cells.length := by
    rw [hlen]
    exact index_lt hr hc
  have hstF : (g.cells.getD (g.index row col) Cell.new).state ≠ .Flagged := by
    rcases hstate with h | h <;> rw [show stateAt g (row, col) =
      (g.cells.getD (g.index row col) Cell.new).state from rfl] at h <;> rw [h] <;> simp
  have hstR : (g.cells.getD (g.index row col) Cell.new).state ≠ .Revealed := by
    rcases hstate with h | h <;> rw [show stateAt g (row, col) =
      (g.cells.getD (g.index row col) Cell.new).state from rfl] at h <;> rw [h] <;> simp
  have hnm' : (g.cells.getD (g.index row col) Cell.new).content ≠ .Mine := hnm
  -- facts about the intermediate board with the clicked cell revealed
  set G2 : Minesweeper := revealCellSet g (g.index row col) with hG2def
  have hG2len : G2.cells.length = g.cells.length := List.length_set _ _ _
  have hG2co : ∀ j, (getCell G2 j).content = (getCell g j).content :=
    content_set_state g _ _ rfl
  have hG2pt : ∀ j, j < G2.cells.length → (getCell g j).content = .Mine →
      getCell G2 j = getCell g j := by
    intro j hj hm
    show (g.cells.set (g.index row col) _).getD j Cell.new = _
    rw [getD_set]
    split_ifs with hcase
    · exfalso
      apply hnm'
      rw [hcase.1]
      exact hm
    · rfl
  have hG2nr : NoRevealedMine G2 := noRevealedMine_of_pointwise hG2len hG2co hG2pt hnr
  have hG2p : G2.status = .Playing := hp
  have e1 : G2.rows = g.rows := rfl
  have e2 : G2.cols = g.cols := rfl
  have hG2ok : EmptyNbrOK G2 := emptyNbrOK_congr e1 e2 hG2co hok
  cases hcase : (g.cells.getD (g.index row col) Cell.new).content with
  | Mine => exact absurd hcase hnm'
  | Number n =>
    rw [reveal_eq_of_number g row col sh n hp hidx hstF hstR hcase]
    refine ⟨_, rfl, ?_⟩
    obtain ⟨w1, w2, _⟩ := check_win_spec G2 hG2p hG2nr
    refine ⟨by rw [w1]; rfl, fun hwon => ?_⟩
    obtain ⟨wflag, wcount⟩ := w2 hwon
    refine ⟨?_, wcount⟩
    intro a b ha hb hm
    have hj : g.index a b < G2.cells.length := by
      rw [hG2len, hlen]
      exact index_lt ha hb
    have hcwcols : (check_win G2).cols = g.cols := (check_win_fields G2).2.1
    show (getCell (check_win G2) ((check_win G2).index a b)).state = .Flagged
    rw [index_congr hcwcols a b]
    exact wflag _ hj (by rw [hG2co]; exact hm)
  | Empty =>
    rw [reveal_eq_of_empty g row col sh hp hidx hstF hstR hcase]
    refine ⟨_, rfl, ?_⟩
    have hstack2 : ∀ x ∈ [(row, col)], x.1 < G2.rows ∧ x.2 < G2.cols ∧
        (getCell G2 (G2.index x.1 x.2)).content = .Empty := by
      intro x hx
      rw [List.mem_singleton] at hx
      subst hx
      refine ⟨hr, hc, ?_⟩
      rw [index_congr (rfl : G2.cols = g.cols), hG2co]
      exact hcase
    obtain ⟨⟨F1, F2, F3, F4, F5, F6⟩, Fevol, Fmine, Fflag⟩ :=
      floodLoop_main (2 * G2.cells.length + 1) G2 [(row, col)] hG2ok hstack2
    set FF : Minesweeper := flood_fill G2 row col with hFFdef
    have hFFeq : FF = floodLoop (2 * G2.cells.length + 1) G2 [(row, col)] := rfl
    have hFlen : FF.cells.length = g.cells.length := by
      rw [hFFeq, F6]
      exact hG2len
    have hFco : ∀ j, (getCell FF j).content = (getCell g j).content := by
      intro j
      rw [hFFeq, (Fevol j).1, hG2co]
    have hFnr : NoRevealedMine FF := by
      refine noRevealedMine_of_pointwise hFlen hFco ?_ hnr
      intro j hj hm
      have hmG2 : (getCell G2 j).content = .Mine := by
        rw [hG2co]
        exact hm
      rw [hFFeq, Fmine j hmG2]
      exact hG2pt j (by omega) hm
    have hFp : FF.status = .Playing := by
      rw [hFFeq, F4]
      exact hp
    obtain ⟨w1, w2, _⟩ := check_win_spec FF hFp hFnr
    have hFrows : FF.rows = g.rows := by rw [hFFeq]; exact F1
    have hFcols : FF.cols = g.cols := by rw [hFFeq]; exact F2
    have hFmines : FF.mines = g.mines := by rw [hFFeq]; exact F3
    refine ⟨by rw [w1, hFrows, hFcols, hFmines], fun hwon => ?_⟩
    obtain ⟨wflag, wcount⟩ := w2 hwon
    refine ⟨?_, by rw [wcount, hFmines]⟩
    intro a b ha hb hm
    have hj : g.index a b < FF.cells.length := by
      rw [hFlen, hlen]
      exact index_lt ha hb
    have hcwcols : (check_win FF).cols = g.cols := by
      rw [(check_win_fields FF).2.1, hFcols]
    show (getCell (check_win FF) ((check_win FF).index a b)).state = .Flagged
    rw [index_congr hcwcols a b]
    exact wflag _ hj (by rw [hFco]; exact hm)

/-- Two boards with pointwise equal predicate values have equal counts. -/
theorem countP_eq_of_pointwise {α : Type} (d : α) (p : α → Bool) (l l' : List α)
    (hlen : l'.length = l.length)
    (hpt : ∀ j, j < l.length → p (l'.getD j d) = p (l.getD j d)) :
    l'.countP p = l.countP p := by
  rw [countP_eq_length_filter_range p d l, countP_eq_length_filter_range p d l', hlen]
  congr 1
  apply List.filter_congr
  intro j hj
  exact hpt j (List.mem_range.mp hj)

theorem length_eq_countP_add {α : Type} (p : α → Bool) (l : List α) :
    l.length = l.countP p + l.countP (fun a => !p a) := by
  induction l with
  | nil => rfl
  | cons a t ih =>
    rw [List.length_cons, List.countP_cons, List.countP_cons, ih]
    by_cases hpa : p a = true
    · rw [if_pos hpa, if_neg (by rw [hpa]; intro hcc; cases hcc)]
      omega
    · rw [if_neg hpa, if_pos (by rw [Bool.not_eq_true] at hpa; rw [hpa]; rfl)]
      omega

/-- If `p` implies `q` on the members of `l` and the two counts agree, then
`q` implies `p` on the members of `l` (a list pigeonhole argument). -/
theorem countP_sub {α : Type} {p q : α → Bool} : ∀ {l : List α},
    (∀ c ∈ l, p c = true → q c = true) → l.countP p = l.countP q →
    ∀ c ∈ l, q c = true → p c = true := by
  intro l
  induction l with
  | nil => intro _ _ c hc; cases hc
  | cons a t ih =>
    intro himp heq c hc hq
    have hmono : ∀ (u : List α), (∀ x ∈ u, p x = true → q x = true) →
        u.countP p ≤ u.countP q := by
      intro u hu
      induction u with
      | nil => exact Nat.le_refl _
      | cons b s ihs =>
        rw [List.countP_cons, List.countP_cons]
        have hs := ihs (fun x hx => hu x (List.mem_cons_of_mem _ hx))
        by_cases hpb : p b = true
        · rw [if_pos hpb, if_pos (hu b (List.mem_cons_self _ _) hpb)]
          omega
        · rw [if_neg hpb]
          split_ifs <;> omega
    rw [List.countP_cons, List.countP_cons] at heq
    have himpt : ∀ x ∈ t, p x = true → q x = true :=
      fun x hx => himp x (List.mem_cons_of_mem _ hx)
    have hmt := hmono t himpt
    rcases List.mem_cons.mp hc with hca | hct
    · subst hca
      by_cases hpc : p c = true
      · exact hpc
      · exfalso
        rw [if_neg hpc, if_pos hq] at heq
        omega
    · refine ih himpt ?_ c hct hq
      by_cases hpa : p a = true
      · rw [if_pos hpa, if_pos (himp a (List.mem_cons_self _ _) hpa)] at heq
        omega
      · rw [if_neg hpa] at heq
        split_ifs at heq <;> omega

/-- Every non-mine cell revealed: what `check_win`'s count equality forces. -/
def AllNonMineRevealed (g : Minesweeper) : Prop :=
  ∀ c ∈ g.cells, c.content ≠ .Mine → c.state = .Revealed

/-- The numeric counters as `countP`s. -/
theorem revealedCount_eq_countP (g : Minesweeper) :
    revealedCount g = g.cells.countP (fun c => c.state == CellState.Revealed) :=
  (List.countP_eq_length_filter _ _).symm

theorem mineCellCount_eq_countP (g : Minesweeper) :
    mineCellCount g = g.cells.countP (fun c => c.content == CellContent.Mine) :=
  (List.countP_eq_length_filter _ _).symm

/-- On a board whose revealed count equals `rows * cols - mines`, with no
revealed mine and exactly `mines` mine cells, every non-mine cell is
revealed. -/
theorem all_nonmine_revealed_of_count (X : Minesweeper)
    (hlen : X.cells.length = X.rows * X.cols)
    (hmc : mineCellCount X = X.mines)
    (hml : X.mines ≤ X.rows * X.cols)
    (hnr : NoRevealedMine X)
    (hcount : revealedCount X = X.rows * X.cols - X.mines) :
    AllNonMineRevealed X := by
  have himp : ∀ c ∈ X.cells, (c.state == CellState.Revealed) = true →
      (!(c.content == CellContent.Mine)) = true := by
    intro c hc hrev
    rw [beq_iff_eq] at hrev
    rw [Bool.not_eq_true', beq_eq_false_iff_ne]
    intro hcc
    exact hnr c hc hcc hrev
  have htot := length_eq_countP_add (fun c => c.content == CellContent.Mine) X.cells
  rw [← mineCellCount_eq_countP, hmc, hlen] at htot
  have hcc : X.cells.countP (fun c => c.state == CellState.Revealed) =
      X.cells.countP (fun c => !(c.content == CellContent.Mine)) := by
    rw [← revealedCount_eq_countP, hcount]
    omega
  intro c hc hcm
  have := countP_sub himp hcc c hc (by
    rw [Bool.not_eq_true', beq_eq_false_iff_ne]
    exact hcm)
  rw [beq_iff_eq] at this
  exact this

theorem noRevealedMine_flag_all_mines (g : Minesweeper) :
    NoRevealedMine (flag_all_mines g) := by
  intro c hc hm
  unfold flag_all_mines at hc
  dsimp only at hc
  rw [List.mem_map] at hc
  obtain ⟨c0, _, hval⟩ := hc
  rw [← hval]
  rw [← hval] at hm
  split_ifs at hm with h0
  · rw [if_pos h0]
    intro hcon
    cases hcon
  · exfalso
    exact h0 hm

/-- When no non-mine cell is flagged, `flag_all_mines` leaves the flagged
count equal to the mine-cell count. -/
theorem flaggedCount_flag_all_mines (g : Minesweeper)
    (h : ∀ c ∈ g.cells, c.content ≠ .Mine → c.state ≠ .Flagged) :
    flaggedCount (flag_all_mines g) = mineCellCount g := by
  rw [flaggedCount_eq_countP, mineCellCount_eq_countP, flag_all_mines]
  dsimp only
  rw [List.countP_map]
  apply List.countP_congr
  intro c hc
  show ((if c.content = .Mine then { c with state := CellState.Flagged } else c).state ==
    CellState.Flagged) = true ↔ (c.content == CellContent.Mine) = true
  split_ifs with hm
  · simp [hm]
  · simp only [beq_iff_eq]
    constructor
    · intro hcon
      exact absurd hcon (h c hc hm)
    · intro hcon
      exact absurd hcon hm

/-- The `toggle_flag` state cycle. -/
def cycleState : CellState → CellState
  | .Hidden => .Flagged
  | .Flagged => .QuestionMark
  | .QuestionMark => .Hidden
  | .Revealed => .Revealed

theorem reveal_of_terminal (g : Minesweeper) (row col : Nat) (sh : List Nat)
    (h : g.status = .Won ∨ g.status = .Lost) : g.reveal row col sh = some g := by
  unfold Minesweeper.reveal
  rw [if_pos h]

theorem toggle_flag_of_terminal (g : Minesweeper) (row col : Nat)
    (h : g.status ≠ .Playing ∧ g.status ≠ .NotStarted) : g.toggle_flag row col = some g := by
  unfold Minesweeper.toggle_flag
  rw [if_pos h]

theorem chord_of_not_playing (g : Minesweeper) (row col : Nat)
    (h : g.status ≠ .Playing) : g.chord row col = some (g, false) := by
  unfold Minesweeper.chord
  rw [if_pos h]

theorem toggle_flag_of_oob (g : Minesweeper) (row col : Nat)
    (hp : ¬(g.status ≠ .Playing ∧ g.status ≠ .NotStarted))
    (hidx : ¬g.index row col < g.cells.length) : g.toggle_flag row col = none := by
  unfold Minesweeper.toggle_flag
  rw [if_neg hp, if_neg hidx]

theorem reveal_of_oob (g : Minesweeper) (row col : Nat) (sh : List Nat)
    (hp : g.status = .Playing)
    (hidx : ¬g.index row col < g.cells.length) : g.reveal row col sh = none := by
  unfold Minesweeper.reveal
  simp [hp, hidx]

/-- Full description of one `toggle_flag` call on a running or not-started
board at an in-range index. -/
theorem toggle_flag_spec (g : Minesweeper) (row col : Nat)
    (hp : g.status = .Playing ∨ g.status = .NotStarted)
    (hidx : g.index row col < g.cells.length) :
    ∃ g', g.toggle_flag row col = some g' ∧
      getCell g' (g.index row col) =
        { getCell g (g.index row col) with
          state := cycleState (getCell g (g.index row col)).state } ∧
      (∀ j, j ≠ g.index row col → getCell g' j = getCell g j) ∧
      g'.flags_placed = (match (getCell g (g.index row col)).state with
        | .Hidden => g.flags_placed + 1
        | .Flagged => g.flags_placed - 1
        | _ => g.flags_placed) ∧
      g'.rows = g.rows ∧ g'.cols = g.cols ∧ g'.mines = g.mines ∧ g'.status = g.status ∧
      g'.cells.length = g.cells.length := by
  have hp' : ¬(g.status ≠ .Playing ∧ g.status ≠ .NotStarted) := by
    rcases hp with h | h <;> rw [h] <;> intro hcon <;> [exact hcon.1 rfl; exact hcon.2 rfl]
  unfold Minesweeper.toggle_flag
  rw [if_neg hp']
  dsimp only
  rw [if_pos hidx]
  simp only [getCell]
  cases hst : (g.cells.getD (g.index row col) Cell.new).state with
  | Hidden =>
    refine ⟨_, rfl, ?_, fun j hj => getD_set_ne (fun hcc => hj hcc.symm) _ _, rfl, rfl, rfl,
      rfl, rfl, List.length_set _ _ _⟩
    rw [getD_set_self hidx]
    rfl
  | Flagged =>
    refine ⟨_, rfl, ?_, fun j hj => getD_set_ne (fun hcc => hj hcc.symm) _ _, rfl, rfl, rfl,
      rfl, rfl, List.length_set _ _ _⟩
    rw [getD_set_self hidx]
    rfl
  | QuestionMark =>
    refine ⟨_, rfl, ?_, fun j hj => getD_set_ne (fun hcc => hj hcc.symm) _ _, rfl, rfl, rfl,
      rfl, rfl, List.length_set _ _ _⟩
    rw [getD_set_self hidx]
    rfl
  | Revealed =>
    refine ⟨g, rfl, ?_, fun j hj => rfl, rfl, rfl, rfl, rfl, rfl, rfl⟩
    show g.cells.getD (g.index row col) Cell.new =
      { g.cells.getD (g.index row col) Cell.new with state := CellState.Revealed }
    rw [← hst]

theorem mineCellCount_place_mines (g : Minesweeper) (sh : List Nat)
    (hlen : g.cells.length = g.rows * g.cols)
    (hempty : ∀ c ∈ g.cells, c.content = .Empty)
    (hnd : sh.Nodup)
    (hb : ∀ i ∈ sh, i < g.rows * g.cols)
    (hshlen : g.mines ≤ sh.length) :
    mineCellCount (g.place_mines sh) = g.mines := by
  have htake_nd : (sh.take g.mines).Nodup := (List.take_sublist _ _).nodup hnd
  have htake_b : ∀ i ∈ sh.take g.mines, i < g.cells.length := by
    intro i hi
    rw [hlen]
    exact hb i (List.take_subset _ _ hi)
  have htake_len : (sh.take g.mines).length = g.mines := by
    rw [List.length_take]
    omega
  have hplen : (g.place_mines sh).cells.length = g.cells.length :=
    (place_mines_fields g sh).2.2.2.2.2
  rw [mineCellCount_eq_countP,
    countP_eq_length_filter_range (fun c => c.content == CellContent.Mine) Cell.new, hplen]
  have hfc : ((List.range g.cells.length).filter
      (fun j => ((g.place_mines sh).cells.getD j Cell.new).content == CellContent.Mine)) =
      ((List.range g.cells.length).filter (fun j => decide (j ∈ sh.take g.mines))) := by
    apply List.filter_congr
    intro j hj
    rw [List.mem_range] at hj
    rw [Bool.eq_iff_iff, beq_iff_eq, decide_eq_true_eq]
    constructor
    · intro h
      rcases (place_mines_mineAt g sh hj).mp h with hm | hm
      · exact hm
      · have hm' : (g.cells.getD j Cell.new).content = CellContent.Mine := hm
        rw [hempty _ (getD_mem hj Cell.new)] at hm'
        cases hm'
    · intro h
      exact (place_mines_mineAt g sh hj).mpr (Or.inl h)
  rw [hfc, length_filter_range_mem htake_nd htake_b, htake_len]

theorem validShuffle_facts (g : Minesweeper) (r c : Nat) (sh : List Nat)
    (hv : ValidShuffle g r c sh) (hm : g.mines < g.rows * g.cols) :
    sh.Nodup ∧ (∀ i ∈ sh, i < g.rows * g.cols) ∧ g.mines ≤ sh.length := by
  have hv' : sh.Perm (preShuffleIndices g r c) := hv
  by_cases hidx : g.index r c < g.rows * g.cols
  · rw [preShuffleIndices_eq g r c hidx] at hv'
    refine ⟨hv'.symm.nodup (nodup_swapRemove_range _ _), ?_, ?_⟩
    · intro i hi
      exact mem_swapRemove_range (hv'.mem_iff.mp hi)
    · rw [hv'.length_eq, length_swapRemove_range]
      omega
  · have hpre : preShuffleIndices g r c = List.range (g.rows * g.cols) := by
      unfold preShuffleIndices
      dsimp only
      have hnone : (List.range (g.rows * g.cols)).findIdx? (fun x => x == g.index r c) =
          none := by
        rw [List.findIdx?_eq_none_iff]
        intro x hx
        rw [List.mem_range] at hx
        rw [beq_eq_false_iff_ne]
        omega
      rw [hnone]
    rw [hpre] at hv'
    refine ⟨hv'.symm.nodup (List.nodup_range _),
      fun i hi => List.mem_range.mp (hv'.mem_iff.mp hi), ?_⟩
    rw [hv'.length_eq, List.length_range]
    omega

theorem getCell_oob (g : Minesweeper) (j : Nat) (h : g.cells.length ≤ j) :
    getCell g j = Cell.new := by
  show g.cells.getD j Cell.new = Cell.new
  rw [List.getD_eq_getElem?_getD, List.getElem?_eq_none h]
  rfl

/-- The state invariant maintained by every reachable engine state. -/
def StateInv (g : Minesweeper) : Prop :=
  g.cells.length = g.rows * g.cols ∧
  0 < g.mines ∧
  g.mines < g.rows * g.cols ∧
  EmptyNbrOK g ∧
  (g.status = .NotStarted → ∀ c ∈ g.cells, c.content = .Empty ∧ c.state ≠ .Revealed) ∧
  (g.status ≠ .NotStarted → mineCellCount g = g.mines) ∧
  (g.status ≠ .Lost → NoRevealedMine g) ∧
  (g.status ≠ .Lost → g.flags_placed = flaggedCount g)

theorem new_inv (d : Difficulty) : StateInv (Minesweeper.new d) := by
  refine ⟨new_len d, ?_, ?_, ?_, ?_, ?_, ?_, ?_⟩
  · cases d <;> decide
  · cases d <;> decide
  · intro a b ha hb he q hq
    obtain ⟨h1, h2⟩ := mem_neighbors_bounds hq
    rw [getCell_new d _ (by rw [new_len d]; exact index_lt h1 h2)]
    intro hcon
    cases hcon
  · intro _ c hc
    rw [List.eq_of_mem_replicate hc]
    exact ⟨rfl, fun hcon => by cases hcon⟩
  · intro hcon
    exact absurd rfl hcon
  · intro _ c hc hm
    rw [List.eq_of_mem_replicate hc] at hm
    cases hm
  · intro _
    cases d <;> decide

/-- `check_win` preserves the running-game invariants (and can only stand
still or win). -/
theorem check_win_inv (X : Minesweeper)
    (hlen : X.cells.length = X.rows * X.cols)
    (hp : X.status = .Playing)
    (hmc : mineCellCount X = X.mines)
    (hml : X.mines ≤ X.rows * X.cols)
    (hok : EmptyNbrOK X)
    (hnr : NoRevealedMine X)
    (hfl : X.flags_placed = flaggedCount X) :
    (check_win X).cells.length = X.cells.length ∧
    (check_win X).rows = X.rows ∧ (check_win X).cols = X.cols ∧
    (check_win X).mines = X.mines ∧
    ((check_win X).status = .Playing ∨ (check_win X).status = .Won) ∧
    EmptyNbrOK (check_win X) ∧
    mineCellCount (check_win X) = X.mines ∧
    NoRevealedMine (check_win X) ∧
    (check_win X).flags_placed = flaggedCount (check_win X) := by
  unfold check_win
  split_ifs with h
  · have hall : AllNonMineRevealed X := all_nonmine_revealed_of_count X hlen hmc hml hnr h
    have hlen2 : (flag_all_mines { X with status := GameStatus.Won }).cells.length =
        X.cells.length := List.length_map _ _
    have hco : ∀ j, (getCell (flag_all_mines { X with status := GameStatus.Won }) j).content =
        (getCell X j).content := by
      intro j
      by_cases hj : j < X.cells.length
      · rw [getCell_flag_all_mines { X with status := GameStatus.Won } j hj]
        split_ifs <;> rfl
      · rw [getCell_oob _ j (by rw [hlen2]; omega), getCell_oob X j (by omega)]
    refine ⟨hlen2, rfl, rfl, rfl, Or.inr rfl, ?_, ?_, noRevealedMine_flag_all_mines _, ?_⟩
    · have e1 : (flag_all_mines { X with status := GameStatus.Won }).rows = X.rows := rfl
      have e2 : (flag_all_mines { X with status := GameStatus.Won }).cols = X.cols := rfl
      exact emptyNbrOK_congr e1 e2 hco hok
    · rw [mineCellCount_eq_countP] at hmc ⊢
      rw [← hmc]
      apply countP_eq_of_pointwise Cell.new _ _ _ hlen2
      intro j hj
      rw [Bool.eq_iff_iff, beq_iff_eq, beq_iff_eq]
      rw [show ((flag_all_mines { X with status := GameStatus.Won }).cells.getD j
        Cell.new).content = (getCell X j).content from hco j]
      exact Iff.rfl
    · show X.mines = flaggedCount _
      rw [flaggedCount_flag_all_mines _ (by
        intro c hc hcm
        rw [hall c hc hcm]
        intro hcon
        cases hcon)]
      show X.mines = mineCellCount X
      rw [hmc]
  · exact ⟨rfl, rfl, rfl, rfl, Or.inl hp, hok, hmc, hnr, hfl⟩

theorem lossMap_content (c : Cell) : (lossMap c).content = c.content := by
  unfold lossMap
  split_ifs <;> rfl

/-- Equal contents everywhere give equal mine-cell counts. -/
theorem mineCellCount_congr {g g' : Minesweeper}
    (hlen : g'.cells.length = g.cells.length)
    (hco : ∀ j, (getCell g' j).content = (getCell g j).content) :
    mineCellCount g' = mineCellCount g := by
  rw [mineCellCount_eq_countP, mineCellCount_eq_countP]
  apply countP_eq_of_pointwise Cell.new _ _ _ hlen
  intro j hj
  rw [Bool.eq_iff_iff, beq_iff_eq, beq_iff_eq]
  rw [show (g'.cells.getD j Cell.new).content = (getCell g j).content from hco j]
  exact Iff.rfl

/-- Pointwise equivalent flagged-ness gives equal flagged counts. -/
theorem flaggedCount_eq_of_pointwise {g g' : Minesweeper}
    (hlen : g'.cells.length = g.cells.length)
    (hpt : ∀ j, j < g.cells.length →
      ((getCell g' j).state = .Flagged ↔ (getCell g j).state = .Flagged)) :
    flaggedCount g' = flaggedCount g := by
  rw [flaggedCount_eq_countP, flaggedCount_eq_countP]
  apply countP_eq_of_pointwise Cell.new _ _ _ hlen
  intro j hj
  rw [Bool.eq_iff_iff, beq_iff_eq, beq_iff_eq]
  exact hpt j hj

/-- A universally quantified membership statement follows from its pointwise
(indexed) form. -/
theorem forall_cells_of_pointwise {g : Minesweeper} (Q : Cell → Prop)
    (h : ∀ j, j < g.cells.length → Q (getCell g j)) : ∀ c ∈ g.cells, Q c := by
  intro c hc
  rw [List.mem_iff_getElem] at hc
  obtain ⟨j, hj, hval⟩ := hc
  have hq := h j hj
  rw [getCell_eq_of_mem hj, hval] at hq
  exact hq

theorem cycleState_ne_revealed {s : CellState} (h : s ≠ .Revealed) :
    cycleState s ≠ .Revealed := by
  cases s with
  | Hidden => intro hcon; cases hcon
  | Revealed => exact absurd rfl h
  | Flagged => intro hcon; cases hcon
  | QuestionMark => intro hcon; cases hcon

theorem revealCellSet_length (g : Minesweeper) (idx : Nat) :
    (revealCellSet g idx).cells.length = g.cells.length :=
  List.length_set _ _ _

theorem revealCellSet_content (g : Minesweeper) (idx : Nat) (j : Nat) :
    (getCell (revealCellSet g idx) j).content = (getCell g j).content :=
  content_set_state g idx { g.cells.getD idx Cell.new with state := CellState.Revealed } rfl j

theorem revealCellSet_state (g : Minesweeper) (idx j : Nat) :
    (getCell (revealCellSet g idx) j).state =
      if idx = j ∧ j < g.cells.length then CellState.Revealed else (getCell g j).state := by
  show ((g.cells.set idx _).getD j Cell.new).state = _
  rw [getD_set]
  split_ifs <;> rfl

theorem revealCellSet_noRevealedMine (g : Minesweeper) (idx : Nat)
    (hnm : (getCell g idx).content ≠ .Mine) (hnr : NoRevealedMine g) :
    NoRevealedMine (revealCellSet g idx) := by
  apply noRevealedMine_of_pointwise (revealCellSet_length g idx)
    (revealCellSet_content g idx) ?_ hnr
  intro j hj hm
  show (g.cells.set idx _).getD j Cell.new = g.cells.getD j Cell.new
  rw [getD_set]
  split_ifs with h
  · exact absurd (by rw [h.1]; exact hm) hnm
  · rfl

theorem revealCellSet_flaggedCount (g : Minesweeper) (idx : Nat)
    (hstF : (getCell g idx).state ≠ .Flagged) :
    flaggedCount (revealCellSet g idx) = flaggedCount g := by
  apply flaggedCount_eq_of_pointwise (revealCellSet_length g idx)
  intro j hj
  rw [revealCellSet_state]
  split_ifs with h
  · constructor
    · intro hcon
      cases hcon
    · intro hcon
      rw [← h.1] at hcon
      exact absurd hcon hstF
  · exact Iff.rfl

/-- Packaging of `check_win_inv` into the state invariant. -/
theorem check_win_stateInv (Y : Minesweeper)
    (hlen : Y.cells.length = Y.rows * Y.cols)
    (hp : Y.status = .Playing)
    (hm0 : 0 < Y.mines) (hm1 : Y.mines < Y.rows * Y.cols)
    (hmc : mineCellCount Y = Y.mines)
    (hok : EmptyNbrOK Y)
    (hnr : NoRevealedMine Y)
    (hfl : Y.flags_placed = flaggedCount Y) :
    StateInv (check_win Y) ∧ (check_win Y).status ≠ .NotStarted ∧
      (check_win Y).status ≠ .Lost ∧
      (check_win Y).rows = Y.rows ∧ (check_win Y).cols = Y.cols := by
  obtain ⟨c0, c1, c2, c3, c4, c5, c6, c7, c8⟩ :=
    check_win_inv Y hlen hp hmc (le_of_lt hm1) hok hnr hfl
  have hnn : (check_win Y).status ≠ .NotStarted := by
    intro h
    rcases c4 with h1 | h1 <;> (rw [h] at h1; cases h1)
  have hnl : (check_win Y).status ≠ .Lost := by
    intro h
    rcases c4 with h1 | h1 <;> (rw [h] at h1; cases h1)
  refine ⟨⟨?_, ?_, ?_, c5, ?_, ?_, fun _ => c7, fun _ => c8⟩, hnn, hnl, c1, c2⟩
  · rw [c0, c1, c2]
    exact hlen
  · rw [c3]
    exact hm0
  · rw [c3, c1, c2]
    exact hm1
  · intro h
    exact absurd h hnn
  · intro _
    rw [c3]
    exact c6

/-- The board right after revealing a clicked mine: status set to `Lost`
and the clicked cell overwritten. -/
def lostBoard (g : Minesweeper) (idx : Nat) (c' : Cell) : Minesweeper :=
  { g with status := .Lost, cells := g.cells.set idx c' }

/-- Losing transition: `reveal_all_mines` over a board whose status was just
set to `Lost` (after revealing the clicked cell) satisfies the invariant. -/
theorem reveal_all_mines_set_inv (g : Minesweeper) (idx : Nat) (c' : Cell)
    (hco : c'.content = (getCell g idx).content)
    (hlen : g.cells.length = g.rows * g.cols)
    (hm0 : 0 < g.mines) (hm1 : g.mines < g.rows * g.cols)
    (hok : EmptyNbrOK g)
    (hmc : mineCellCount g = g.mines) :
    StateInv (reveal_all_mines (lostBoard g idx c')) ∧
    (reveal_all_mines (lostBoard g idx c')).status ≠ .NotStarted := by
  rw [reveal_all_mines_eq_map]
  have hMs : ({ lostBoard g idx c' with
      cells := (lostBoard g idx c').cells.map lossMap }).status = GameStatus.Lost := rfl
  have hlenM : ({ lostBoard g idx c' with
      cells := (lostBoard g idx c').cells.map lossMap }).cells.length = g.cells.length := by
    show ((g.cells.set idx c').map lossMap).length = g.cells.length
    rw [List.length_map, List.length_set]
  have hcont : ∀ j, (getCell { lostBoard g idx c' with
      cells := (lostBoard g idx c').cells.map lossMap } j).content =
      (getCell g j).content := by
    intro j
    by_cases hj : j < g.cells.length
    · show (((g.cells.set idx c').map lossMap).getD j Cell.new).content = _
      rw [getD_map_of_lt _ (by rw [List.length_set]; exact hj) _, lossMap_content, getD_set]
      split_ifs with h
      · rw [← h.1]
        exact hco
      · rfl
    · rw [getCell_oob _ j (by rw [hlenM]; omega), getCell_oob g j (by omega)]
  refine ⟨⟨?_, hm0, hm1, ?_, ?_, ?_, ?_, ?_⟩, ?_⟩
  · exact hlenM.trans hlen
  · have e1 : ({ lostBoard g idx c' with
        cells := (lostBoard g idx c').cells.map lossMap }).rows = g.rows := rfl
    have e2 : ({ lostBoard g idx c' with
        cells := (lostBoard g idx c').cells.map lossMap }).cols = g.cols := rfl
    exact emptyNbrOK_congr e1 e2 hcont hok
  · intro h
    cases hMs.symm.trans h
  · intro _
    rw [mineCellCount_congr hlenM hcont]
    exact hmc
  · intro h
    exact absurd hMs h
  · intro h
    exact absurd hMs h
  · intro h
    cases hMs.symm.trans h

/-- Starting a game: `place_mines` on a fresh (all-empty, `NotStarted`)
board, running with a valid shuffle oracle, yields a `Playing` board
satisfying the invariant. -/
theorem place_mines_inv (g : Minesweeper) (row col : Nat) (sh : List Nat)
    (hinv : StateInv g) (hn : g.status = .NotStarted)
    (hv : ValidShuffle g row col sh) :
    StateInv (Minesweeper.place_mines { g with status := .Playing } sh) ∧
    (Minesweeper.place_mines { g with status := .Playing } sh).status = .Playing := by
  obtain ⟨hlen, hm0, hm1, hok, hns, _, _, hfl8⟩ := hinv
  have hempty : ∀ c ∈ g.cells, c.content = .Empty := fun c hc => (hns hn c hc).1
  have hnorev : ∀ c ∈ g.cells, c.state ≠ .Revealed := fun c hc => (hns hn c hc).2
  have hfl : g.flags_placed = flaggedCount g := hfl8 (by rw [hn]; intro h; cases h)
  have hv2 : ValidShuffle { g with status := GameStatus.Playing } row col sh := hv
  have hm1' : ({ g with status := GameStatus.Playing }).mines <
      ({ g with status := GameStatus.Playing }).rows *
        ({ g with status := GameStatus.Playing }).cols := hm1
  obtain ⟨hnd, hb, hshlen⟩ :=
    validShuffle_facts { g with status := GameStatus.Playing } row col sh hv2 hm1'
  obtain ⟨f1, f2, f3, f4, f5, f6⟩ :=
    place_mines_fields { g with status := GameStatus.Playing } sh
  have hPs : (Minesweeper.place_mines { g with status := GameStatus.Playing } sh).status =
      GameStatus.Playing := f4
  have hlen2 : ({ g with status := GameStatus.Playing }).cells.length =
      ({ g with status := GameStatus.Playing }).rows *
        ({ g with status := GameStatus.Playing }).cols := hlen
  have hempty2 : ∀ c ∈ ({ g with status := GameStatus.Playing }).cells,
      c.content = .Empty := hempty
  have hstates : ∀ j, j < g.cells.length →
      (getCell (Minesweeper.place_mines { g with status := GameStatus.Playing } sh) j).state =
      (getCell g j).state := by
    intro j hj
    exact (place_mines_states { g with status := GameStatus.Playing } sh hj).1
  refine ⟨⟨?_, ?_, ?_, ?_, ?_, ?_, ?_, ?_⟩, hPs⟩
  · rw [f6, f1, f2]
    exact hlen
  · rw [f3]
    exact hm0
  · rw [f3, f1, f2]
    exact hm1
  · exact emptyNbrOK_place_mines { g with status := GameStatus.Playing } sh hlen2 hempty2
  · intro h
    rw [hPs] at h
    cases h
  · intro _
    rw [f3]
    exact mineCellCount_place_mines { g with status := GameStatus.Playing } sh hlen2
      hempty2 hnd hb hshlen
  · intro _
    apply forall_cells_of_pointwise (fun c => c.content = .Mine → c.state ≠ .Revealed)
    intro j hj _
    rw [hstates j (by rw [← f6]; exact hj)]
    exact hnorev _ (getD_mem (by rw [← f6]; exact hj) _)
  · intro _
    rw [f5]
    have hfc : flaggedCount (Minesweeper.place_mines { g with status := GameStatus.Playing } sh) =
        flaggedCount g := by
      apply flaggedCount_eq_of_pointwise f6
      intro j hj
      rw [hstates j hj]
      exact Iff.rfl
    rw [hfc]
    exact hfl

/-- All facts needed about the `Empty`-branch flood fill, phrased against the
pre-click board `g`. -/
theorem flood_fill_main (g : Minesweeper) (row col : Nat)
    (hok : EmptyNbrOK g)
    (hr : row < g.rows) (hc : col < g.cols)
    (hcc : (g.cells.getD (g.index row col) Cell.new).content = .Empty) :
    (flood_fill (revealCellSet g (g.index row col)) row col).rows = g.rows ∧
    (flood_fill (revealCellSet g (g.index row col)) row col).cols = g.cols ∧
    (flood_fill (revealCellSet g (g.index row col)) row col).mines = g.mines ∧
    (flood_fill (revealCellSet g (g.index row col)) row col).status = g.status ∧
    (flood_fill (revealCellSet g (g.index row col)) row col).flags_placed = g.flags_placed ∧
    (flood_fill (revealCellSet g (g.index row col)) row col).cells.length = g.cells.length ∧
    (∀ j, (getCell (flood_fill (revealCellSet g (g.index row col)) row col) j).content =
      (getCell g j).content) ∧
    (∀ j, (getCell g j).content = .Mine →
      getCell (flood_fill (revealCellSet g (g.index row col)) row col) j = getCell g j) ∧
    flaggedCount (flood_fill (revealCellSet g (g.index row col)) row col) =
      flaggedCount (revealCellSet g (g.index row col)) ∧
    (∀ j, CellEvol (getCell (revealCellSet g (g.index row col)) j)
      (getCell (flood_fill (revealCellSet g (g.index row col)) row col) j)) := by
  have hcoY := revealCellSet_content g (g.index row col)
  have e1 : (revealCellSet g (g.index row col)).rows = g.rows := rfl
  have e2 : (revealCellSet g (g.index row col)).cols = g.cols := rfl
  have hokY : EmptyNbrOK (revealCellSet g (g.index row col)) :=
    emptyNbrOK_congr e1 e2 hcoY hok
  have hstack : ∀ x ∈ [(row, col)], x.1 < (revealCellSet g (g.index row col)).rows ∧
      x.2 < (revealCellSet g (g.index row col)).cols ∧
      (getCell (revealCellSet g (g.index row col))
        ((revealCellSet g (g.index row col)).index x.1 x.2)).content = .Empty := by
    intro x hx
    rw [List.mem_singleton] at hx
    subst hx
    refine ⟨hr, hc, ?_⟩
    show (getCell (revealCellSet g (g.index row col)) (g.index row col)).content = .Empty
    rw [hcoY]
    exact hcc
  obtain ⟨⟨l1, l2, l3, l4, l5, l6⟩, levol, lmine, lflag⟩ :=
    floodLoop_main (2 * (revealCellSet g (g.index row col)).cells.length + 1)
      (revealCellSet g (g.index row col)) [(row, col)] hokY hstack
  have hco : ∀ j, (getCell (flood_fill (revealCellSet g (g.index row col)) row col) j).content =
      (getCell g j).content := fun j => ((levol j).1).trans (hcoY j)
  refine ⟨l1, l2, l3, l4, l5, l6.trans (revealCellSet_length _ _), hco, ?_, lflag, levol⟩
  intro j hm
  have hmY : (getCell (revealCellSet g (g.index row col)) j).content = .Mine := by
    rw [hcoY]
    exact hm
  have hmain : getCell (flood_fill (revealCellSet g (g.index row col)) row col) j =
      getCell (revealCellSet g (g.index row col)) j := lmine j hmY
  rw [hmain]
  show (g.cells.set (g.index row col) _).getD j Cell.new = g.cells.getD j Cell.new
  rw [getD_set]
  split_ifs with h2
  · exfalso
    have hmI : (g.cells.getD (g.index row col) Cell.new).content = .Mine := by
      rw [h2.1]
      exact hm
    rw [hcc] at hmI
    cases hmI
  · rfl

/-- `reveal` preserves the invariant from any `Playing` state (at in-grid
coordinates), and the game is started afterwards. -/
theorem reveal_playing_inv (g : Minesweeper) (row col : Nat) (sh : List Nat)
    (g' : Minesweeper)
    (hinv : StateInv g) (hp : g.status = .Playing)
    (hr : row < g.rows) (hc : col < g.cols)
    (hsome : g.reveal row col sh = some g') :
    StateInv g' ∧ g'.status ≠ .NotStarted ∧ g'.rows = g.rows ∧ g'.cols = g.cols := by
  obtain ⟨hlen, hm0, hm1, hok, hns, hmc6, hnr7, hfl8⟩ := hinv
  have hmc : mineCellCount g = g.mines := hmc6 (by rw [hp]; intro h; cases h)
  have hnr : NoRevealedMine g := hnr7 (by rw [hp]; intro h; cases h)
  have hfl : g.flags_placed = flaggedCount g := hfl8 (by rw [hp]; intro h; cases h)
  have hidx : g.index row col < g.cells.length := by
    rw [hlen]
    exact index_lt hr hc
  by_cases hFR : (g.cells.getD (g.index row col) Cell.new).state = .Flagged ∨
      (g.cells.getD (g.index row col) Cell.new).state = .Revealed
  · rw [reveal_eq_noop g row col sh hp hidx hFR] at hsome
    obtain rfl := Option.some.inj hsome
    exact ⟨⟨hlen, hm0, hm1, hok, hns, hmc6, hnr7, hfl8⟩,
      (by rw [hp]; intro h; cases h), rfl, rfl⟩
  · push_neg at hFR
    obtain ⟨hstF, hstR⟩ := hFR
    have hnm : ∀ cc, (g.cells.getD (g.index row col) Cell.new).content = cc →
        cc ≠ .Mine → (getCell g (g.index row col)).content ≠ .Mine := by
      intro cc h1 h2 hcon
      have hcon' : (g.cells.getD (g.index row col) Cell.new).content = .Mine := hcon
      rw [h1] at hcon'
      exact h2 hcon'
    cases hcc : (g.cells.getD (g.index row col) Cell.new).content with
    | Mine =>
      rw [reveal_eq_of_mine g row col sh hp hidx hstF hstR hcc] at hsome
      obtain rfl := Option.some.inj hsome
      have key := reveal_all_mines_set_inv g (g.index row col)
        { g.cells.getD (g.index row col) Cell.new with state := .Revealed, exploded := true }
        rfl hlen hm0 hm1 hok hmc
      exact ⟨key.1, key.2, rfl, rfl⟩
    | Empty =>
      rw [reveal_eq_of_empty g row col sh hp hidx hstF hstR hcc] at hsome
      obtain rfl := Option.some.inj hsome
      obtain ⟨l1, l2, l3, l4, l5, l6, hFco, hFmine, hFflag, hFevol⟩ :=
        flood_fill_main g row col hok hr hc hcc
      have hcoY := revealCellSet_content g (g.index row col)
      have hnmI : (getCell g (g.index row col)).content ≠ .Mine :=
        hnm _ hcc (by intro h; cases h)
      have hfcY := revealCellSet_flaggedCount g (g.index row col) hstF
      have hFst : (flood_fill (revealCellSet g (g.index row col)) row col).status =
          .Playing := l4.trans hp
      have hFlen2 : (flood_fill (revealCellSet g (g.index row col)) row col).cells.length =
          (flood_fill (revealCellSet g (g.index row col)) row col).rows *
          (flood_fill (revealCellSet g (g.index row col)) row col).cols := by
        rw [l6, l1, l2]
        exact hlen
      have hFm0 : 0 < (flood_fill (revealCellSet g (g.index row col)) row col).mines := by
        rw [l3]
        exact hm0
      have hFm1 : (flood_fill (revealCellSet g (g.index row col)) row col).mines <
          (flood_fill (revealCellSet g (g.index row col)) row col).rows *
          (flood_fill (revealCellSet g (g.index row col)) row col).cols := by
        rw [l3, l1, l2]
        exact hm1
      have hFmc : mineCellCount (flood_fill (revealCellSet g (g.index row col)) row col) =
          (flood_fill (revealCellSet g (g.index row col)) row col).mines := by
        rw [l3, mineCellCount_congr l6 hFco]
        exact hmc
      have hFok : EmptyNbrOK (flood_fill (revealCellSet g (g.index row col)) row col) :=
        emptyNbrOK_congr l1 l2 hFco hok
      have hFnr : NoRevealedMine (flood_fill (revealCellSet g (g.index row col)) row col) :=
        noRevealedMine_of_pointwise l6 hFco (fun j _ hm => hFmine j hm) hnr
      have hFfl : (flood_fill (revealCellSet g (g.index row col)) row col).flags_placed =
          flaggedCount (flood_fill (revealCellSet g (g.index row col)) row col) := by
        rw [hFflag.trans hfcY, l5]
        exact hfl
      obtain ⟨k1, k2, _, k4, k5⟩ := check_win_stateInv
        (flood_fill (revealCellSet g (g.index row col)) row col)
        hFlen2 hFst hFm0 hFm1 hFmc hFok hFnr hFfl
      exact ⟨k1, k2, k4.trans l1, k5.trans l2⟩
    | Number n =>
      rw [reveal_eq_of_number g row col sh n hp hidx hstF hstR hcc] at hsome
      obtain rfl := Option.some.inj hsome
      have hlenY := revealCellSet_length g (g.index row col)
      have hcoY := revealCellSet_content g (g.index row col)
      have e1 : (revealCellSet g (g.index row col)).rows = g.rows := rfl
      have e2 : (revealCellSet g (g.index row col)).cols = g.cols := rfl
      have hokY : EmptyNbrOK (revealCellSet g (g.index row col)) :=
        emptyNbrOK_congr e1 e2 hcoY hok
      have hnmI : (getCell g (g.index row col)).content ≠ .Mine :=
        hnm _ hcc (by intro h; cases h)
      have hnrY := revealCellSet_noRevealedMine g (g.index row col) hnmI hnr
      have hfcY := revealCellSet_flaggedCount g (g.index row col) hstF
      have hmcY : mineCellCount (revealCellSet g (g.index row col)) =
          (revealCellSet g (g.index row col)).mines := by
        rw [mineCellCount_congr hlenY hcoY]
        exact hmc
      have hlenY2 : (revealCellSet g (g.index row col)).cells.length =
          (revealCellSet g (g.index row col)).rows *
          (revealCellSet g (g.index row col)).cols := by
        rw [hlenY, e1, e2]
        exact hlen
      have hpY : (revealCellSet g (g.index row col)).status = .Playing := hp
      have hflY : (revealCellSet g (g.index row col)).flags_placed =
          flaggedCount (revealCellSet g (g.index row col)) := by
        rw [hfcY]
        exact hfl
      obtain ⟨k1, k2, _, k4, k5⟩ := check_win_stateInv (revealCellSet g (g.index row col))
        hlenY2 hpY hm0 hm1 hmcY hokY hnrY hflY
      exact ⟨k1, k2, k4, k5⟩

/-- `reveal` preserves the invariant from every state (with a valid shuffle
oracle if the game has not started), and leaves a started game. -/
theorem reveal_inv (g : Minesweeper) (row col : Nat) (sh : List Nat) (g' : Minesweeper)
    (hinv : StateInv g)
    (hr : row < g.rows) (hc : col < g.cols)
    (hsh : g.status = .NotStarted → ValidShuffle g row col sh)
    (hsome : g.reveal row col sh = some g') :
    StateInv g' ∧ g'.status ≠ .NotStarted ∧ g'.rows = g.rows ∧ g'.cols = g.cols := by
  cases hst : g.status with
  | Won =>
    rw [reveal_of_terminal g row col sh (Or.inl hst)] at hsome
    obtain rfl := Option.some.inj hsome
    exact ⟨hinv, (by rw [hst]; intro h; cases h), rfl, rfl⟩
  | Lost =>
    rw [reveal_of_terminal g row col sh (Or.inr hst)] at hsome
    obtain rfl := Option.some.inj hsome
    exact ⟨hinv, (by rw [hst]; intro h; cases h), rfl, rfl⟩
  | Playing =>
    exact reveal_playing_inv g row col sh g' hinv hst hr hc hsome
  | NotStarted =>
    obtain ⟨hPI, hPs⟩ := place_mines_inv g row col sh hinv hst (hsh hst)
    rw [reveal_of_not_started g row col sh sh hst] at hsome
    have hr' : row <
        (Minesweeper.place_mines { g with status := GameStatus.Playing } sh).rows := by
      rw [(place_mines_fields _ _).1]
      exact hr
    have hc' : col <
        (Minesweeper.place_mines { g with status := GameStatus.Playing } sh).cols := by
      rw [(place_mines_fields _ _).2.1]
      exact hc
    obtain ⟨k1, k2, k3, k4⟩ := reveal_playing_inv _ row col sh g' hPI hPs hr' hc' hsome
    refine ⟨k1, k2, ?_, ?_⟩
    · rw [k3, (place_mines_fields _ _).1]
    · rw [k4, (place_mines_fields _ _).2.1]

theorem countP_set_eq {α : Type} (p : α → Bool) (l : List α) (i : Nat) (a : α)
    (h : i < l.length) :
    (l.set i a).countP p + (if p l[i] = true then 1 else 0) =
    l.countP p + (if p a = true then 1 else 0) := by
  rw [List.countP_set p l i a h]
  by_cases h1 : p l[i] = true
  · rw [if_pos h1]
    have hpos : 0 < l.countP p := by
      rw [List.countP_pos_iff]
      exact ⟨l[i], List.getElem_mem _, h1⟩
    omega
  · rw [if_neg h1]
    omega

theorem flagged_countP_set_eq (l : List Cell) (i : Nat) (a : Cell) (h : i < l.length) :
    (l.set i a).countP (fun c => c.state == CellState.Flagged) +
      (if l[i].state = CellState.Flagged then 1 else 0) =
    l.countP (fun c => c.state == CellState.Flagged) +
      (if a.state = CellState.Flagged then 1 else 0) := by
  have hcs := countP_set_eq (fun c => c.state == CellState.Flagged) l i a h
  by_cases h1 : l[i].state = CellState.Flagged <;>
    by_cases h2 : a.state = CellState.Flagged
  · rw [if_pos (show ((fun c : Cell => c.state == CellState.Flagged) l[i]) = true by
        simp [h1]), if_pos (show ((fun c : Cell => c.state == CellState.Flagged) a) = true by
        simp [h2])] at hcs
    rw [if_pos h1, if_pos h2]
    exact hcs
  · rw [if_pos (show ((fun c : Cell => c.state == CellState.Flagged) l[i]) = true by
        simp [h1]), if_neg (show ¬((fun c : Cell => c.state == CellState.Flagged) a) = true by
        simp [h2])] at hcs
    rw [if_pos h1, if_neg h2]
    exact hcs
  · rw [if_neg (show ¬((fun c : Cell => c.state == CellState.Flagged) l[i]) = true by
        simp [h1]), if_pos (show ((fun c : Cell => c.state == CellState.Flagged) a) = true by
        simp [h2])] at hcs
    rw [if_neg h1, if_pos h2]
    exact hcs
  · rw [if_neg (show ¬((fun c : Cell => c.state == CellState.Flagged) l[i]) = true by
        simp [h1]), if_neg (show ¬((fun c : Cell => c.state == CellState.Flagged) a) = true by
        simp [h2])] at hcs
    rw [if_neg h1, if_neg h2]
    exact hcs

/-- Exact flagged-count bookkeeping of one `toggle_flag` call. -/
theorem toggle_flag_flaggedCount (g : Minesweeper) (row col : Nat)
    (hp : g.status = .Playing ∨ g.status = .NotStarted)
    (hidx : g.index row col < g.cells.length)
    (g' : Minesweeper) (hg' : g.toggle_flag row col = some g') :
    flaggedCount g' +
      (if (g.cells.getD (g.index row col) Cell.new).state = .Flagged then 1 else 0) =
    flaggedCount g +
      (if cycleState (g.cells.getD (g.index row col) Cell.new).state = .Flagged
        then 1 else 0) := by
  have hp' : ¬(g.status ≠ .Playing ∧ g.status ≠ .NotStarted) := by
    rcases hp with h | h <;> rw [h] <;> intro hcon <;> [exact hcon.1 rfl; exact hcon.2 rfl]
  unfold Minesweeper.toggle_flag at hg'
  rw [if_neg hp'] at hg'
  dsimp only at hg'
  rw [if_pos hidx] at hg'
  have hgel : g.cells.getD (g.index row col) Cell.new = g.cells[g.index row col] :=
    getCell_eq_of_mem hidx
  cases hst : (g.cells.getD (g.index row col) Cell.new).state with
  | Hidden =>
    rw [hst] at hg'
    obtain rfl := Option.some.inj hg'
    obtain ⟨R, hR⟩ : ∃ r : Cell, r =
        { content := (g.cells.getD (g.index row col) Cell.new).content,
          state := CellState.Flagged,
          exploded := (g.cells.getD (g.index row col) Cell.new).exploded,
          wrong_flag := (g.cells.getD (g.index row col) Cell.new).wrong_flag } := ⟨_, rfl⟩
    rw [← hR]
    have hRs : R.state = CellState.Flagged := by rw [hR]
    have hcs := flagged_countP_set_eq g.cells (g.index row col) R hidx
    rw [if_neg (show ¬(g.cells[g.index row col].state = CellState.Flagged) from by
        rw [← hgel, hst]; intro hcon; cases hcon), if_pos hRs] at hcs
    rw [flaggedCount_eq_countP, flaggedCount_eq_countP]
    dsimp only
    simp only [cycleState]
    rw [if_neg (show ¬(CellState.Hidden = CellState.Flagged) from fun hcon => by cases hcon),
      if_pos (trivial : True)]
    omega
  | Flagged =>
    rw [hst] at hg'
    obtain rfl := Option.some.inj hg'
    obtain ⟨R, hR⟩ : ∃ r : Cell, r =
        { content := (g.cells.getD (g.index row col) Cell.new).content,
          state := CellState.QuestionMark,
          exploded := (g.cells.getD (g.index row col) Cell.new).exploded,
          wrong_flag := (g.cells.getD (g.index row col) Cell.new).wrong_flag } := ⟨_, rfl⟩
    rw [← hR]
    have hRs : R.state = CellState.QuestionMark := by rw [hR]
    have hcs := flagged_countP_set_eq g.cells (g.index row col) R hidx
    rw [if_pos (show g.cells[g.index row col].state = CellState.Flagged from by
        rw [← hgel, hst]),
      if_neg (show ¬(R.state = CellState.Flagged) from by
        rw [hRs]; intro hcon; cases hcon)] at hcs
    rw [flaggedCount_eq_countP, flaggedCount_eq_countP]
    dsimp only
    simp only [cycleState]
    rw [if_pos (trivial : True),
      if_neg (show ¬(CellState.QuestionMark = CellState.Flagged) from
        fun hcon => by cases hcon)]
    omega
  | QuestionMark =>
    rw [hst] at hg'
    obtain rfl := Option.some.inj hg'
    obtain ⟨R, hR⟩ : ∃ r : Cell, r =
        { content := (g.cells.getD (g.index row col) Cell.new).content,
          state := CellState.Hidden,
          exploded := (g.cells.getD (g.index row col) Cell.new).exploded,
          wrong_flag := (g.cells.getD (g.index row col) Cell.new).wrong_flag } := ⟨_, rfl⟩
    rw [← hR]
    have hRs : R.state = CellState.Hidden := by rw [hR]
    have hcs := flagged_countP_set_eq g.cells (g.index row col) R hidx
    rw [if_neg (show ¬(g.cells[g.index row col].state = CellState.Flagged) from by
        rw [← hgel, hst]; intro hcon; cases hcon),
      if_neg (show ¬(R.state = CellState.Flagged) from by
        rw [hRs]; intro hcon; cases hcon)] at hcs
    rw [flaggedCount_eq_countP, flaggedCount_eq_countP]
    dsimp only
    simp only [cycleState]
    rw [if_neg (show ¬(CellState.QuestionMark = CellState.Flagged) from
        fun hcon => by cases hcon),
      if_neg (show ¬(CellState.Hidden = CellState.Flagged) from fun hcon => by cases hcon)]
    omega
  | Revealed =>
    rw [hst] at hg'
    obtain rfl := Option.some.inj hg'
    simp [cycleState]

/-- `toggle_flag` preserves the invariant (at in-grid coordinates). -/
theorem toggle_inv (g : Minesweeper) (row col : Nat) (g' : Minesweeper)
    (hinv : StateInv g) (hr : row < g.rows) (hc : col < g.cols)
    (hsome : g.toggle_flag row col = some g') :
    StateInv g' ∧ g'.status = g.status ∧ g'.rows = g.rows ∧ g'.cols = g.cols := by
  obtain ⟨hlen, hm0, hm1, hok, hns, hmc6, hnr7, hfl8⟩ := hinv
  by_cases hp : g.status = .Playing ∨ g.status = .NotStarted
  · have hidx : g.index row col < g.cells.length := by
      rw [hlen]
      exact index_lt hr hc
    have hcount := toggle_flag_flaggedCount g row col hp hidx g' hsome
    obtain ⟨g2, hsome2, hcell, hother, hflags, t1, t2, t3, t4, t5⟩ :=
      toggle_flag_spec g row col hp hidx
    rw [hsome2] at hsome
    obtain rfl := Option.some.inj hsome
    have hco : ∀ j, (getCell g2 j).content = (getCell g j).content := by
      intro j
      by_cases hj : j = g.index row col
      · subst hj
        rw [hcell]
      · rw [hother j hj]
    refine ⟨⟨?_, ?_, ?_, ?_, ?_, ?_, ?_, ?_⟩, t4, t1, t2⟩
    · rw [t5, t1, t2]
      exact hlen
    · rw [t3]
      exact hm0
    · rw [t3, t1, t2]
      exact hm1
    · exact emptyNbrOK_congr t1 t2 hco hok
    · intro h
      rw [t4] at h
      apply forall_cells_of_pointwise
        (fun c => c.content = CellContent.Empty ∧ c.state ≠ CellState.Revealed)
      intro j hj
      have hjg : j < g.cells.length := by rw [← t5]; exact hj
      constructor
      · rw [hco j]
        exact (hns h _ (getD_mem hjg _)).1
      · by_cases hji : j = g.index row col
        · subst hji
          rw [hcell]
          exact cycleState_ne_revealed (hns h _ (getD_mem hjg _)).2
        · rw [hother j hji]
          exact (hns h _ (getD_mem hjg _)).2
    · intro h
      rw [t4] at h
      rw [t3, mineCellCount_congr t5 hco]
      exact hmc6 h
    · intro h
      rw [t4] at h
      apply forall_cells_of_pointwise
        (fun c => c.content = CellContent.Mine → c.state ≠ CellState.Revealed)
      intro j hj hm
      have hjg : j < g.cells.length := by rw [← t5]; exact hj
      have hmg : (getCell g j).content = .Mine := by
        rw [← hco j]
        exact hm
      have hgold : (getCell g j).state ≠ .Revealed :=
        hnr7 h _ (getD_mem hjg _) hmg
      by_cases hji : j = g.index row col
      · subst hji
        rw [hcell]
        exact cycleState_ne_revealed hgold
      · rw [hother j hji]
        exact hgold
    · intro h
      rw [t4] at h
      have hfl : g.flags_placed = flaggedCount g := hfl8 h
      rw [hflags]
      cases hs : (getCell g (g.index row col)).state with
      | Hidden =>
        show g.flags_placed + 1 = flaggedCount g2
        have hs' : (g.cells.getD (g.index row col) Cell.new).state = CellState.Hidden := hs
        rw [hs'] at hcount
        simp only [cycleState] at hcount
        rw [if_neg (show ¬(CellState.Hidden = CellState.Flagged) from
            fun hcon => by cases hcon),
          if_pos (trivial : True)] at hcount
        omega
      | Flagged =>
        show g.flags_placed - 1 = flaggedCount g2
        have hs' : (g.cells.getD (g.index row col) Cell.new).state = CellState.Flagged := hs
        rw [hs'] at hcount
        simp only [cycleState] at hcount
        rw [if_pos (trivial : True),
          if_neg (show ¬(CellState.QuestionMark = CellState.Flagged) from
            fun hcon => by cases hcon)] at hcount
        omega
      | QuestionMark =>
        show g.flags_placed = flaggedCount g2
        have hs' : (g.cells.getD (g.index row col) Cell.new).state =
            CellState.QuestionMark := hs
        rw [hs'] at hcount
        simp only [cycleState] at hcount
        rw [if_neg (show ¬(CellState.QuestionMark = CellState.Flagged) from
            fun hcon => by cases hcon),
          if_neg (show ¬(CellState.Hidden = CellState.Flagged) from
            fun hcon => by cases hcon)] at hcount
        omega
      | Revealed =>
        show g.flags_placed = flaggedCount g2
        have hs' : (g.cells.getD (g.index row col) Cell.new).state = CellState.Revealed := hs
        rw [hs'] at hcount
        simp only [cycleState] at hcount
        rw [if_neg (show ¬(CellState.Revealed = CellState.Flagged) from
            fun hcon => by cases hcon)] at hcount
        omega
  · rw [toggle_flag_of_terminal g row col (by
        rcases not_or.mp hp with ⟨h1, h2⟩
        exact ⟨h1, h2⟩)] at hsome
    obtain rfl := Option.some.inj hsome
    exact ⟨⟨hlen, hm0, hm1, hok, hns, hmc6, hnr7, hfl8⟩, rfl, rfl, rfl⟩

/-- Invariant preservation through an `Option`-valued left fold. -/
theorem foldlM_reveal_inv (P : Minesweeper → Prop) :
    ∀ (l : List (Nat × Nat)) (f : Minesweeper → Nat × Nat → Option Minesweeper),
      (∀ b x r, x ∈ l → P b → f b x = some r → P r) →
      ∀ (b : Minesweeper) (res : Minesweeper),
      P b → l.foldlM f b = some res → P res := by
  intro l
  induction l with
  | nil =>
    intro f _ b res hb h
    obtain rfl := Option.some.inj h
    exact hb
  | cons a t ih =>
    intro f hstep b res hb h
    rw [List.foldlM_cons] at h
    cases hfb : f b a with
    | none =>
      rw [hfb] at h
      simp at h
    | some b2 =>
      rw [hfb] at h
      have h' : t.foldlM f b2 = some res := h
      exact ih f (fun b3 x r hx => hstep b3 x r (List.mem_cons_of_mem _ hx)) b2 res
        (hstep b a b2 (List.mem_cons_self _ _) hb hfb) h'

/-- `chord` preserves the invariant (at in-grid coordinates). -/
theorem chord_inv (g : Minesweeper) (row col : Nat) (g' : Minesweeper) (b : Bool)
    (hinv : StateInv g) (hr : row < g.rows) (hc : col < g.cols)
    (hsome : g.chord row col = some (g', b)) :
    StateInv g' ∧ g'.rows = g.rows ∧ g'.cols = g.cols := by
  by_cases hp : g.status = .Playing
  · unfold Minesweeper.chord at hsome
    rw [if_neg (not_not_intro hp)] at hsome
    dsimp only at hsome
    have hidx : g.index row col < g.cells.length := by
      rw [hinv.1]
      exact index_lt hr hc
    rw [if_pos hidx] at hsome
    by_cases hrev : (g.cells.getD (g.index row col) Cell.new).state ≠ .Revealed
    · rw [if_pos hrev] at hsome
      injection Option.some.inj hsome with h1 h2
      subst h1
      exact ⟨hinv, rfl, rfl⟩
    · rw [if_neg hrev] at hsome
      cases hcc : (g.cells.getD (g.index row col) Cell.new).content with
      | Empty =>
        rw [hcc] at hsome
        have hsome2 : some ((g, false) : Minesweeper × Bool) = some (g', b) := hsome
        injection Option.some.inj hsome2 with h1 h2
        subst h1
        exact ⟨hinv, rfl, rfl⟩
      | Mine =>
        rw [hcc] at hsome
        have hsome2 : some ((g, false) : Minesweeper × Bool) = some (g', b) := hsome
        injection Option.some.inj hsome2 with h1 h2
        subst h1
        exact ⟨hinv, rfl, rfl⟩
      | Number n =>
        rw [hcc] at hsome
        dsimp only at hsome
        by_cases hfc : ((g.neighbors row col).filter
            (fun p => (g.cells.getD (g.index p.1 p.2) Cell.new).state ==
              CellState.Flagged)).length = n
        · rw [if_pos hfc] at hsome
          rw [Option.map_eq_some'] at hsome
          obtain ⟨h0, hfold, hpair⟩ := hsome
          injection hpair with h1 h2
          subst h1
          have hstep : ∀ b2 x r, x ∈ g.neighbors row col →
              (StateInv b2 ∧ b2.status ≠ .NotStarted ∧
                b2.rows = g.rows ∧ b2.cols = g.cols) →
              (if (b2.cells.getD (b2.index x.1 x.2) Cell.new).state = .Hidden ∨
                  (b2.cells.getD (b2.index x.1 x.2) Cell.new).state = .QuestionMark then
                b2.reveal x.1 x.2 [] else some b2) = some r →
              (StateInv r ∧ r.status ≠ .NotStarted ∧
                r.rows = g.rows ∧ r.cols = g.cols) := by
            intro b2 x r hx hPb2 hf
            obtain ⟨hSI, hNS, hRows, hCols⟩ := hPb2
            obtain ⟨hx1, hx2⟩ := mem_neighbors_bounds hx
            by_cases hcond : (b2.cells.getD (b2.index x.1 x.2) Cell.new).state = .Hidden ∨
                (b2.cells.getD (b2.index x.1 x.2) Cell.new).state = .QuestionMark
            · rw [if_pos hcond] at hf
              obtain ⟨k1, k2, k3, k4⟩ := reveal_inv b2 x.1 x.2 [] r hSI
                (by rw [hRows]; exact hx1) (by rw [hCols]; exact hx2)
                (fun hcon => absurd hcon hNS) hf
              exact ⟨k1, k2, k3.trans hRows, k4.trans hCols⟩
            · rw [if_neg hcond] at hf
              obtain rfl := Option.some.inj hf
              exact ⟨hSI, hNS, hRows, hCols⟩
          have hP := foldlM_reveal_inv
            (fun x => StateInv x ∧ x.status ≠ .NotStarted ∧
              x.rows = g.rows ∧ x.cols = g.cols)
            (g.neighbors row col) _ hstep g h0
            ⟨hinv, (by rw [hp]; intro hcon; cases hcon), rfl, rfl⟩ hfold
          exact ⟨hP.1, hP.2.2.1, hP.2.2.2⟩
        · rw [if_neg hfc] at hsome
          injection Option.some.inj hsome with h1 h2
          subst h1
          exact ⟨hinv, rfl, rfl⟩
  · rw [chord_of_not_playing g row col hp] at hsome
    injection Option.some.inj hsome with h1 h2
    subst h1
    exact ⟨hinv, rfl, rfl⟩

/-- States reachable from a fresh engine by the three mutating calls issued
by the view (which always passes in-grid coordinates), with the shuffle
oracle of a first reveal constrained to the permutations `place_mines` can
draw. -/
inductive Reachable : Minesweeper → Prop where
  | new (d : Difficulty) : Reachable (Minesweeper.new d)
  | reveal_step (g g' : Minesweeper) (row col : Nat) (sh : List Nat) :
      Reachable g → row < g.rows → col < g.cols →
      (g.status = .NotStarted → ValidShuffle g row col sh) →
      g.reveal row col sh = some g' → Reachable g'
  | toggle_step (g g' : Minesweeper) (row col : Nat) :
      Reachable g → row < g.rows → col < g.cols →
      g.toggle_flag row col = some g' → Reachable g'
  | chord_step (g g' : Minesweeper) (row col : Nat) (b : Bool) :
      Reachable g → row < g.rows → col < g.cols →
      g.chord row col = some (g', b) → Reachable g'

theorem reachable_inv (g : Minesweeper) (h : Reachable g) : StateInv g := by
  induction h with
  | new d => exact new_inv d
  | reveal_step g g' row col sh _ hr hc hsh hsome ih =>
    exact (reveal_inv g row col sh g' ih hr hc hsh hsome).1
  | toggle_step g g' row col _ hr hc hsome ih =>
    exact (toggle_inv g row col g' ih hr hc hsome).1
  | chord_step g g' row col b _ hr hc hsome ih =>
    exact (chord_inv g row col g' b ih hr hc hsome).1

/-- C10: in every state reachable from a fresh engine by reveal, toggleFlag
and chord calls whose status is `NotStarted` or `Playing`, no mine-content
cell has state `Revealed`. -/
theorem no_revealed_mine_reachable (g : Minesweeper) (hreach : Reachable g)
    (hst : g.status = .NotStarted ∨ g.status = .Playing) :
    ∀ c ∈ g.cells, c.content = .Mine → c.state ≠ .Revealed := by
  have hinv := reachable_inv g hreach
  exact hinv.2.2.2.2.2.2.1
    (by rcases hst with h | h <;> rw [h] <;> intro hcon <;> cases hcon)

theorem no_revealed_mine_reachable_witness :
    Reachable (Minesweeper.new .Beginner) ∧
    ((Minesweeper.new .Beginner).status = .NotStarted ∨
      (Minesweeper.new .Beginner).status = .Playing) ∧
    (∀ c ∈ (Minesweeper.new .Beginner).cells, c.content = .Mine →
      c.state ≠ .Revealed) :=
  ⟨Reachable.new .Beginner, Or.inl rfl,
    no_revealed_mine_reachable (Minesweeper.new .Beginner) (Reachable.new .Beginner)
      (Or.inl rfl)⟩

/-- A 2-by-2 board with one mine at (1,1), numbers computed, the two top
cells already revealed: revealing (1,0) wins. -/
def c4Board : Minesweeper :=
  { rows := 2, cols := 2, mines := 1,
    cells := [
      { content := .Number 1, state := .Revealed, exploded := false, wrong_flag := false },
      { content := .Number 1, state := .Revealed, exploded := false, wrong_flag := false },
      { content := .Number 1, state := .Hidden, exploded := false, wrong_flag := false },
      { content := .Mine, state := .Hidden, exploded := false, wrong_flag := false }],
    status := .Playing,
    flags_placed := 0 }

theorem reveal_nonmine_win_iff_witness :
    (c4Board.cells.length = c4Board.rows * c4Board.cols ∧
     c4Board.status = .Playing ∧ 1 < c4Board.rows ∧ 0 < c4Board.cols ∧
     (stateAt c4Board (1, 0) = .Hidden ∨ stateAt c4Board (1, 0) = .QuestionMark) ∧
     contentAt c4Board (1, 0) ≠ .Mine ∧ EmptyNbrOK c4Board ∧ NoRevealedMine c4Board) ∧
    (∃ g', c4Board.reveal 1 0 [] = some g' ∧
      (g'.status = .Won ↔ revealedCount g' = c4Board.rows * c4Board.cols - c4Board.mines) ∧
      (g'.status = .Won →
        (∀ a b : Nat, a < c4Board.rows → b < c4Board.cols →
          contentAt c4Board (a, b) = .Mine → stateAt g' (a, b) = .Flagged) ∧
        g'.flags_placed = c4Board.mines)) := by
  have hok : EmptyNbrOK c4Board := by
    intro a b ha hb
    have ha' : a < 2 := ha
    have hb' : b < 2 := hb
    interval_cases a <;> interval_cases b <;> decide
  have hnr : NoRevealedMine c4Board :=
    (by decide : ∀ c ∈ c4Board.cells, c.content = .Mine → c.state ≠ .Revealed)
  refine ⟨⟨by decide, rfl, by decide, by decide, Or.inl (by decide), by decide, hok, hnr⟩, ?_⟩
  exact reveal_nonmine_win_iff c4Board 1 0 [] (by decide) rfl (by decide) (by decide)
    (Or.inl (by decide)) (by decide) hok hnr

/-- C6 (amended): in every reachable state that is not `Lost`, the
`flags_placed` counter equals the number of currently `Flagged` cells; and
while the game is `Playing` or `NotStarted`, `toggle_flag` cycles the
clicked cell `Hidden → Flagged → QuestionMark → Hidden` (leaving `Revealed`
cells alone), adding 1 to the counter on entering `Flagged` and subtracting
1 on leaving it. -/
theorem flags_counter_toggle_cycle (g : Minesweeper) (hreach : Reachable g)
    (hnl : g.status ≠ .Lost) :
    g.flags_placed = flaggedCount g ∧
    (g.status = .Playing ∨ g.status = .NotStarted →
      ∀ row col, row < g.rows → col < g.cols →
        ∃ g', g.toggle_flag row col = some g' ∧
          (getCell g' (g.index row col)).state =
            cycleState (getCell g (g.index row col)).state ∧
          (∀ j, j ≠ g.index row col → getCell g' j = getCell g j) ∧
          g'.flags_placed = (match (getCell g (g.index row col)).state with
            | .Hidden => g.flags_placed + 1
            | .Flagged => g.flags_placed - 1
            | _ => g.flags_placed)) := by
  have hinv := reachable_inv g hreach
  refine ⟨hinv.2.2.2.2.2.2.2 hnl, ?_⟩
  intro hp row col hr hc
  have hidx : g.index row col < g.cells.length := by
    rw [hinv.1]
    exact index_lt hr hc
  obtain ⟨g2, hsome2, hcell, hother, hflags, _, _, _, _, _⟩ :=
    toggle_flag_spec g row col hp hidx
  refine ⟨g2, hsome2, ?_, hother, hflags⟩
  rw [hcell]

def c6g0 : Minesweeper := Minesweeper.new .Beginner

def c6sh : List Nat := preShuffleIndices c6g0 0 0

def c6g1 : Minesweeper := (c6g0.reveal 0 0 c6sh).getD c6g0

def c6g2 : Minesweeper := (c6g1.toggle_flag 2 2).getD c6g1

def c6g3 : Minesweeper := (c6g2.reveal 0 1 []).getD c6g2

set_option maxRecDepth 1000000 in
/-- On a lost board the claimed counter law fails: start a Beginner game
with the identity shuffle (mines on cells 1..9 and 80), reveal (0,0)
(a Number 2 cell), flag the safe cell (2,2), then reveal the mine at (0,1).
`reveal_all_mines` reveals the wrongly flagged (2,2) without decrementing
`flags_placed`, leaving the counter at 1 while no cell is `Flagged`. -/
theorem flags_counter_fails_when_lost :
    ∃ g : Minesweeper, Reachable g ∧ g.status = .Lost ∧
      g.flags_placed ≠ flaggedCount g := by
  have h0 : Reachable c6g0 := Reachable.new .Beginner
  have h1 : Reachable c6g1 := Reachable.reveal_step c6g0 c6g1 0 0 c6sh h0
    (by decide) (by decide) (fun _ => List.Perm.refl c6sh) (by decide)
  have h2 : Reachable c6g2 := Reachable.toggle_step c6g1 c6g2 2 2 h1
    (by decide) (by decide) (by decide)
  have h3 : Reachable c6g3 := Reachable.reveal_step c6g2 c6g3 0 1 [] h2
    (by decide) (by decide) (fun hcon => absurd hcon (by decide)) (by decide)
  exact ⟨c6g3, h3, by decide, by decide⟩

theorem flags_counter_toggle_cycle_witness :
    (Reachable (Minesweeper.new .Beginner) ∧
      (Minesweeper.new .Beginner).status ≠ .Lost) ∧
    ((Minesweeper.new .Beginner).flags_placed =
        flaggedCount (Minesweeper.new .Beginner) ∧
     ((Minesweeper.new .Beginner).status = .Playing ∨
        (Minesweeper.new .Beginner).status = .NotStarted →
      ∀ row col, row < (Minesweeper.new .Beginner).rows →
        col < (Minesweeper.new .Beginner).cols →
        ∃ g', (Minesweeper.new .Beginner).toggle_flag row col = some g' ∧
          (getCell g' ((Minesweeper.new .Beginner).index row col)).state =
            cycleState (getCell (Minesweeper.new .Beginner)
              ((Minesweeper.new .Beginner).index row col)).state ∧
          (∀ j, j ≠ (Minesweeper.new .Beginner).index row col →
            getCell g' j = getCell (Minesweeper.new .Beginner) j) ∧
          g'.flags_placed = (match (getCell (Minesweeper.new .Beginner)
              ((Minesweeper.new .Beginner).index row col)).state with
            | .Hidden => (Minesweeper.new .Beginner).flags_placed + 1
            | .Flagged => (Minesweeper.new .Beginner).flags_placed - 1
            | _ => (Minesweeper.new .Beginner).flags_placed))) :=
  ⟨⟨Reachable.new .Beginner, by decide⟩,
   flags_counter_toggle_cycle (Minesweeper.new .Beginner) (Reachable.new .Beginner)
     (by decide)⟩

theorem check_win_state_nonmine (X : Minesweeper) {j : Nat} (hj : j < X.cells.length)
    (hnm : (getCell X j).content ≠ .Mine) :
    (getCell (check_win X) j).state = (getCell X j).state := by
  unfold check_win
  split_ifs with h
  · have hnm' : (getCell { X with status := GameStatus.Won } j).content ≠ .Mine := hnm
    rw [getCell_flag_all_mines { X with status := GameStatus.Won } j hj, if_neg hnm']
    rfl
  · rfl

theorem check_win_won_allrev (X : Minesweeper)
    (hlen : X.cells.length = X.rows * X.cols)
    (hmc : mineCellCount X = X.mines)
    (hml : X.mines ≤ X.rows * X.cols)
    (hnr : NoRevealedMine X)
    (hp : X.status = .Playing)
    (hwon : (check_win X).status = .Won) :
    AllNonMineRevealed (check_win X) := by
  have hfire : revealedCount X = X.rows * X.cols - X.mines := by
    by_contra hcc
    have hsame : check_win X = X := by
      unfold check_win
      rw [if_neg hcc]
    rw [hsame, hp] at hwon
    cases hwon
  have hallX : AllNonMineRevealed X :=
    all_nonmine_revealed_of_count X hlen hmc hml hnr hfire
  apply forall_cells_of_pointwise (fun c => c.content ≠ .Mine → c.state = .Revealed)
  intro j hj hnm
  have hjX : j < X.cells.length := by
    rw [← (check_win_fields X).2.2.2]
    exact hj
  have hco := (check_win_cells X hjX).1
  have hnmX : (getCell X j).content ≠ .Mine := by
    rw [← hco]
    exact hnm
  rw [check_win_state_nonmine X hjX hnmX]
  exact hallX _ (getD_mem hjX _) hnmX

theorem check_win_rev_mono (X : Minesweeper) (hnr : NoRevealedMine X) {j : Nat}
    (hj : j < X.cells.length) (hrev : (getCell X j).state = .Revealed) :
    (getCell (check_win X) j).state = .Revealed := by
  have hnm : (getCell X j).content ≠ .Mine := by
    intro hm
    exact hnr _ (getD_mem hj _) hm hrev
  rw [check_win_state_nonmine X hj hnm]
  exact hrev

theorem check_win_state_mine (X : Minesweeper) {j : Nat} (hj : j < X.cells.length)
    (hm : (getCell X j).content = .Mine) :
    (getCell (check_win X) j).state = .Flagged ∨
    (getCell (check_win X) j).state = (getCell X j).state := by
  unfold check_win
  split_ifs with h
  · left
    have hm' : (getCell { X with status := GameStatus.Won } j).content = .Mine := hm
    rw [getCell_flag_all_mines { X with status := GameStatus.Won } j hj, if_pos hm']
  · right
    rfl

/-- One non-mine `reveal` from a running state: everything the chord fold
needs (invariant, geometry, contents, status evolution, monotonicity of
`Revealed`, and that the clicked cell ends up revealed). -/
theorem reveal_step_facts (g : Minesweeper) (row col : Nat) (sh : List Nat)
    (res : Minesweeper)
    (hinv : StateInv g) (hp : g.status = .Playing)
    (hr : row < g.rows) (hc : col < g.cols)
    (hnm : (getCell g (g.index row col)).content ≠ .Mine)
    (hsome : g.reveal row col sh = some res) :
    StateInv res ∧ res.rows = g.rows ∧ res.cols = g.cols ∧
    res.cells.length = g.cells.length ∧
    (∀ j, (getCell res j).content = (getCell g j).content) ∧
    (res.status = .Playing ∨ (res.status = .Won ∧ AllNonMineRevealed res)) ∧
    (∀ j, j < g.cells.length → (getCell g j).state = .Revealed →
      (getCell res j).state = .Revealed) ∧
    ((getCell g (g.index row col)).state = .Hidden ∨
      (getCell g (g.index row col)).state = .QuestionMark →
      (getCell res (g.index row col)).state = .Revealed) ∧
    (∀ j, j < g.cells.length →
      (getCell res j).state = (getCell g j).state ∨
      (getCell res j).state = .Revealed ∨
      ((getCell g j).content = .Mine ∧ (getCell res j).state = .Flagged)) := by
  have hSI := reveal_playing_inv g row col sh res hinv hp hr hc hsome
  obtain ⟨hlen, hm0, hm1, hok, hns, hmc6, hnr7, hfl8⟩ := hinv
  have hmc := hmc6 (by rw [hp]; intro h; cases h)
  have hnr := hnr7 (by rw [hp]; intro h; cases h)
  have hidx : g.index row col < g.cells.length := by
    rw [hlen]
    exact index_lt hr hc
  by_cases hFR : (g.cells.getD (g.index row col) Cell.new).state = .Flagged ∨
      (g.cells.getD (g.index row col) Cell.new).state = .Revealed
  · rw [reveal_eq_noop g row col sh hp hidx hFR] at hsome
    obtain rfl := Option.some.inj hsome
    refine ⟨hSI.1, rfl, rfl, rfl, fun j => rfl, Or.inl hp, fun j _ h => h, ?_,
      fun j _ => Or.inl rfl⟩
    intro hst
    rcases hFR with h | h <;> rcases hst with h2 | h2 <;>
      exact absurd (h.symm.trans h2) (by decide)
  · push_neg at hFR
    obtain ⟨hstF, hstR⟩ := hFR
    cases hcc : (g.cells.getD (g.index row col) Cell.new).content with
    | Mine => exact absurd hcc hnm
    | Number n =>
      rw [reveal_eq_of_number g row col sh n hp hidx hstF hstR hcc] at hsome
      obtain rfl := Option.some.inj hsome
      have hlenY := revealCellSet_length g (g.index row col)
      have hcoY := revealCellSet_content g (g.index row col)
      have hnrY := revealCellSet_noRevealedMine g (g.index row col) hnm hnr
      have hpY : (revealCellSet g (g.index row col)).status = .Playing := hp
      have hlenY2 : (revealCellSet g (g.index row col)).cells.length =
          (revealCellSet g (g.index row col)).rows *
          (revealCellSet g (g.index row col)).cols := by
        rw [hlenY]
        exact hlen
      have hmcY : mineCellCount (revealCellSet g (g.index row col)) =
          (revealCellSet g (g.index row col)).mines := by
        rw [mineCellCount_congr hlenY hcoY]
        exact hmc
      have hmlY : (revealCellSet g (g.index row col)).mines ≤
          (revealCellSet g (g.index row col)).rows *
          (revealCellSet g (g.index row col)).cols := le_of_lt hm1
      refine ⟨hSI.1, hSI.2.2.1, hSI.2.2.2, ?_, ?_, ?_, ?_, ?_, ?_⟩
      · rw [(check_win_fields _).2.2.2, hlenY]
      · intro j
        by_cases hj : j < (revealCellSet g (g.index row col)).cells.length
        · rw [(check_win_cells _ hj).1, hcoY j]
        · rw [getCell_oob _ j (by rw [(check_win_fields _).2.2.2]; omega),
            getCell_oob g j (by rw [← hlenY]; omega)]
      · rcases (check_win_spec _ hpY hnrY).2.2 with hw | hsame
        · exact Or.inr ⟨hw, check_win_won_allrev _ hlenY2 hmcY hmlY hnrY hpY hw⟩
        · left
          rw [hsame]
          exact hpY
      · intro j hj hrev
        have hjY : j < (revealCellSet g (g.index row col)).cells.length := by
          rw [hlenY]
          exact hj
        have hrevY : (getCell (revealCellSet g (g.index row col)) j).state = .Revealed := by
          rw [revealCellSet_state]
          split_ifs with hcase
          · rfl
          · exact hrev
        exact check_win_rev_mono _ hnrY hjY hrevY
      · intro _
        have hjY : g.index row col < (revealCellSet g (g.index row col)).cells.length := by
          rw [hlenY]
          exact hidx
        have hrevY : (getCell (revealCellSet g (g.index row col))
            (g.index row col)).state = .Revealed := by
          rw [revealCellSet_state, if_pos ⟨rfl, hidx⟩]
        exact check_win_rev_mono _ hnrY hjY hrevY
      · intro j hj
        have hjY : j < (revealCellSet g (g.index row col)).cells.length := by
          rw [hlenY]
          exact hj
        by_cases hmj : (getCell g j).content = .Mine
        · have hmY : (getCell (revealCellSet g (g.index row col)) j).content = .Mine := by
            rw [hcoY]
            exact hmj
          rcases check_win_state_mine _ hjY hmY with hflag | hsame
          · exact Or.inr (Or.inr ⟨hmj, hflag⟩)
          · rw [hsame, revealCellSet_state]
            split_ifs with hcase
            · exact absurd (by rw [hcase.1]; exact hmj) hnm
            · exact Or.inl rfl
        · have hmY : (getCell (revealCellSet g (g.index row col)) j).content ≠ .Mine := by
            rw [hcoY]
            exact hmj
          rw [check_win_state_nonmine _ hjY hmY, revealCellSet_state]
          split_ifs with hcase
          · exact Or.inr (Or.inl rfl)
          · exact Or.inl rfl
    | Empty =>
      rw [reveal_eq_of_empty g row col sh hp hidx hstF hstR hcc] at hsome
      obtain rfl := Option.some.inj hsome
      obtain ⟨l1, l2, l3, l4, l5, l6, hFco, hFmine, hFflag, hFevol⟩ :=
        flood_fill_main g row col hok hr hc hcc
      have hcoY := revealCellSet_content g (g.index row col)
      have hFst : (flood_fill (revealCellSet g (g.index row col)) row col).status =
          .Playing := l4.trans hp
      have hFlen2 : (flood_fill (revealCellSet g (g.index row col)) row col).cells.length =
          (flood_fill (revealCellSet g (g.index row col)) row col).rows *
          (flood_fill (revealCellSet g (g.index row col)) row col).cols := by
        rw [l6, l1, l2]
        exact hlen
      have hFmc : mineCellCount (flood_fill (revealCellSet g (g.index row col)) row col) =
          (flood_fill (revealCellSet g (g.index row col)) row col).mines := by
        rw [l3, mineCellCount_congr l6 hFco]
        exact hmc
      have hFml : (flood_fill (revealCellSet g (g.index row col)) row col).mines ≤
          (flood_fill (revealCellSet g (g.index row col)) row col).rows *
          (flood_fill (revealCellSet g (g.index row col)) row col).cols := by
        rw [l3, l1, l2]
        exact le_of_lt hm1
      have hFnr : NoRevealedMine (flood_fill (revealCellSet g (g.index row col)) row col) :=
        noRevealedMine_of_pointwise l6 hFco (fun j _ hm => hFmine j hm) hnr
      have hrevmono : ∀ j, j < g.cells.length → (getCell g j).state = .Revealed →
          (getCell (flood_fill (revealCellSet g (g.index row col)) row col) j).state =
            .Revealed := by
        intro j hj hrev
        have hrevY : (getCell (revealCellSet g (g.index row col)) j).state = .Revealed := by
          rw [revealCellSet_state]
          split_ifs with hcase
          · rfl
          · exact hrev
        rcases (hFevol j).2.2.2 with hs | ⟨hsh, hsr⟩
        · rw [hs]
          exact hrevY
        · exact hsr
      have hYstate : ∀ j, j < g.cells.length →
          (getCell (revealCellSet g (g.index row col)) j).state = (getCell g j).state ∨
          (getCell (revealCellSet g (g.index row col)) j).state = .Revealed := by
        intro j hj
        rw [revealCellSet_state]
        split_ifs with hcase
        · exact Or.inr rfl
        · exact Or.inl rfl
      have hFstate : ∀ j, j < g.cells.length →
          (getCell (flood_fill (revealCellSet g (g.index row col)) row col) j).state =
            (getCell g j).state ∨
          (getCell (flood_fill (revealCellSet g (g.index row col)) row col) j).state =
            .Revealed := by
        intro j hj
        rcases (hFevol j).2.2.2 with hs | ⟨hsh, hsr⟩
        · rw [hs]
          exact hYstate j hj
        · exact Or.inr hsr
      refine ⟨hSI.1, hSI.2.2.1, hSI.2.2.2, ?_, ?_, ?_, ?_, ?_, ?_⟩
      · rw [(check_win_fields _).2.2.2, l6]
      · intro j
        by_cases hj : j <
            (flood_fill (revealCellSet g (g.index row col)) row col).cells.length
        · rw [(check_win_cells _ hj).1, hFco j]
        · rw [getCell_oob _ j (by rw [(check_win_fields _).2.2.2]; omega),
            getCell_oob g j (by rw [← l6]; omega)]
      · rcases (check_win_spec _ hFst hFnr).2.2 with hw | hsame
        · exact Or.inr ⟨hw, check_win_won_allrev _ hFlen2 hFmc hFml hFnr hFst hw⟩
        · left
          rw [hsame]
          exact hFst
      · intro j hj hrev
        have hjF : j <
            (flood_fill (revealCellSet g (g.index row col)) row col).cells.length := by
          rw [l6]
          exact hj
        exact check_win_rev_mono _ hFnr hjF (hrevmono j hj hrev)
      · intro _
        have hjF : g.index row col <
            (flood_fill (revealCellSet g (g.index row col)) row col).cells.length := by
          rw [l6]
          exact hidx
        have hrevY : (getCell (revealCellSet g (g.index row col))
            (g.index row col)).state = .Revealed := by
          rw [revealCellSet_state, if_pos ⟨rfl, hidx⟩]
        have hrevF : (getCell (flood_fill (revealCellSet g (g.index row col)) row col)
            (g.index row col)).state = .Revealed := by
          rcases (hFevol (g.index row col)).2.2.2 with hs | ⟨hsh, hsr⟩
          · rw [hs]
            exact hrevY
          · exact hsr
        exact check_win_rev_mono _ hFnr hjF hrevF
      · intro j hj
        have hjF : j <
            (flood_fill (revealCellSet g (g.index row col)) row col).cells.length := by
          rw [l6]
          exact hj
        by_cases hmj : (getCell g j).content = .Mine
        · have hmF : (getCell (flood_fill (revealCellSet g (g.index row col)) row col)
              j).content = .Mine := by
            rw [hFco]
            exact hmj
          rcases check_win_state_mine _ hjF hmF with hflag | hsame
          · exact Or.inr (Or.inr ⟨hmj, hflag⟩)
          · rw [hsame]
            rcases hFstate j hj with hs | hs
            · exact Or.inl hs
            · exact Or.inr (Or.inl hs)
        · have hmF : (getCell (flood_fill (revealCellSet g (g.index row col)) row col)
              j).content ≠ .Mine := by
            rw [hFco]
            exact hmj
          rw [check_win_state_nonmine _ hjF hmF]
          rcases hFstate j hj with hs | hs
          · exact Or.inl hs
          · exact Or.inr (Or.inl hs)

/-- From a running state at an in-range flat index, `reveal` always
succeeds. -/
theorem reveal_some_of_playing (b : Minesweeper) (r c : Nat) (sh : List Nat)
    (hp : b.status = .Playing) (hidx : b.index r c < b.cells.length) :
    ∃ res, b.reveal r c sh = some res := by
  by_cases hFR : (b.cells.getD (b.index r c) Cell.new).state = .Flagged ∨
      (b.cells.getD (b.index r c) Cell.new).state = .Revealed
  · exact ⟨b, reveal_eq_noop b r c sh hp hidx hFR⟩
  · push_neg at hFR
    cases hcc : (b.cells.getD (b.index r c) Cell.new).content with
    | Mine => exact ⟨_, reveal_eq_of_mine b r c sh hp hidx hFR.1 hFR.2 hcc⟩
    | Empty => exact ⟨_, reveal_eq_of_empty b r c sh hp hidx hFR.1 hFR.2 hcc⟩
    | Number n => exact ⟨_, reveal_eq_of_number b r c sh n hp hidx hFR.1 hFR.2 hcc⟩

/-- Invariant carried through the chord neighbor fold, relative to the
pre-chord board `g`. -/
def ChordInv (g b : Minesweeper) : Prop :=
  StateInv b ∧ b.rows = g.rows ∧ b.cols = g.cols ∧ b.cells.length = g.cells.length ∧
  (∀ j, (getCell b j).content = (getCell g j).content) ∧
  (b.status = .Playing ∨ (b.status = .Won ∧ AllNonMineRevealed b)) ∧
  (∀ j, j < g.cells.length →
    (getCell b j).state = (getCell g j).state ∨ (getCell b j).state = .Revealed ∨
    ((getCell g j).content = .Mine ∧ (getCell b j).state = .Flagged))

/-- The chord neighbor fold, when every targeted hidden or question-marked
neighbor is mine-free, reveals all of them (and preserves the invariant and
revealed cells). -/
theorem chordFold_reveals (g : Minesweeper) (hglen : g.cells.length = g.rows * g.cols) :
    ∀ (l : List (Nat × Nat)) (b : Minesweeper),
      (∀ q ∈ l, q.1 < g.rows ∧ q.2 < g.cols) →
      (∀ q ∈ l, ((getCell g (g.index q.1 q.2)).state = .Hidden ∨
        (getCell g (g.index q.1 q.2)).state = .QuestionMark) →
        (getCell g (g.index q.1 q.2)).content ≠ .Mine) →
      ChordInv g b →
      ∃ res, l.foldlM (fun (h : Minesweeper) p =>
        if (h.cells.getD (h.index p.1 p.2) Cell.new).state = .Hidden ∨
            (h.cells.getD (h.index p.1 p.2) Cell.new).state = .QuestionMark then
          h.reveal p.1 p.2 []
        else some h) b = some res ∧
      ChordInv g res ∧
      (∀ j, j < g.cells.length → (getCell b j).state = .Revealed →
        (getCell res j).state = .Revealed) ∧
      (∀ q ∈ l, ((getCell b (g.index q.1 q.2)).state = .Hidden ∨
        (getCell b (g.index q.1 q.2)).state = .QuestionMark) →
        (getCell res (g.index q.1 q.2)).state = .Revealed) := by
  intro l
  induction l with
  | nil =>
    intro b _ _ hP
    exact ⟨b, rfl, hP, fun j _ h2 => h2, fun q hq => absurd hq (List.not_mem_nil q)⟩
  | cons a t ih =>
    intro b hbnd hsafe hP
    obtain ⟨hSIb, hRows, hCols, hLen, hCo, hStat, hEvol⟩ := hP
    obtain ⟨ha1, ha2⟩ := hbnd a (List.mem_cons_self _ _)
    have hidxa : g.index a.1 a.2 < g.cells.length := by
      rw [hglen]
      exact index_lt ha1 ha2
    have hidxeq : b.index a.1 a.2 = g.index a.1 a.2 := index_congr hCols _ _
    by_cases hcond : (b.cells.getD (b.index a.1 a.2) Cell.new).state = .Hidden ∨
        (b.cells.getD (b.index a.1 a.2) Cell.new).state = .QuestionMark
    · have hcond' : (getCell b (g.index a.1 a.2)).state = .Hidden ∨
          (getCell b (g.index a.1 a.2)).state = .QuestionMark := by
        rw [hidxeq] at hcond
        exact hcond
      have hgHQ : (getCell g (g.index a.1 a.2)).state = .Hidden ∨
          (getCell g (g.index a.1 a.2)).state = .QuestionMark := by
        rcases hEvol (g.index a.1 a.2) hidxa with hs | hs | ⟨_, hs⟩
        · rw [← hs]
          exact hcond'
        · rcases hcond' with h2 | h2 <;> (rw [hs] at h2; cases h2)
        · rcases hcond' with h2 | h2 <;> (rw [hs] at h2; cases h2)
      have hnmg : (getCell g (g.index a.1 a.2)).content ≠ .Mine :=
        hsafe a (List.mem_cons_self _ _) hgHQ
      have hnmb : (getCell b (g.index a.1 a.2)).content ≠ .Mine := by
        rw [hCo]
        exact hnmg
      have hidxb : g.index a.1 a.2 < b.cells.length := by
        rw [hLen]
        exact hidxa
      have hPlay : b.status = .Playing := by
        rcases hStat with hs | ⟨hW, hAll⟩
        · exact hs
        · exfalso
          have hrev : (getCell b (g.index a.1 a.2)).state = .Revealed :=
            hAll _ (getD_mem hidxb Cell.new) hnmb
          rcases hcond' with h2 | h2 <;> (rw [hrev] at h2; cases h2)
      have hidxb2 : b.index a.1 a.2 < b.cells.length := by
        rw [hidxeq, hLen]
        exact hidxa
      obtain ⟨b2, hrevres⟩ := reveal_some_of_playing b a.1 a.2 [] hPlay hidxb2
      have hnmb' : (getCell b (b.index a.1 a.2)).content ≠ .Mine := by
        rw [hidxeq]
        exact hnmb
      obtain ⟨k1, k2, k3, k4, k5, k6, k7, k8, k9⟩ := reveal_step_facts b a.1 a.2 [] b2
        hSIb hPlay (by rw [hRows]; exact ha1) (by rw [hCols]; exact ha2) hnmb' hrevres
      have hP2 : ChordInv g b2 := by
        refine ⟨k1, k2.trans hRows, k3.trans hCols, k4.trans hLen,
          fun j => (k5 j).trans (hCo j), k6.imp_right ?_, ?_⟩
        · intro ⟨hW, hAll⟩
          refine ⟨hW, ?_⟩
          apply forall_cells_of_pointwise (fun c => c.content ≠ .Mine → c.state = .Revealed)
          intro j hj hnmj
          exact hAll _ (getD_mem hj _) hnmj
        · intro j hj
          have hjb : j < b.cells.length := by
            rw [hLen]
            exact hj
          rcases k9 j hjb with hs | hs | ⟨hm, hs⟩
          · rcases hEvol j hj with h2 | h2 | ⟨hm2, h2⟩
            · exact Or.inl (hs.trans h2)
            · exact Or.inr (Or.inl (hs.trans h2))
            · exact Or.inr (Or.inr ⟨hm2, hs.trans h2⟩)
          · exact Or.inr (Or.inl hs)
          · exact Or.inr (Or.inr ⟨by rw [← hCo j]; exact hm, hs⟩)
      obtain ⟨res, hfold, r1, r2, r3⟩ := ih b2
        (fun q hq => hbnd q (List.mem_cons_of_mem _ hq))
        (fun q hq => hsafe q (List.mem_cons_of_mem _ hq)) hP2
      have hmono : ∀ j, j < g.cells.length → (getCell b j).state = .Revealed →
          (getCell res j).state = .Revealed := by
        intro j hj hrev
        exact r2 j hj (k7 j (by rw [hLen]; exact hj) hrev)
      refine ⟨res, ?_, r1, hmono, ?_⟩
      · rw [List.foldlM_cons, if_pos hcond, hrevres]
        exact hfold
      · intro q hq hqHQ
        rcases List.mem_cons.mp hq with rfl | hqt
        · have htgt : (getCell b2 (b.index q.1 q.2)).state = .Revealed := by
            apply k8
            rw [hidxeq]
            rcases hgHQ with h2 | h2
            · rcases hEvol (g.index q.1 q.2) hidxa with hs | hs | ⟨_, hs⟩
              · rw [← hs] at h2
                exact Or.inl h2
              · rcases hqHQ with h3 | h3 <;> (rw [hs] at h3; cases h3)
              · rcases hqHQ with h3 | h3 <;> (rw [hs] at h3; cases h3)
            · rcases hEvol (g.index q.1 q.2) hidxa with hs | hs | ⟨_, hs⟩
              · rw [← hs] at h2
                exact Or.inr h2
              · rcases hqHQ with h3 | h3 <;> (rw [hs] at h3; cases h3)
              · rcases hqHQ with h3 | h3 <;> (rw [hs] at h3; cases h3)
          have htgt' : (getCell b2 (g.index q.1 q.2)).state = .Revealed := by
            rw [← hidxeq]
            exact htgt
          exact r2 (g.index q.1 q.2) hidxa htgt'
        · have hjq : g.index q.1 q.2 < g.cells.length := by
            obtain ⟨hq1, hq2⟩ := hbnd q (List.mem_cons_of_mem _ hqt)
            rw [hglen]
            exact index_lt hq1 hq2
          have hnmq : (getCell g (g.index q.1 q.2)).content ≠ .Mine := by
            apply hsafe q (List.mem_cons_of_mem _ hqt)
            rcases hEvol (g.index q.1 q.2) hjq with hs | hs | ⟨_, hs⟩
            · rw [← hs]
              exact hqHQ
            · rcases hqHQ with h3 | h3 <;> (rw [hs] at h3; cases h3)
            · rcases hqHQ with h3 | h3 <;> (rw [hs] at h3; cases h3)
          rcases k9 (g.index q.1 q.2) (by rw [hLen]; exact hjq) with hs | hs | ⟨hm, _⟩
          · apply r3 q hqt
            rw [hs]
            exact hqHQ
          · exact r2 (g.index q.1 q.2) hjq hs
          · exfalso
            apply hnmq
            rw [← hCo (g.index q.1 q.2)]
            exact hm
    · obtain ⟨res, hfold, r1, r2, r3⟩ := ih b
        (fun q hq => hbnd q (List.mem_cons_of_mem _ hq))
        (fun q hq => hsafe q (List.mem_cons_of_mem _ hq))
        ⟨hSIb, hRows, hCols, hLen, hCo, hStat, hEvol⟩
      refine ⟨res, ?_, r1, r2, ?_⟩
      · rw [List.foldlM_cons, if_neg hcond]
        exact hfold
      · intro q hq hqHQ
        rcases List.mem_cons.mp hq with rfl | hqt
        · exact absurd (by rw [← hidxeq] at hqHQ; exact hqHQ) hcond
        · exact r3 q hqt hqHQ

/-- The Flagged-neighbor count `chord` computes. -/
def chordFlagCount (g : Minesweeper) (row col : Nat) : Nat :=
  ((g.neighbors row col).filter
    (fun p => (g.cells.getD (g.index p.1 p.2) Cell.new).state == CellState.Flagged)).length

/-- C7 (amended): `chord` returns `false` and leaves the state unchanged
unless the game is `Playing`, the target is a `Revealed` cell with content
`Number n`, and exactly `n` neighbors are `Flagged`; when those conditions
hold it returns `true`, and — provided no currently hidden or
question-marked neighbor is a mine — every neighbor that was `Hidden` or
`QuestionMark` ends up `Revealed`. -/
theorem chord_spec (g : Minesweeper) (row col : Nat)
    (hinv : StateInv g) (hr : row < g.rows) (hc : col < g.cols) :
    (g.status ≠ .Playing → g.chord row col = some (g, false)) ∧
    (g.status = .Playing → stateAt g (row, col) ≠ .Revealed →
      g.chord row col = some (g, false)) ∧
    (g.status = .Playing → stateAt g (row, col) = .Revealed →
      (∀ n : Nat, contentAt g (row, col) ≠ .Number n) →
      g.chord row col = some (g, false)) ∧
    (∀ n : Nat, g.status = .Playing → stateAt g (row, col) = .Revealed →
      contentAt g (row, col) = .Number n → chordFlagCount g row col ≠ n →
      g.chord row col = some (g, false)) ∧
    (∀ n : Nat, g.status = .Playing → stateAt g (row, col) = .Revealed →
      contentAt g (row, col) = .Number n → chordFlagCount g row col = n →
      (∀ q ∈ g.neighbors row col,
        (stateAt g q = .Hidden ∨ stateAt g q = .QuestionMark) →
        contentAt g q ≠ .Mine) →
      ∃ g', g.chord row col = some (g', true) ∧
        (∀ q ∈ g.neighbors row col,
          (stateAt g q = .Hidden ∨ stateAt g q = .QuestionMark) →
          stateAt g' q = .Revealed)) := by
  have hidx : g.index row col < g.cells.length := by
    rw [hinv.1]
    exact index_lt hr hc
  refine ⟨chord_of_not_playing g row col, ?_, ?_, ?_, ?_⟩
  · intro hp hsR
    unfold Minesweeper.chord
    rw [if_neg (not_not_intro hp)]
    dsimp only
    rw [if_pos hidx,
      if_pos (show (g.cells.getD (g.index row col) Cell.new).state ≠ CellState.Revealed
        from hsR)]
  · intro hp hsR hnn
    unfold Minesweeper.chord
    rw [if_neg (not_not_intro hp)]
    dsimp only
    rw [if_pos hidx, if_neg (not_not_intro
      (show (g.cells.getD (g.index row col) Cell.new).state = CellState.Revealed from hsR))]
    cases hcc : (g.cells.getD (g.index row col) Cell.new).content with
    | Empty => rfl
    | Mine => rfl
    | Number n => exact absurd hcc (hnn n)
  · intro n hp hsR hcn hfc
    unfold Minesweeper.chord
    rw [if_neg (not_not_intro hp)]
    dsimp only
    rw [if_pos hidx, if_neg (not_not_intro
      (show (g.cells.getD (g.index row col) Cell.new).state = CellState.Revealed from hsR))]
    cases hcc : (g.cells.getD (g.index row col) Cell.new).content with
    | Empty => rfl
    | Mine => rfl
    | Number m =>
      have hnm : CellContent.Number n = CellContent.Number m := by
        rw [← hcn]
        exact hcc
      injection hnm with hnmeq
      subst hnmeq
      dsimp only
      rw [if_neg (show ¬(((g.neighbors row col).filter
        (fun p => (g.cells.getD (g.index p.1 p.2) Cell.new).state ==
          CellState.Flagged)).length = n) from hfc)]
  · intro n hp hsR hcn hfc hsafe
    have hgHQsafe : ∀ q ∈ g.neighbors row col,
        ((getCell g (g.index q.1 q.2)).state = .Hidden ∨
          (getCell g (g.index q.1 q.2)).state = .QuestionMark) →
        (getCell g (g.index q.1 q.2)).content ≠ .Mine := hsafe
    have hbnd : ∀ q ∈ g.neighbors row col, q.1 < g.rows ∧ q.2 < g.cols :=
      fun q hq => mem_neighbors_bounds hq
    have hP0 : ChordInv g g :=
      ⟨hinv, rfl, rfl, rfl, fun j => rfl, Or.inl hp, fun j _ => Or.inl rfl⟩
    obtain ⟨res, hfold, rInv, _, r3⟩ :=
      chordFold_reveals g hinv.1 (g.neighbors row col) g hbnd hgHQsafe hP0
    refine ⟨res, ?_, ?_⟩
    case refine_2 =>
      intro q hq hHQ
      show (res.cells.getD (res.index q.1 q.2) Cell.new).state = CellState.Revealed
      rw [index_congr rInv.2.2.1 q.1 q.2]
      exact r3 q hq hHQ
    unfold Minesweeper.chord
    rw [if_neg (not_not_intro hp)]
    dsimp only
    rw [if_pos hidx, if_neg (not_not_intro
      (show (g.cells.getD (g.index row col) Cell.new).state = CellState.Revealed from hsR))]
    cases hcc : (g.cells.getD (g.index row col) Cell.new).content with
    | Empty => exact absurd (hcn.symm.trans hcc).symm (by intro hcon; cases hcon)
    | Mine => exact absurd (hcn.symm.trans hcc).symm (by intro hcon; cases hcon)
    | Number m =>
      have hnm : CellContent.Number n = CellContent.Number m := by
        rw [← hcn]
        exact hcc
      injection hnm with hnmeq
      subst hnmeq
      dsimp only
      rw [if_pos (show (((g.neighbors row col).filter
        (fun p => (g.cells.getD (g.index p.1 p.2) Cell.new).state ==
          CellState.Flagged)).length = n) from hfc), hfold]
      rfl

/-- A 2-by-2 board: target (0,0) is a revealed Number 1, the wrong neighbor
(0,1) is flagged, the real mine (1,0) and the cell (1,1) are hidden. -/
def c7Board : Minesweeper :=
  { rows := 2, cols := 2, mines := 1,
    cells := [
      { content := .Number 1, state := .Revealed, exploded := false, wrong_flag := false },
      { content := .Number 1, state := .Flagged, exploded := false, wrong_flag := false },
      { content := .Mine, state := .Hidden, exploded := false, wrong_flag := false },
      { content := .Number 1, state := .Hidden, exploded := false, wrong_flag := false }],
    status := .Playing,
    flags_placed := 1 }

/-- With a wrong flag matching the number, `chord(0,0)` returns `true`, its
fold hits the mine at (1,0) (losing the game), and the later neighbor (1,1)
is left `Hidden` — against the claim that every Hidden/QuestionMark
neighbor gets revealed whenever `chord` returns `true`. -/
theorem chord_true_misses_hidden_neighbor :
    ∃ g' : Minesweeper, c7Board.chord 0 0 = some (g', true) ∧
      c7Board.status = .Playing ∧
      stateAt c7Board (0, 0) = .Revealed ∧
      contentAt c7Board (0, 0) = .Number 1 ∧
      chordFlagCount c7Board 0 0 = 1 ∧
      (1, 1) ∈ c7Board.neighbors 0 0 ∧
      stateAt c7Board (1, 1) = .Hidden ∧
      stateAt g' (1, 1) ≠ .Revealed :=
  ⟨((c7Board.chord 0 0).getD (c7Board, false)).1, by decide, by decide, by decide,
    by decide, by decide, by decide, by decide, by decide⟩

theorem chord_spec_witness :
    (StateInv c7Board ∧ 0 < c7Board.rows ∧ 0 < c7Board.cols) ∧
    ((c7Board.status ≠ .Playing → c7Board.chord 0 0 = some (c7Board, false)) ∧
     (c7Board.status = .Playing → stateAt c7Board (0, 0) ≠ .Revealed →
       c7Board.chord 0 0 = some (c7Board, false)) ∧
     (c7Board.status = .Playing → stateAt c7Board (0, 0) = .Revealed →
       (∀ n : Nat, contentAt c7Board (0, 0) ≠ .Number n) →
       c7Board.chord 0 0 = some (c7Board, false)) ∧
     (∀ n : Nat, c7Board.status = .Playing → stateAt c7Board (0, 0) = .Revealed →
       contentAt c7Board (0, 0) = .Number n → chordFlagCount c7Board 0 0 ≠ n →
       c7Board.chord 0 0 = some (c7Board, false)) ∧
     (∀ n : Nat, c7Board.status = .Playing → stateAt c7Board (0, 0) = .Revealed →
       contentAt c7Board (0, 0) = .Number n → chordFlagCount c7Board 0 0 = n →
       (∀ q ∈ c7Board.neighbors 0 0,
         (stateAt c7Board q = .Hidden ∨ stateAt c7Board q = .QuestionMark) →
         contentAt c7Board q ≠ .Mine) →
       ∃ g', c7Board.chord 0 0 = some (g', true) ∧
         (∀ q ∈ c7Board.neighbors 0 0,
           (stateAt c7Board q = .Hidden ∨ stateAt c7Board q = .QuestionMark) →
           stateAt g' q = .Revealed))) := by
  have hok : EmptyNbrOK c7Board := by
    intro a b ha hb
    have ha' : a < 2 := ha
    have hb' : b < 2 := hb
    interval_cases a <;> interval_cases b <;> decide
  have hinv : StateInv c7Board := by
    refine ⟨by decide, by decide, by decide, hok, ?_, fun _ => by decide, ?_, fun _ => by decide⟩
    · intro h
      exact absurd h (by decide)
    · intro _
      exact (by decide : ∀ c ∈ c7Board.cells, c.content = .Mine → c.state ≠ .Revealed)
  exact ⟨⟨hinv, by decide, by decide⟩, chord_spec c7Board 0 0 hinv (by decide) (by decide)⟩

/-- Cells the flood-fill wave can reach from the clicked `(row, col)`:
one hop from the clicked cell, or one hop from an already reached cell that
is hidden (and is not the clicked cell, which the reveal marks `Revealed`
before the loop) and has `Empty` content — exactly the cells the loop
pushes. -/
inductive FillReach (g : Minesweeper) (row col : Nat) : Nat × Nat → Prop where
  | base (q : Nat × Nat) : q ∈ g.neighbors row col → FillReach g row col q
  | step (p q : Nat × Nat) : FillReach g row col p →
      g.index p.1 p.2 ≠ g.index row col →
      stateAt g p = .Hidden → contentAt g p = .Empty →
      q ∈ g.neighbors p.1 p.2 → FillReach g row col q

/-- Modelled from the specification's words: the connected component of
`Empty`-content cells reachable from the clicked cell through
Empty-to-Empty adjacency. -/
inductive EmptyComp (g : Minesweeper) (row col : Nat) : Nat × Nat → Prop where
  | base : EmptyComp g row col (row, col)
  | step (p q : Nat × Nat) : EmptyComp g row col p → contentAt g q = .Empty →
      q ∈ g.neighbors p.1 p.2 → EmptyComp g row col q

/-- Modelled from the specification's words: the set the claim says a
reveal of an `Empty` cell makes `Revealed` — the Empty component plus the
`Number` cells bordering it. -/
def SpecRevealSet (g : Minesweeper) (row col : Nat) (q : Nat × Nat) : Prop :=
  EmptyComp g row col q ∨
  ((∃ k, contentAt g q = .Number k) ∧
    ∃ p, EmptyComp g row col p ∧ q ∈ g.neighbors p.1 p.2)

theorem fillReach_bounds {g : Minesweeper} {row col : Nat} {q : Nat × Nat}
    (h : FillReach g row col q) : q.1 < g.rows ∧ q.2 < g.cols := by
  induction h with
  | base q hq => exact mem_neighbors_bounds hq
  | step p q _ _ _ _ hq _ => exact mem_neighbors_bounds hq

/-- Worklist reachability relative to the current loop board `B`: one hop
from a source, or continuing through a still-hidden empty cell. -/
inductive WaveReach (g B : Minesweeper) (src : Nat × Nat → Prop) : Nat × Nat → Prop where
  | base (q : Nat × Nat) : src q → WaveReach g B src q
  | step (m q : Nat × Nat) : WaveReach g B src m →
      (getCell B (g.index m.1 m.2)).state = .Hidden →
      (getCell B (g.index m.1 m.2)).content = .Empty →
      q ∈ g.neighbors m.1 m.2 → WaveReach g B src q

/-- One-hop targets of the current stack. -/
def stackSrc (g : Minesweeper) (st : List (Nat × Nat)) (q : Nat × Nat) : Prop :=
  ∃ s ∈ st, q ∈ g.neighbors s.1 s.2

theorem waveReach_mono {g B : Minesweeper} {src src' : Nat × Nat → Prop}
    (hs : ∀ x, src x → src' x) {q : Nat × Nat} (h : WaveReach g B src q) :
    WaveReach g B src' q := by
  induction h with
  | base q hq => exact WaveReach.base q (hs q hq)
  | step m q _ hh he hq ih => exact WaveReach.step m q ih hh he hq

theorem waveReach_bounds {g B : Minesweeper} {src : Nat × Nat → Prop}
    (hsrc : ∀ x, src x → x.1 < g.rows ∧ x.2 < g.cols) {q : Nat × Nat}
    (h : WaveReach g B src q) : q.1 < g.rows ∧ q.2 < g.cols := by
  induction h with
  | base q hq => exact hsrc q hq
  | step m q _ _ _ hq _ => exact mem_neighbors_bounds hq

/-- If two boards agree on states and contents at every in-bounds index,
wave reachability transfers. -/
theorem waveReach_congr {g B B' : Minesweeper} {src : Nat × Nat → Prop}
    (hsrc : ∀ x, src x → x.1 < g.rows ∧ x.2 < g.cols)
    (hpt : ∀ m : Nat × Nat, m.1 < g.rows → m.2 < g.cols →
      getCell B' (g.index m.1 m.2) = getCell B (g.index m.1 m.2))
    {q : Nat × Nat} (h : WaveReach g B src q) : WaveReach g B' src q := by
  induction h with
  | base q hq => exact WaveReach.base q hq
  | step m q hm hh he hq ih =>
    obtain ⟨hm1, hm2⟩ := waveReach_bounds hsrc hm
    exact WaveReach.step m q ih (by rw [hpt m hm1 hm2]; exact hh)
      (by rw [hpt m hm1 hm2]; exact he) hq

theorem state_countP_set_eq (s : CellState) (l : List Cell) (i : Nat) (a : Cell)
    (h : i < l.length) :
    (l.set i a).countP (fun c => c.state == s) +
      (if l[i].state = s then 1 else 0) =
    l.countP (fun c => c.state == s) +
      (if a.state = s then 1 else 0) := by
  have hcs := countP_set_eq (fun c => c.state == s) l i a h
  by_cases h1 : l[i].state = s <;> by_cases h2 : a.state = s
  · rw [if_pos (show ((fun c : Cell => c.state == s) l[i]) = true by simp [h1]),
      if_pos (show ((fun c : Cell => c.state == s) a) = true by simp [h2])] at hcs
    rw [if_pos h1, if_pos h2]
    exact hcs
  · rw [if_pos (show ((fun c : Cell => c.state == s) l[i]) = true by simp [h1]),
      if_neg (show ¬((fun c : Cell => c.state == s) a) = true by simp [h2])] at hcs
    rw [if_pos h1, if_neg h2]
    exact hcs
  · rw [if_neg (show ¬((fun c : Cell => c.state == s) l[i]) = true by simp [h1]),
      if_pos (show ((fun c : Cell => c.state == s) a) = true by simp [h2])] at hcs
    rw [if_neg h1, if_pos h2]
    exact hcs
  · rw [if_neg (show ¬((fun c : Cell => c.state == s) l[i]) = true by simp [h1]),
      if_neg (show ¬((fun c : Cell => c.state == s) a) = true by simp [h2])] at hcs
    rw [if_neg h1, if_neg h2]
    exact hcs

theorem hiddenCount_eq_countP (g : Minesweeper) :
    hiddenCount g = g.cells.countP (fun c => c.state == CellState.Hidden) :=
  (List.countP_eq_length_filter _ _).symm

/-- Sources available to the wave mid-fold: one hop from a stack entry, or
a not-yet-processed neighbor of the popped cell. -/
def floodSrc (g : Minesweeper) (st todo : List (Nat × Nat)) (q : Nat × Nat) : Prop :=
  stackSrc g st q ∨ q ∈ todo

/-- Exactness invariant of the flood-fill loop, relative to the pre-click
board `g` and the clicked `(row, col)`: geometry and contents are those of
`g`; every state agrees with the board that has only the clicked cell
revealed, except for revealed fill-reachable cells; stack entries are the
clicked cell or fill-reachable hidden empty cells; and every fill-reachable
cell not yet revealed is still connected to the worklist. -/
def FloodInv (g : Minesweeper) (row col : Nat) (B : Minesweeper)
    (st : List (Nat × Nat)) (src : Nat × Nat → Prop) : Prop :=
  B.rows = g.rows ∧ B.cols = g.cols ∧ B.cells.length = g.cells.length ∧
  (∀ j, (getCell B j).content = (getCell g j).content) ∧
  (∀ j, (getCell B j).state = (getCell (revealCellSet g (g.index row col)) j).state ∨
    ((getCell (revealCellSet g (g.index row col)) j).state = .Hidden ∧
     (getCell B j).state = .Revealed ∧
     ∃ q : Nat × Nat, q.1 < g.rows ∧ q.2 < g.cols ∧ g.index q.1 q.2 = j ∧
       FillReach g row col q)) ∧
  (∀ p ∈ st, p.1 < g.rows ∧ p.2 < g.cols ∧
    (getCell g (g.index p.1 p.2)).content = .Empty ∧
    (p = (row, col) ∨ (FillReach g row col p ∧
      (getCell (revealCellSet g (g.index row col)) (g.index p.1 p.2)).state = .Hidden))) ∧
  (∀ q : Nat × Nat, q.1 < g.rows → q.2 < g.cols → FillReach g row col q →
    (getCell (revealCellSet g (g.index row col)) (g.index q.1 q.2)).state = .Hidden →
    (getCell B (g.index q.1 q.2)).state = .Revealed ∨
    ((getCell B (g.index q.1 q.2)).state = .Hidden ∧ WaveReach g B src q))

/-- Weakening the worklist-source of the exactness invariant. -/
theorem floodInv_mono_src {g : Minesweeper} {row col : Nat} {B : Minesweeper}
    {st : List (Nat × Nat)} {src src' : Nat × Nat → Prop}
    (h : ∀ x, src x → src' x)
    (hK : FloodInv g row col B st src) : FloodInv g row col B st src' := by
  obtain ⟨h1, h2, h3, h4, h5, h6, h7⟩ := hK
  refine ⟨h1, h2, h3, h4, h5, h6, fun q hqa hqb hf hx => ?_⟩
  rcases h7 q hqa hqb hf hx with hrev | ⟨hh, hw⟩
  · exact Or.inl hrev
  · exact Or.inr ⟨hh, waveReach_mono h hw⟩

/-- One `floodVisit` call preserves the exactness invariant and does not
increase the loop measure. -/
theorem floodVisit_exact (g : Minesweeper) (row col : Nat)
    (hlen : g.cells.length = g.rows * g.cols)
    (hidx : g.index row col < g.cells.length)
    (p : Nat × Nat) (hp1 : p.1 < g.rows) (hp2 : p.2 < g.cols)
    (hpe : (getCell g (g.index p.1 p.2)).content = .Empty)
    (hpgood : p = (row, col) ∨ (FillReach g row col p ∧
      (getCell (revealCellSet g (g.index row col)) (g.index p.1 p.2)).state = .Hidden))
    (acc : Minesweeper × List (Nat × Nat)) (q0 : Nat × Nat)
    (hq0 : q0 ∈ g.neighbors p.1 p.2) (todo : List (Nat × Nat))
    (htodo : ∀ x ∈ todo, x ∈ g.neighbors p.1 p.2)
    (hK : FloodInv g row col acc.1 acc.2 (floodSrc g acc.2 (q0 :: todo))) :
    FloodInv g row col (floodVisit acc q0).1 (floodVisit acc q0).2
      (floodSrc g (floodVisit acc q0).2 todo) ∧
    2 * hiddenCount (floodVisit acc q0).1 + (floodVisit acc q0).2.length ≤
      2 * hiddenCount acc.1 + acc.2.length := by
  obtain ⟨hRows, hCols, hLen, hCo, hSound, hStk, hComp⟩ := hK
  obtain ⟨hq01, hq02⟩ := mem_neighbors_bounds hq0
  have hidxeq : acc.1.index q0.1 q0.2 = g.index q0.1 q0.2 := index_congr hCols _ _
  have hidxq0g : g.index q0.1 q0.2 < g.cells.length := by
    rw [hlen]
    exact index_lt hq01 hq02
  have hidxq0 : acc.1.index q0.1 q0.2 < acc.1.cells.length := by
    rw [hidxeq, hLen]
    exact hidxq0g
  have hgetD : acc.1.cells.getD (acc.1.index q0.1 q0.2) Cell.new =
      getCell acc.1 (g.index q0.1 q0.2) := by
    rw [hidxeq]
    rfl
  have hsrcb : ∀ x, floodSrc g acc.2 (q0 :: todo) x → x.1 < g.rows ∧ x.2 < g.cols := by
    intro x hx
    rcases hx with ⟨s, _, hxs⟩ | hxt
    · exact mem_neighbors_bounds hxs
    · rcases List.mem_cons.mp hxt with rfl | hxt2
      · exact ⟨hq01, hq02⟩
      · exact mem_neighbors_bounds (htodo x hxt2)
  have hXstart : (getCell (revealCellSet g (g.index row col))
      (g.index row col)).state = .Revealed := by
    rw [revealCellSet_state, if_pos ⟨rfl, hidx⟩]
  by_cases hH : (acc.1.cells.getD (acc.1.index q0.1 q0.2) Cell.new).state = .Hidden
  · have hfv : floodVisit acc q0 = (revealCellSet acc.1 (acc.1.index q0.1 q0.2),
        if (acc.1.cells.getD (acc.1.index q0.1 q0.2) Cell.new).content = .Empty
        then q0 :: acc.2 else acc.2) := by
      unfold floodVisit
      dsimp only
      rw [if_pos hH]
      split_ifs <;> rfl
    have hHg : (getCell acc.1 (g.index q0.1 q0.2)).state = .Hidden := by
      rw [← hgetD]
      exact hH
    have hXq0H : (getCell (revealCellSet g (g.index row col))
        (g.index q0.1 q0.2)).state = .Hidden := by
      rcases hSound (g.index q0.1 q0.2) with hs | ⟨_, hs, _⟩
      · rw [← hs]
        exact hHg
      · rw [hHg] at hs
        cases hs
    have hq0nstart : g.index q0.1 q0.2 ≠ g.index row col := by
      intro hcc
      rw [hcc, hXstart] at hXq0H
      cases hXq0H
    have hFRq0 : FillReach g row col q0 := by
      rcases hpgood with rfl | ⟨hFRp, hXpH⟩
      · exact FillReach.base q0 hq0
      · have hpnstart : g.index p.1 p.2 ≠ g.index row col := by
          intro hcc
          rw [hcc, hXstart] at hXpH
          cases hXpH
        have hgpH : (getCell g (g.index p.1 p.2)).state = .Hidden := by
          rw [revealCellSet_state] at hXpH
          rcases Decidable.em (g.index row col = g.index p.1 p.2 ∧
              g.index p.1 p.2 < g.cells.length) with hcase | hcase
          · exact absurd hcase.1.symm hpnstart
          · rw [if_neg hcase] at hXpH
            exact hXpH
        exact FillReach.step p q0 hFRp hpnstart hgpH hpe hq0
    have hBstate : ∀ j, (getCell (revealCellSet acc.1 (acc.1.index q0.1 q0.2)) j).state =
        if g.index q0.1 q0.2 = j ∧ j < acc.1.cells.length then CellState.Revealed
        else (getCell acc.1 j).state := by
      intro j
      rw [revealCellSet_state, hidxeq]
    have hBco : ∀ j, (getCell (revealCellSet acc.1 (acc.1.index q0.1 q0.2)) j).content =
        (getCell acc.1 j).content := revealCellSet_content acc.1 _
    have hpush : (getCell acc.1 (g.index q0.1 q0.2)).content = .Empty →
        q0 ∈ (floodVisit acc q0).2 := by
      intro hE
      rw [hfv]
      rw [if_pos (by rw [hgetD]; exact hE)]
      exact List.mem_cons_self _ _
    have hstackmono : ∀ x ∈ acc.2, x ∈ (floodVisit acc q0).2 := by
      intro x hx
      rw [hfv]
      split_ifs
      · exact List.mem_cons_of_mem _ hx
      · exact hx
    have hfv1 : (floodVisit acc q0).1 = revealCellSet acc.1 (acc.1.index q0.1 q0.2) := by
      rw [hfv]
    have hmeas : 2 * hiddenCount (floodVisit acc q0).1 + (floodVisit acc q0).2.length ≤
        2 * hiddenCount acc.1 + acc.2.length := by
      have hgel : acc.1.cells.getD (acc.1.index q0.1 q0.2) Cell.new =
          acc.1.cells[acc.1.index q0.1 q0.2] := getCell_eq_of_mem hidxq0
      have hhc := state_countP_set_eq CellState.Hidden acc.1.cells
        (acc.1.index q0.1 q0.2)
        { acc.1.cells.getD (acc.1.index q0.1 q0.2) Cell.new with state := .Revealed } hidxq0
      rw [if_pos (show acc.1.cells[acc.1.index q0.1 q0.2].state = CellState.Hidden by
          rw [← hgel]; exact hH),
        if_neg (show ¬(({ acc.1.cells.getD (acc.1.index q0.1 q0.2) Cell.new with
          state := CellState.Revealed } : Cell).state = CellState.Hidden) by
          intro hcc; cases hcc)] at hhc
      have hhc2 : hiddenCount (revealCellSet acc.1 (acc.1.index q0.1 q0.2)) + 1 =
          hiddenCount acc.1 := by
        rw [hiddenCount_eq_countP, hiddenCount_eq_countP]
        exact hhc
      have hlen2 : (floodVisit acc q0).2.length ≤ acc.2.length + 1 := by
        rw [hfv]
        split_ifs
        · exact Nat.le_refl (acc.2.length + 1)
        · exact Nat.le_succ _
      rw [hfv1]
      omega
    have hrepair : ∀ z, WaveReach g acc.1 (floodSrc g acc.2 (q0 :: todo)) z →
        WaveReach g (floodVisit acc q0).1 (floodSrc g (floodVisit acc q0).2 todo) z ∨
        z = q0 := by
      intro z hz
      induction hz with
      | base z hzsrc =>
        rcases hzsrc with ⟨s, hs, hzs⟩ | hztodo
        · exact Or.inl (WaveReach.base z (Or.inl ⟨s, hstackmono s hs, hzs⟩))
        · rcases List.mem_cons.mp hztodo with rfl | hzt
          · exact Or.inr rfl
          · exact Or.inl (WaveReach.base z (Or.inr hzt))
      | step m z hm hmH hmE hzm ih =>
        obtain ⟨hmb1, hmb2⟩ := waveReach_bounds hsrcb hm
        rcases ih with ihw | rfl
        · by_cases hmidx : g.index m.1 m.2 = g.index q0.1 q0.2
          · obtain ⟨he1, he2⟩ := index_inj hmb2 hq02 hmidx
            have hm0 : m = q0 := by
              rw [Prod.ext_iff]
              exact ⟨he1, he2⟩
            rw [hm0] at hmE hzm
            exact Or.inl (WaveReach.base z (Or.inl ⟨q0, hpush hmE, hzm⟩))
          · refine Or.inl (WaveReach.step m z ihw ?_ ?_ hzm)
            · rw [hfv1, hBstate (g.index m.1 m.2), if_neg (fun hcc => hmidx hcc.1.symm)]
              exact hmH
            · rw [hfv1, hBco (g.index m.1 m.2)]
              exact hmE
        · exact Or.inl (WaveReach.base z (Or.inl ⟨m, hpush hmE, hzm⟩))
    refine ⟨⟨?_, ?_, ?_, ?_, ?_, ?_, ?_⟩, hmeas⟩
    · rw [hfv1]
      exact hRows
    · rw [hfv1]
      exact hCols
    · rw [hfv1]
      rw [revealCellSet_length]
      exact hLen
    · intro j
      rw [hfv1, hBco j]
      exact hCo j
    · intro j
      rw [hfv1, hBstate j]
      split_ifs with hcase
      · right
        obtain ⟨hj1, hj2⟩ := hcase
        refine ⟨by rw [← hj1]; exact hXq0H, rfl, q0, hq01, hq02, hj1, hFRq0⟩
      · exact hSound j
    · intro x hx
      rw [hfv] at hx
      by_cases hE : (acc.1.cells.getD (acc.1.index q0.1 q0.2) Cell.new).content = .Empty
      · rw [if_pos hE] at hx
        rcases List.mem_cons.mp hx with rfl | hxold
        · refine ⟨hq01, hq02, ?_, Or.inr ⟨hFRq0, hXq0H⟩⟩
          rw [← hCo (g.index x.1 x.2), ← hgetD]
          exact hE
        · exact hStk x hxold
      · rw [if_neg hE] at hx
        exact hStk x hx
    · intro q hqa hqb hFRq hXqH
      by_cases hqidx : g.index q.1 q.2 = g.index q0.1 q0.2
      · left
        rw [hfv1, hBstate (g.index q.1 q.2), if_pos ⟨hqidx.symm, by
          rw [hLen, hqidx]; exact hidxq0g⟩]
      · rcases hComp q hqa hqb hFRq hXqH with hrev | ⟨hhid, hwave⟩
        · left
          rw [hfv1, hBstate (g.index q.1 q.2), if_neg (fun hcc => hqidx hcc.1.symm)]
          exact hrev
        · refine Or.inr ⟨by
            rw [hfv1, hBstate (g.index q.1 q.2), if_neg (fun hcc => hqidx hcc.1.symm)]
            exact hhid, ?_⟩
          rcases hrepair q hwave with hw' | rfl
          · exact hw'
          · exact absurd rfl hqidx
  · have hfv : floodVisit acc q0 = acc := by
      unfold floodVisit
      dsimp only
      rw [if_neg hH]
    rw [hfv]
    refine ⟨⟨hRows, hCols, hLen, hCo, hSound, hStk, ?_⟩, Nat.le_refl _⟩
    intro q hqa hqb hFRq hXqH
    rcases hComp q hqa hqb hFRq hXqH with hrev | ⟨hhid, hwave⟩
    · exact Or.inl hrev
    · refine Or.inr ⟨hhid, ?_⟩
      have hrepair : ∀ z, WaveReach g acc.1 (floodSrc g acc.2 (q0 :: todo)) z →
          WaveReach g acc.1 (floodSrc g acc.2 todo) z ∨ z = q0 := by
        intro z hz
        induction hz with
        | base z hzsrc =>
          rcases hzsrc with hss | hztodo
          · exact Or.inl (WaveReach.base z (Or.inl hss))
          · rcases List.mem_cons.mp hztodo with rfl | hzt
            · exact Or.inr rfl
            · exact Or.inl (WaveReach.base z (Or.inr hzt))
        | step m z hm hmH hmE hzm ih =>
          rcases ih with ihw | rfl
          · exact Or.inl (WaveReach.step m z ihw hmH hmE hzm)
          · rw [← hgetD] at hmH
            exact absurd hmH hH
      rcases hrepair q hwave with hw' | rfl
      · exact hw'
      · rw [← hgetD] at hhid
        exact absurd hhid hH

/-- Folding `floodVisit` over (a suffix of) the popped cell's neighbor
list preserves the exactness invariant and the measure bound. -/
theorem floodFold_exact (g : Minesweeper) (row col : Nat)
    (hlen : g.cells.length = g.rows * g.cols)
    (hidx : g.index row col < g.cells.length)
    (p : Nat × Nat) (hp1 : p.1 < g.rows) (hp2 : p.2 < g.cols)
    (hpe : (getCell g (g.index p.1 p.2)).content = .Empty)
    (hpgood : p = (row, col) ∨ (FillReach g row col p ∧
      (getCell (revealCellSet g (g.index row col)) (g.index p.1 p.2)).state = .Hidden)) :
    ∀ (todo : List (Nat × Nat)) (acc : Minesweeper × List (Nat × Nat)),
    (∀ x ∈ todo, x ∈ g.neighbors p.1 p.2) →
    FloodInv g row col acc.1 acc.2 (floodSrc g acc.2 todo) →
    FloodInv g row col (todo.foldl floodVisit acc).1 (todo.foldl floodVisit acc).2
      (floodSrc g (todo.foldl floodVisit acc).2 []) ∧
    2 * hiddenCount (todo.foldl floodVisit acc).1 + (todo.foldl floodVisit acc).2.length ≤
      2 * hiddenCount acc.1 + acc.2.length := by
  intro todo
  induction todo with
  | nil =>
    intro acc _ hK
    exact ⟨hK, Nat.le_refl _⟩
  | cons q0 rest ih =>
    intro acc htodo hK
    have hstep := floodVisit_exact g row col hlen hidx p hp1 hp2 hpe hpgood acc q0
      (htodo q0 (List.mem_cons_self _ _)) rest
      (fun x hx => htodo x (List.mem_cons_of_mem _ hx)) hK
    have hrec := ih (floodVisit acc q0)
      (fun x hx => htodo x (List.mem_cons_of_mem _ hx)) hstep.1
    rw [List.foldl_cons]
    exact ⟨hrec.1, Nat.le_trans hrec.2 hstep.2⟩

theorem floodLoop_succ_cons (fuel : Nat) (g : Minesweeper) (p : Nat × Nat)
    (rest : List (Nat × Nat)) :
    floodLoop (fuel + 1) g (p :: rest) =
      floodLoop fuel ((g.neighbors p.1 p.2).foldl floodVisit (g, rest)).1
        ((g.neighbors p.1 p.2).foldl floodVisit (g, rest)).2 := rfl

/-- The flood-fill loop, run with enough fuel, empties the worklist while
preserving the exactness invariant. -/
theorem floodLoop_exact (g : Minesweeper) (row col : Nat)
    (hlen : g.cells.length = g.rows * g.cols)
    (hidx : g.index row col < g.cells.length) :
    ∀ (fuel : Nat) (B : Minesweeper) (st : List (Nat × Nat)),
    FloodInv g row col B st (stackSrc g st) →
    2 * hiddenCount B + st.length ≤ fuel →
    FloodInv g row col (floodLoop fuel B st) [] (stackSrc g ([] : List (Nat × Nat))) := by
  intro fuel
  induction fuel with
  | zero =>
    intro B st hK hfuel
    have hst : st = [] := by
      have := List.eq_nil_of_length_eq_zero (show st.length = 0 by omega)
      exact this
    rw [hst] at hK
    exact hK
  | succ n ih =>
    intro B st hK hfuel
    match st with
    | [] => exact hK
    | p :: rest =>
      obtain ⟨hp1, hp2, hpe, hpgood⟩ := hK.2.2.2.2.2.1 p (List.mem_cons_self _ _)
      have hK' : FloodInv g row col B rest (floodSrc g rest (g.neighbors p.1 p.2)) := by
        obtain ⟨h1, h2, h3, h4, h5, h6, h7⟩ := hK
        refine ⟨h1, h2, h3, h4, h5,
          fun x hx => h6 x (List.mem_cons_of_mem _ hx),
          fun q hqa hqb hf hx => ?_⟩
        rcases h7 q hqa hqb hf hx with hrev | ⟨hh, hw⟩
        · exact Or.inl hrev
        · refine Or.inr ⟨hh, waveReach_mono ?_ hw⟩
          intro x hxs
          obtain ⟨s, hs, hxs2⟩ := hxs
          rcases List.mem_cons.mp hs with rfl | hs2
          · exact Or.inr hxs2
          · exact Or.inl ⟨s, hs2, hxs2⟩
      have hfold := floodFold_exact g row col hlen hidx p hp1 hp2 hpe hpgood
        (g.neighbors p.1 p.2) (B, rest) (fun x hx => hx) hK'
      have hnb : B.neighbors p.1 p.2 = g.neighbors p.1 p.2 :=
        neighbors_congr hK.1 hK.2.1 p.1 p.2
      have hinv' : FloodInv g row col ((g.neighbors p.1 p.2).foldl floodVisit (B, rest)).1
          ((g.neighbors p.1 p.2).foldl floodVisit (B, rest)).2
          (stackSrc g ((g.neighbors p.1 p.2).foldl floodVisit (B, rest)).2) :=
        floodInv_mono_src
          (fun x hx => hx.elim id (fun h => absurd h (List.not_mem_nil x))) hfold.1
      have hlc : (p :: rest).length = rest.length + 1 := List.length_cons _ _
      have hfuel' : 2 * hiddenCount ((g.neighbors p.1 p.2).foldl floodVisit (B, rest)).1 +
          ((g.neighbors p.1 p.2).foldl floodVisit (B, rest)).2.length ≤ n := by
        have h2 : 2 * hiddenCount ((g.neighbors p.1 p.2).foldl floodVisit (B, rest)).1 +
            ((g.neighbors p.1 p.2).foldl floodVisit (B, rest)).2.length ≤
            2 * hiddenCount B + rest.length := hfold.2
        omega
      rw [floodLoop_succ_cons, hnb]
      exact ih _ _ hinv' hfuel'

/-- With an empty worklist there are no wave sources, so nothing is
wave-reachable. -/
theorem waveReach_empty_src {g B : Minesweeper} {q : Nat × Nat}
    (h : WaveReach g B (stackSrc g ([] : List (Nat × Nat))) q) : False := by
  induction h with
  | base q hq =>
    obtain ⟨s, hs, _⟩ := hq
    exact absurd hs (List.not_mem_nil s)
  | step _ _ _ _ _ _ ih => exact ih

/-- The flood fill of the `Empty` branch of `reveal`, started on the board
with the clicked cell freshly revealed, terminates with the exactness
invariant and an empty worklist. -/
theorem flood_fill_floodInv (g : Minesweeper) (row col : Nat)
    (hlen : g.cells.length = g.rows * g.cols)
    (hr : row < g.rows) (hc : col < g.cols)
    (hcc : (getCell g (g.index row col)).content = .Empty) :
    FloodInv g row col (flood_fill (revealCellSet g (g.index row col)) row col) []
      (stackSrc g ([] : List (Nat × Nat))) := by
  have hidx : g.index row col < g.cells.length := by
    rw [hlen]
    exact index_lt hr hc
  have hwave : ∀ z, FillReach g row col z →
      WaveReach g (revealCellSet g (g.index row col)) (stackSrc g [(row, col)]) z := by
    intro z hz
    induction hz with
    | base q hq => exact WaveReach.base q ⟨(row, col), List.mem_cons_self _ _, hq⟩
    | step pp q hpp hne hpH hpE hq ih =>
      refine WaveReach.step pp q ih ?_ ?_ hq
      · rw [revealCellSet_state, if_neg (fun hcc2 => hne hcc2.1.symm)]
        exact hpH
      · rw [revealCellSet_content]
        exact hpE
  have hinit : FloodInv g row col (revealCellSet g (g.index row col)) [(row, col)]
      (stackSrc g [(row, col)]) := by
    refine ⟨rfl, rfl, revealCellSet_length g _, revealCellSet_content g _,
      fun j => Or.inl rfl, ?_, ?_⟩
    · intro x hx
      rcases List.mem_cons.mp hx with rfl | hx2
      · exact ⟨hr, hc, hcc, Or.inl rfl⟩
      · exact absurd hx2 (List.not_mem_nil x)
    · intro q hqa hqb hf hx
      exact Or.inr ⟨hx, hwave q hf⟩
  have hf : hiddenCount (revealCellSet g (g.index row col)) ≤
      (revealCellSet g (g.index row col)).cells.length := List.length_filter_le _ _
  have h1 : ([(row, col)] : List (Nat × Nat)).length = 1 := rfl
  exact floodLoop_exact g row col hlen hidx
    (2 * (revealCellSet g (g.index row col)).cells.length + 1)
    (revealCellSet g (g.index row col)) [(row, col)] hinit (by omega)

/-- Every member of the Empty component has `Empty` content (the clicked
cell by hypothesis, the others by construction). -/
theorem emptyComp_content {g : Minesweeper} {row col : Nat}
    (hcc : contentAt g (row, col) = .Empty) :
    ∀ q, EmptyComp g row col q → contentAt g q = .Empty := by
  intro q hq
  induction hq with
  | base => exact hcc
  | step p q _ hqE _ _ => exact hqE

/-- On a board whose cells are all `Hidden`, the set the flood fill can
reach (plus the clicked cell) is exactly the claim's reveal set: the Empty
component of the clicked cell together with its `Number` border. -/
theorem fillReach_iff_spec (g : Minesweeper) (row col : Nat)
    (hr : row < g.rows) (hc : col < g.cols)
    (hallH : ∀ q : Nat × Nat, q.1 < g.rows → q.2 < g.cols → stateAt g q = .Hidden)
    (hnb : EmptyNbrOK g)
    (hcc : contentAt g (row, col) = .Empty) :
    ∀ q : Nat × Nat, (q = (row, col) ∨ FillReach g row col q) ↔ SpecRevealSet g row col q := by
  have hcore : ∀ z, EmptyComp g row col z → z = (row, col) ∨ FillReach g row col z := by
    intro z hz
    induction hz with
    | base => exact Or.inl rfl
    | step p q hp hqE hqn ih =>
      rcases ih with rfl | hfp
      · exact Or.inr (FillReach.base q hqn)
      · obtain ⟨hpb1, hpb2⟩ := fillReach_bounds hfp
        rcases Decidable.em (g.index p.1 p.2 = g.index row col) with heq | hne
        · obtain ⟨h1, h2⟩ := index_inj hpb2 hc heq
          have hp0 : p = (row, col) := by
            rw [Prod.ext_iff]
            exact ⟨h1, h2⟩
          rw [hp0] at hqn
          exact Or.inr (FillReach.base q hqn)
        · exact Or.inr (FillReach.step p q hfp hne (hallH p hpb1 hpb2)
            (emptyComp_content hcc p hp) hqn)
  intro q
  constructor
  · intro h
    rcases h with rfl | hf
    · exact Or.inl EmptyComp.base
    · induction hf with
      | base q hq =>
        cases hcq : contentAt g q with
        | Mine => exact absurd hcq (hnb row col hr hc hcc q hq)
        | Empty => exact Or.inl (EmptyComp.step (row, col) q EmptyComp.base hcq hq)
        | Number k => exact Or.inr ⟨⟨k, hcq⟩, (row, col), EmptyComp.base, hq⟩
      | step p q hp hne hpH hpE hq ih =>
        have hpcomp : EmptyComp g row col p := by
          rcases ih with hcE | ⟨⟨k, hk⟩, _⟩
          · exact hcE
          · rw [hpE] at hk
            cases hk
        obtain ⟨hpb1, hpb2⟩ := fillReach_bounds hp
        cases hcq : contentAt g q with
        | Mine => exact absurd hcq (hnb p.1 p.2 hpb1 hpb2 hpE q hq)
        | Empty => exact Or.inl (EmptyComp.step p q hpcomp hcq hq)
        | Number k => exact Or.inr ⟨⟨k, hcq⟩, p, hpcomp, hq⟩
  · intro h
    rcases h with hcE | ⟨⟨k, hk⟩, p, hpc, hqn⟩
    · exact hcore q hcE
    · rcases hcore p hpc with rfl | hfp
      · exact Or.inr (FillReach.base q hqn)
      · obtain ⟨hpb1, hpb2⟩ := fillReach_bounds hfp
        rcases Decidable.em (g.index p.1 p.2 = g.index row col) with heq | hne
        · obtain ⟨h1, h2⟩ := index_inj hpb2 hc heq
          have hp0 : p = (row, col) := by
            rw [Prod.ext_iff]
            exact ⟨h1, h2⟩
          rw [hp0] at hqn
          exact Or.inr (FillReach.base q hqn)
        · exact Or.inr (FillReach.step p q hfp hne (hallH p hpb1 hpb2)
            (emptyComp_content hcc p hpc) hqn)

/-- `check_win` either leaves the board unchanged or ends with status
`Won`. -/
theorem check_win_eq_or_won (X : Minesweeper) :
    check_win X = X ∨ (check_win X).status = .Won := by
  unfold check_win
  split_ifs with h
  · right
    rfl
  · left
    rfl

/-- C3 (amended): on a board after mine placement whose cells are all still
`Hidden` (so status `Playing`, numbers consistent with the mines), revealing
an in-bounds cell of `Empty` content — provided the reveal does not win the
game — reveals exactly the connected component of `Empty` cells reachable
from it through Empty-to-Empty adjacency plus the `Number` cells bordering
that component, and changes the state of no cell outside that set.  (The
original unamended claim is refuted by
`flood_fill_misses_flagged_component_cell`: a `Flagged` cell inside the
component is skipped by the fill, which also cuts off everything behind
it.) -/
theorem flood_fill_exact (g : Minesweeper) (row col : Nat) (sh : List Nat)
    (g' : Minesweeper)
    (hlen : g.cells.length = g.rows * g.cols)
    (hp : g.status = .Playing)
    (hr : row < g.rows) (hc : col < g.cols)
    (hallH : ∀ q : Nat × Nat, q.1 < g.rows → q.2 < g.cols → stateAt g q = .Hidden)
    (hnb : EmptyNbrOK g)
    (hcc : contentAt g (row, col) = .Empty)
    (hrev : g.reveal row col sh = some g')
    (hnw : g'.status = .Playing) :
    g'.rows = g.rows ∧ g'.cols = g.cols ∧ g'.flags_placed = g.flags_placed ∧
    (∀ q : Nat × Nat, q.1 < g.rows → q.2 < g.cols →
      contentAt g' q = contentAt g q ∧
      (stateAt g' q = .Revealed ↔ SpecRevealSet g row col q) ∧
      (¬ SpecRevealSet g row col q → stateAt g' q = stateAt g q)) := by
  have hidx : g.index row col < g.cells.length := by
    rw [hlen]
    exact index_lt hr hc
  have hstH : (g.cells.getD (g.index row col) Cell.new).state = .Hidden :=
    hallH (row, col) hr hc
  have hstF : (g.cells.getD (g.index row col) Cell.new).state ≠ .Flagged := by
    rw [hstH]
    intro hcon
    cases hcon
  have hstR : (g.cells.getD (g.index row col) Cell.new).state ≠ .Revealed := by
    rw [hstH]
    intro hcon
    cases hcon
  have hccD : (g.cells.getD (g.index row col) Cell.new).content = .Empty := hcc
  have hrveq := reveal_eq_of_empty g row col sh hp hidx hstF hstR hccD
  rw [hrveq] at hrev
  have hg' : g' = check_win (flood_fill (revealCellSet g (g.index row col)) row col) :=
    (Option.some.inj hrev).symm
  rcases check_win_eq_or_won (flood_fill (revealCellSet g (g.index row col)) row col)
    with hcwE | hcwW
  · have hgF : g' = flood_fill (revealCellSet g (g.index row col)) row col :=
      hg'.trans hcwE
    subst hgF
    have hmain := flood_fill_main g row col hnb hr hc hccD
    obtain ⟨hRows, hCols, hLen, hCo, hSound, hstk0, hComp⟩ :=
      flood_fill_floodInv g row col hlen hr hc hcc
    have hbr := fillReach_iff_spec g row col hr hc hallH hnb hcc
    refine ⟨hRows, hCols, hmain.2.2.2.2.1, ?_⟩
    intro q hqa hqb
    have hjlen : g.index q.1 q.2 < g.cells.length := by
      rw [hlen]
      exact index_lt hqa hqb
    have hidxc : (flood_fill (revealCellSet g (g.index row col)) row col).index q.1 q.2 =
        g.index q.1 q.2 := index_congr hCols q.1 q.2
    have hSt : stateAt (flood_fill (revealCellSet g (g.index row col)) row col) q =
        (getCell (flood_fill (revealCellSet g (g.index row col)) row col)
          (g.index q.1 q.2)).state := by
      show (getCell (flood_fill (revealCellSet g (g.index row col)) row col)
        ((flood_fill (revealCellSet g (g.index row col)) row col).index q.1 q.2)).state = _
      rw [hidxc]
    have hCt : contentAt (flood_fill (revealCellSet g (g.index row col)) row col) q =
        (getCell (flood_fill (revealCellSet g (g.index row col)) row col)
          (g.index q.1 q.2)).content := by
      show (getCell (flood_fill (revealCellSet g (g.index row col)) row col)
        ((flood_fill (revealCellSet g (g.index row col)) row col).index q.1 q.2)).content = _
      rw [hidxc]
    have hgq : (getCell g (g.index q.1 q.2)).state = .Hidden := hallH q hqa hqb
    refine ⟨?_, ⟨?_, ?_⟩, ?_⟩
    · rw [hCt, hCo (g.index q.1 q.2)]
      rfl
    · intro hrev2
      rw [hSt] at hrev2
      rcases hSound (g.index q.1 q.2) with hs | ⟨hXh, hFr, qq, hq1, hq2, hqidx, hFRqq⟩
      · rw [hs, revealCellSet_state] at hrev2
        rcases Decidable.em (g.index row col = g.index q.1 q.2 ∧
            g.index q.1 q.2 < g.cells.length) with hca | hca
        · obtain ⟨h1, h2⟩ := index_inj hc hqb hca.1
          have hq0 : q = (row, col) := by
            rw [Prod.ext_iff]
            exact ⟨h1.symm, h2.symm⟩
          exact (hbr q).mp (Or.inl hq0)
        · rw [if_neg hca, hgq] at hrev2
          cases hrev2
      · obtain ⟨h1, h2⟩ := index_inj hq2 hqb hqidx
        have hqq : qq = q := by
          rw [Prod.ext_iff]
          exact ⟨h1, h2⟩
        rw [hqq] at hFRqq
        exact (hbr q).mp (Or.inr hFRqq)
    · intro hspec
      rw [hSt]
      rcases (hbr q).mpr hspec with hq0 | hFRq
      · rcases hSound (g.index q.1 q.2) with hs | ⟨_, hFr, _⟩
        · rw [hs, revealCellSet_state, if_pos ⟨by rw [hq0], hjlen⟩]
        · exact hFr
      · by_cases hsj : g.index row col = g.index q.1 q.2
        · rcases hSound (g.index q.1 q.2) with hs | ⟨_, hFr, _⟩
          · rw [hs, revealCellSet_state, if_pos ⟨hsj, hjlen⟩]
          · exact hFr
        · have hXH : (getCell (revealCellSet g (g.index row col))
              (g.index q.1 q.2)).state = .Hidden := by
            rw [revealCellSet_state, if_neg (fun hcc2 => hsj hcc2.1)]
            exact hgq
          rcases hComp q hqa hqb hFRq hXH with hFrev | ⟨_, hwv⟩
          · exact hFrev
          · exact (waveReach_empty_src hwv).elim
    · intro hnspec
      rw [hSt]
      have hnq0 : ¬(q = (row, col) ∨ FillReach g row col q) := fun h => hnspec ((hbr q).mp h)
      rcases hSound (g.index q.1 q.2) with hs | ⟨hXh, hFr, qq, hq1, hq2, hqidx, hFRqq⟩
      · rw [hs, revealCellSet_state]
        rcases Decidable.em (g.index row col = g.index q.1 q.2 ∧
            g.index q.1 q.2 < g.cells.length) with hca | hca
        · obtain ⟨h1, h2⟩ := index_inj hc hqb hca.1
          exact absurd (Or.inl (by rw [Prod.ext_iff]; exact ⟨h1.symm, h2.symm⟩)) hnq0
        · rw [if_neg hca]
          rfl
      · obtain ⟨h1, h2⟩ := index_inj hq2 hqb hqidx
        have hqq : qq = q := by
          rw [Prod.ext_iff]
          exact ⟨h1, h2⟩
        rw [hqq] at hFRqq
        exact absurd (Or.inr hFRqq) hnq0
  · rw [hg', hcwW] at hnw
    cases hnw

/-- Counterexample board for the unamended C3: a 1x4 strip whose Empty
component {(0,0),(0,1)} contains a `Flagged` cell at (0,1). -/
def c3Board : Minesweeper :=
  { rows := 1, cols := 4, mines := 1,
    cells := [
      { content := .Empty, state := .Hidden, exploded := false, wrong_flag := false },
      { content := .Empty, state := .Flagged, exploded := false, wrong_flag := false },
      { content := .Number 1, state := .Hidden, exploded := false, wrong_flag := false },
      { content := .Mine, state := .Hidden, exploded := false, wrong_flag := false }],
    status := .Playing,
    flags_placed := 1 }

/-- Counterexample to C3 as stated: after mine placement (board `c3Board`,
status `Playing`), revealing the `Empty` cell (0,0) leaves the cell (0,1) —
a member of the Empty component, hence of the claim's reveal set —
unrevealed, because the flood fill skips `Flagged` cells. -/
theorem flood_fill_misses_flagged_component_cell :
    ∃ g', c3Board.reveal 0 0 [] = some g' ∧ g'.status = .Playing ∧
      contentAt c3Board (0, 0) = .Empty ∧ stateAt c3Board (0, 0) = .Hidden ∧
      SpecRevealSet c3Board 0 0 (0, 1) ∧ stateAt g' (0, 1) ≠ .Revealed := by
  refine ⟨(c3Board.reveal 0 0 []).getD c3Board, by decide, by decide, by decide, by decide,
    Or.inl (EmptyComp.step (0, 0) (0, 1) EmptyComp.base (by decide) (by decide)), by decide⟩

/-- Witness board for `flood_fill_exact`: a 1x4 strip fresh after mine
placement (all cells `Hidden`), with an `Empty` cell at (0,0). -/
def c3WitBoard : Minesweeper :=
  { rows := 1, cols := 4, mines := 1,
    cells := [
      { content := .Empty, state := .Hidden, exploded := false, wrong_flag := false },
      { content := .Number 1, state := .Hidden, exploded := false, wrong_flag := false },
      { content := .Mine, state := .Hidden, exploded := false, wrong_flag := false },
      { content := .Number 1, state := .Hidden, exploded := false, wrong_flag := false }],
    status := .Playing,
    flags_placed := 0 }

def c3WitG : Minesweeper := (c3WitBoard.reveal 0 0 []).getD c3WitBoard

theorem flood_fill_exact_witness :
    contentAt c3WitBoard (0, 0) = .Empty ∧
    c3WitBoard.reveal 0 0 [] = some c3WitG ∧
    c3WitG.status = .Playing ∧
    (c3WitG.rows = c3WitBoard.rows ∧ c3WitG.cols = c3WitBoard.cols ∧
      c3WitG.flags_placed = c3WitBoard.flags_placed ∧
      (∀ q : Nat × Nat, q.1 < c3WitBoard.rows → q.2 < c3WitBoard.cols →
        contentAt c3WitG q = contentAt c3WitBoard q ∧
        (stateAt c3WitG q = .Revealed ↔ SpecRevealSet c3WitBoard 0 0 q) ∧
        (¬ SpecRevealSet c3WitBoard 0 0 q → stateAt c3WitG q = stateAt c3WitBoard q))) :=
  ⟨by decide, by decide, by decide,
    flood_fill_exact c3WitBoard 0 0 [] c3WitG (by decide) rfl (by decide) (by decide)
      (by
        intro q h1 h2
        obtain ⟨a, b⟩ := q
        have h1' : a < 1 := h1
        have h2' : b < 4 := h2
        interval_cases a <;> interval_cases b <;> rfl)
      (by
        intro a b ha hb
        have ha' : a < 1 := ha
        have hb' : b < 4 := hb
        interval_cases a <;> interval_cases b <;> decide)
      (by decide) (by decide) (by decide)⟩
